import Mathlib

/-!
Grace hash join (`src/Join.cpp`): shallow embedding and verified properties.

The two functions of `src/Join.cpp`, `partition` and `probe`, are embedded as
pure state-passing functions.  The collaborators that `Join.cpp` only uses
(`Record`, `Page`, `Disk`, `Mem`, `Bucket` and the two constants of
`constants.hpp`) are not part of the sources; they are modelled from the
contracts of the specification (sections 3 and 6) and every such definition
says so in its doc comment.

Machine integers: every `uint` of `Join.cpp` is a natural number here.  The
only subtractions are `MEM_SIZE_IN_PAGE - 1`, `MEM_SIZE_IN_PAGE - 2` and
`RECORDS_PER_PAGE - 1`; they do not wrap when `MEM_SIZE_IN_PAGE ≥ 2` and
`RECORDS_PER_PAGE ≥ 1`, and below that the C++ code divides by zero or indexes
outside the frame pool, so that no wrap-around is modelled.
-/

namespace GHJ

/-! ## Collaborators -/

/-- Modelled from the spec: `Record` is a tuple with a join key (section 3);
the rest of the tuple is the field `data`. -/
structure Record where
  key : Nat
  data : Nat
deriving DecidableEq, Repr

/-- Modelled from the spec: `Record::operator==` "defines true join-key
equality" (section 6). -/
def Record.eq (a b : Record) : Bool := a.key == b.key

/-- Modelled from the spec: the constants of `constants.hpp` and the two hash
functions of `Record`, whose internals are out of scope; they are parameters of
the whole development. -/
structure Config where
  MEM_SIZE_IN_PAGE : Nat
  RECORDS_PER_PAGE : Nat
  partition_hash : Record → Nat
  probe_hash : Record → Nat

/-- Modelled from the spec: `Page` is a fixed-capacity ordered sequence of
records; the capacity is the constant `RECORDS_PER_PAGE`. -/
abbrev Page := List Record

/-- Modelled from the spec: `Page::size()`. -/
def Page.size (p : Page) : Nat := p.length

/-- Modelled from the spec: `Page::empty()`. -/
def Page.empty (p : Page) : Bool := p.isEmpty

/-- Modelled from the spec: `Page::full()`, the capacity predicate. -/
def Page.full (c : Config) (p : Page) : Bool := decide (c.RECORDS_PER_PAGE ≤ p.length)

/-- Modelled from the spec: `Page::loadRecord(r)` appends one record. -/
def Page.loadRecord (p : Page) (r : Record) : Page := p ++ [r]

/-- Modelled from the spec: `Page::loadPair(a, b)` appends the matched pair.  A
pair takes the two record slots `a`, `b` of the page: this is why the output
test of `probe` (`Join.cpp` line 134) asks for `RECORDS_PER_PAGE - 1` and not
for `full()`. -/
def Page.loadPair (p : Page) (a b : Record) : Page := p ++ [a, b]

/-- The pairs stored on an output page: its records read two by two. -/
def Page.pairs : Page → List (Record × Record)
  | a :: b :: rest => (a, b) :: Page.pairs rest
  | _ => []

/-- Modelled from the spec: `Disk` is a store of pages addressed by page ids
that are dense from 0 and grow only through a flush. -/
abbrev Disk := List Page

/-- Modelled from the spec: reading the disk page `id` (an id that was never
allocated reads as the empty page). -/
def Disk.read (d : Disk) (id : Nat) : Page := d.getD id []

/-- Modelled from the spec: `Mem` is the pool of buffer frames, one page per
frame index. -/
abbrev Mem := Nat → Page

/-- Modelled from the spec: `Mem::reset()` clears all frames to empty. -/
def Mem.reset : Mem := fun _ => []

/-- Modelled from the spec: `Mem::mem_page(frameIdx)`, read access. -/
def Mem.mem_page (m : Mem) (frameIdx : Nat) : Page := m frameIdx

/-- Write access through the handle returned by `Mem::mem_page(frameIdx)`. -/
def Mem.setPage (m : Mem) (frameIdx : Nat) (p : Page) : Mem :=
  fun j => if j = frameIdx then p else m j

/-- Modelled from the spec: `Mem::loadFromDisk(disk, diskPageId, frameIdx)`
overwrites the frame with the records of the disk page. -/
def Mem.loadFromDisk (m : Mem) (d : Disk) (diskPageId frameIdx : Nat) : Mem :=
  m.setPage frameIdx (d.read diskPageId)

/-- Modelled from the spec: `Mem::flushToDisk(disk, frameIdx)` writes the frame
as a new disk page, returns its id and empties the frame. -/
def Mem.flushToDisk (m : Mem) (d : Disk) (frameIdx : Nat) : Disk × Mem × Nat :=
  (d ++ [m.mem_page frameIdx], m.setPage frameIdx [], d.length)

/-- Modelled from the spec: `Bucket` is the manifest of one partition: left
page ids, right page ids, left record count, right record count. -/
structure Bucket where
  left_rel : List Nat
  right_rel : List Nat
  num_left_rel_record : Nat
  num_right_rel_record : Nat
deriving DecidableEq, Repr

/-- Modelled from the spec: the constructor `Bucket(disk)` gives an empty
manifest. -/
def Bucket.new : Bucket :=
  { left_rel := [], right_rel := [], num_left_rel_record := 0, num_right_rel_record := 0 }

/-- Modelled from the spec: `Bucket::get_left_rel()`. -/
def Bucket.get_left_rel (b : Bucket) : List Nat := b.left_rel

/-- Modelled from the spec: `Bucket::get_right_rel()`. -/
def Bucket.get_right_rel (b : Bucket) : List Nat := b.right_rel

/-- Modelled from the spec: `Bucket::add_left_rel_page(id)` is an "append-only
page-id registration, increments nothing automatically". -/
def Bucket.add_left_rel_page (b : Bucket) (id : Nat) : Bucket :=
  { b with left_rel := b.left_rel ++ [id] }

/-- Modelled from the spec: `Bucket::add_right_rel_page(id)` is an "append-only
page-id registration, increments nothing automatically". -/
def Bucket.add_right_rel_page (b : Bucket) (id : Nat) : Bucket :=
  { b with right_rel := b.right_rel ++ [id] }

/-! ## `partition` (`Join.cpp` lines 13-75)

The left pass (lines 20-44) and the right pass (lines 48-72) are the same text
up to `add_left_rel_page` / `add_right_rel_page`; the embedding shares them
through the parameter `Side`. -/

/-- Which relation a pass of `partition` is scanning. -/
inductive Side where
  | left
  | right
deriving DecidableEq, Repr

/-- The page list of a bucket for one relation. -/
def Bucket.rel (b : Bucket) : Side → List Nat
  | .left => b.get_left_rel
  | .right => b.get_right_rel

/-- The recorded count of a bucket for one relation. -/
def Bucket.num_rel_record (b : Bucket) : Side → Nat
  | .left => b.num_left_rel_record
  | .right => b.num_right_rel_record

/-- The call `add_left_rel_page` of the left pass, `add_right_rel_page` of the
right pass. -/
def Bucket.add_rel_page (b : Bucket) (side : Side) (id : Nat) : Bucket :=
  match side with
  | .left => b.add_left_rel_page id
  | .right => b.add_right_rel_page id

/-- The state threaded through `partition`: disk, memory and the vector
`partitions`. -/
structure PState where
  disk : Disk
  mem : Mem
  partitions : List Bucket

/-- Lines 30-31 (41-42, 58-59, 69-70): flush frame `bucket_idx` and register
the new page id in `partitions[bucket_idx]`. -/
def PState.flushBucket (s : PState) (side : Side) (bucket_idx : Nat) : PState :=
  let (disk, mem, flushed_page_id) := s.mem.flushToDisk s.disk bucket_idx
  { disk := disk, mem := mem,
    partitions := s.partitions.modify (fun b => b.add_rel_page side flushed_page_id) bucket_idx }

/-- Body of the record loop, lines 25-34 (53-62). -/
def partitionRecord (c : Config) (side : Side) (s : PState) (record : Record) : PState :=
  let bucket_idx := c.partition_hash record % (c.MEM_SIZE_IN_PAGE - 1)
  let s1 := if Page.full c (s.mem.mem_page bucket_idx) then s.flushBucket side bucket_idx else s
  { s1 with mem := s1.mem.setPage bucket_idx ((s1.mem.mem_page bucket_idx).loadRecord record) }

/-- Body of the page loop, lines 21-35 (49-63): load the input page into frame
`MEM_SIZE_IN_PAGE - 1` and scan its records in order.  The input frame is none
of the frames `bucket_idx < MEM_SIZE_IN_PAGE - 1` written by the scan. -/
def partitionPage (c : Config) (side : Side) (s : PState) (disk_page_id : Nat) : PState :=
  let input_buffer := c.MEM_SIZE_IN_PAGE - 1
  let s1 := { s with mem := s.mem.loadFromDisk s.disk disk_page_id input_buffer }
  (s1.mem.mem_page input_buffer).foldl (partitionRecord c side) s1

/-- Body of the final flush loop, lines 39-43 (67-71). -/
def flushRemaining (side : Side) (s : PState) (bucket_idx : Nat) : PState :=
  if !(s.mem.mem_page bucket_idx).empty then s.flushBucket side bucket_idx else s

/-- The page ids visited by `for (id = rel.first; id < rel.second; id++)`. -/
def pageIds (rel : Nat × Nat) : List Nat := List.range' rel.1 (rel.2 - rel.1)

/-- One pass of `partition` over a relation: lines 20-44 (48-72). -/
def partitionRel (c : Config) (side : Side) (s : PState) (rel : Nat × Nat) : PState :=
  let s1 := (pageIds rel).foldl (partitionPage c side) s
  (List.range (c.MEM_SIZE_IN_PAGE - 1)).foldl (flushRemaining side) s1

/-- The function `partition` of `Join.cpp`; the returned state holds the
returned vector and the disk and memory it leaves behind. -/
def partition (c : Config) (disk : Disk) (_mem : Mem) (left_rel right_rel : Nat × Nat) : PState :=
  let s0 : PState :=
    { disk := disk, mem := Mem.reset,
      partitions := List.replicate (c.MEM_SIZE_IN_PAGE - 1) Bucket.new }
  let s1 := partitionRel c .left s0 left_rel
  partitionRel c .right { s1 with mem := Mem.reset } right_rel

/-! ## `partition` over either reading of `Bucket`

`Bucket` is not among the sources and the specification describes its
`add_left_rel_page` / `add_right_rel_page` in two ways: as a registration of the
page id that "increments nothing" (the reading of the definitions above), and as
the calls through which the manifest, counts included, is "populated
incrementally ... as pages are flushed".  The definitions below are `partition`
again, line for line, with the call left as a parameter. -/

/-- Modelled from the spec: `Bucket::add_left_rel_page(id)` under the reading
in which the manifest is "populated incrementally via add_left_rel_page /
add_right_rel_page as pages are flushed": the id is registered and the number
of records of disk page `id`, read from the disk handed to the constructor
`Bucket(disk)` (line 15), is added to the left record count. -/
def Bucket.count_left_rel_page (d : Disk) (b : Bucket) (id : Nat) : Bucket :=
  { b with
    left_rel := b.left_rel ++ [id]
    num_left_rel_record := b.num_left_rel_record + (d.read id).length }

/-- Modelled from the spec: `Bucket::add_right_rel_page(id)` under the same
reading: the id is registered and the number of records of disk page `id` is
added to the right record count. -/
def Bucket.count_right_rel_page (d : Disk) (b : Bucket) (id : Nat) : Bucket :=
  { b with
    right_rel := b.right_rel ++ [id]
    num_right_rel_record := b.num_right_rel_record + (d.read id).length }

/-- An implementation of the two calls `add_left_rel_page` / `add_right_rel_page`:
the disk the bucket was constructed with, the bucket, the relation and the id. -/
abbrev BucketAdd := Disk → Bucket → Side → Nat → Bucket

/-- The calls that only register the page id. -/
def Bucket.registering : BucketAdd := fun _ b side id => b.add_rel_page side id

/-- The calls that register the page id and count the records of the page. -/
def Bucket.counting : BucketAdd := fun d b side id =>
  match side with
  | .left => b.count_left_rel_page d id
  | .right => b.count_right_rel_page d id

/-- Lines 30-31 (41-42, 58-59, 69-70) with the call `add_*_rel_page` as a
parameter: the bucket sees the disk after the flush. -/
def PState.flushBucketWith (add : BucketAdd) (s : PState) (side : Side) (bucket_idx : Nat) :
    PState :=
  let (disk, mem, flushed_page_id) := s.mem.flushToDisk s.disk bucket_idx
  { disk := disk, mem := mem,
    partitions := s.partitions.modify (fun b => add disk b side flushed_page_id) bucket_idx }

/-- Body of the record loop, lines 25-34 (53-62). -/
def partitionRecordWith (add : BucketAdd) (c : Config) (side : Side) (s : PState)
    (record : Record) : PState :=
  let bucket_idx := c.partition_hash record % (c.MEM_SIZE_IN_PAGE - 1)
  let s1 :=
    if Page.full c (s.mem.mem_page bucket_idx) then s.flushBucketWith add side bucket_idx else s
  { s1 with mem := s1.mem.setPage bucket_idx ((s1.mem.mem_page bucket_idx).loadRecord record) }

/-- Body of the page loop, lines 21-35 (49-63). -/
def partitionPageWith (add : BucketAdd) (c : Config) (side : Side) (s : PState)
    (disk_page_id : Nat) : PState :=
  let input_buffer := c.MEM_SIZE_IN_PAGE - 1
  let s1 := { s with mem := s.mem.loadFromDisk s.disk disk_page_id input_buffer }
  (s1.mem.mem_page input_buffer).foldl (partitionRecordWith add c side) s1

/-- Body of the final flush loop, lines 39-43 (67-71). -/
def flushRemainingWith (add : BucketAdd) (side : Side) (s : PState) (bucket_idx : Nat) : PState :=
  if !(s.mem.mem_page bucket_idx).empty then s.flushBucketWith add side bucket_idx else s

/-- One pass of `partition` over a relation: lines 20-44 (48-72). -/
def partitionRelWith (add : BucketAdd) (c : Config) (side : Side) (s : PState)
    (rel : Nat × Nat) : PState :=
  let s1 := (pageIds rel).foldl (partitionPageWith add c side) s
  (List.range (c.MEM_SIZE_IN_PAGE - 1)).foldl (flushRemainingWith add side) s1

/-- The function `partition` of `Join.cpp` over an implementation `add` of the
two calls of `Bucket`. -/
def partitionWith (add : BucketAdd) (c : Config) (disk : Disk) (_mem : Mem)
    (left_rel right_rel : Nat × Nat) : PState :=
  let s0 : PState :=
    { disk := disk, mem := Mem.reset,
      partitions := List.replicate (c.MEM_SIZE_IN_PAGE - 1) Bucket.new }
  let s1 := partitionRelWith add c .left s0 left_rel
  partitionRelWith add c .right { s1 with mem := Mem.reset } right_rel

/-! ## `probe` (`Join.cpp` lines 81-157) -/

/-- The state threaded through `probe`: disk, memory and `result_pages`. -/
structure RState where
  disk : Disk
  mem : Mem
  result_pages : List Nat

/-- Result of `probe`: the final state, or the `runtime_error` of line 112
together with the disk and memory at the throw. -/
inductive ProbeResult where
  | ok (s : RState)
  | overflow (disk : Disk) (mem : Mem)

/-- Body of the build loop, lines 107-115: the error is the throw of line 112. -/
def buildRecord (c : Config) (mem : Mem) (record : Record) : Except Mem Mem :=
  let hash_idx := c.probe_hash record % (c.MEM_SIZE_IN_PAGE - 2)
  if Page.full c (mem.mem_page hash_idx) then Except.error mem
  else Except.ok (mem.setPage hash_idx ((mem.mem_page hash_idx).loadRecord record))

/-- The record loop of the build phase, lines 106-116. -/
def buildRecords (c : Config) : Mem → List Record → Except Mem Mem
  | mem, [] => Except.ok mem
  | mem, record :: rest =>
    match buildRecord c mem record with
    | Except.error m => Except.error m
    | Except.ok m => buildRecords c m rest

/-- The page loop of the build phase, lines 102-117; the disk is only read. -/
def buildPages (c : Config) (disk : Disk) : Mem → List Nat → Except Mem Mem
  | mem, [] => Except.ok mem
  | mem, disk_page_id :: rest =>
    let input_buffer := c.MEM_SIZE_IN_PAGE - 2
    let m1 := mem.loadFromDisk disk disk_page_id input_buffer
    match buildRecords c m1 (m1.mem_page input_buffer) with
    | Except.error m => Except.error m
    | Except.ok m => buildPages c disk m rest

/-- Lines 135-136 (151-152): flush the result buffer and push the page id. -/
def RState.flushResult (s : RState) (result_buffer : Nat) : RState :=
  let (disk, mem, flushed_page_id) := s.mem.flushToDisk s.disk result_buffer
  { disk := disk, mem := mem, result_pages := s.result_pages ++ [flushed_page_id] }

/-- Lines 132-143: emit one matching pair into the result buffer. -/
def emitPair (c : Config) (left_is_smaller : Bool) (s : RState)
    (probe_record hash_record : Record) : RState :=
  let result_buffer := c.MEM_SIZE_IN_PAGE - 1
  let s1 :=
    if c.RECORDS_PER_PAGE - 1 ≤ (s.mem.mem_page result_buffer).size then
      s.flushResult result_buffer
    else s
  let result_page := s1.mem.mem_page result_buffer
  let loaded :=
    if left_is_smaller then result_page.loadPair hash_record probe_record
    else result_page.loadPair probe_record hash_record
  { s1 with mem := s1.mem.setPage result_buffer loaded }

/-- Body of the scan of one hash bucket, lines 129-144. -/
def probeMatch (c : Config) (left_is_smaller : Bool) (probe_record : Record)
    (s : RState) (hash_record : Record) : RState :=
  if probe_record.eq hash_record then emitPair c left_is_smaller s probe_record hash_record
  else s

/-- Body of the probe record loop, lines 124-145. -/
def probeRecord (c : Config) (left_is_smaller : Bool) (s : RState)
    (probe_record : Record) : RState :=
  let hash_idx := c.probe_hash probe_record % (c.MEM_SIZE_IN_PAGE - 2)
  (s.mem.mem_page hash_idx).foldl (probeMatch c left_is_smaller probe_record) s

/-- Body of the probe page loop, lines 120-146. -/
def probePage (c : Config) (left_is_smaller : Bool) (s : RState) (disk_page_id : Nat) : RState :=
  let input_buffer := c.MEM_SIZE_IN_PAGE - 2
  let s1 := { s with mem := s.mem.loadFromDisk s.disk disk_page_id input_buffer }
  (s1.mem.mem_page input_buffer).foldl (probeRecord c left_is_smaller) s1

/-- Body of the bucket loop of `probe`, lines 85-153. -/
def probeBucket (c : Config) (s : RState) (bucket : Bucket) : ProbeResult :=
  let s0 := { s with mem := Mem.reset }
  let left_pages := bucket.get_left_rel
  let right_pages := bucket.get_right_rel
  if left_pages.isEmpty || right_pages.isEmpty then ProbeResult.ok s0
  else
    let left_is_smaller := decide (bucket.num_left_rel_record ≤ bucket.num_right_rel_record)
    let smaller_pages := if left_is_smaller then left_pages else right_pages
    let larger_pages := if left_is_smaller then right_pages else left_pages
    let result_buffer := c.MEM_SIZE_IN_PAGE - 1
    match buildPages c s0.disk s0.mem smaller_pages with
    | Except.error m => ProbeResult.overflow s0.disk m
    | Except.ok m =>
      let s1 := larger_pages.foldl (probePage c left_is_smaller) { s0 with mem := m }
      ProbeResult.ok
        (if !(s1.mem.mem_page result_buffer).empty then s1.flushResult result_buffer else s1)

/-- The bucket loop of `probe`, lines 84-154. -/
def probeBuckets (c : Config) : RState → List Bucket → ProbeResult
  | s, [] => ProbeResult.ok s
  | s, bucket :: rest =>
    match probeBucket c s bucket with
    | ProbeResult.overflow d m => ProbeResult.overflow d m
    | ProbeResult.ok s1 => probeBuckets c s1 rest

/-- The function `probe` of `Join.cpp`. -/
def probe (c : Config) (disk : Disk) (mem : Mem) (partitions : List Bucket) : ProbeResult :=
  probeBuckets c { disk := disk, mem := mem, result_pages := [] } partitions

/-- The page ids returned by `probe`, when it returns. -/
def ProbeResult.pages : ProbeResult → Option (List Nat)
  | ProbeResult.ok s => some s.result_pages
  | ProbeResult.overflow _ _ => none

/-- The disk left behind by `probe`. -/
def ProbeResult.disk : ProbeResult → Disk
  | ProbeResult.ok s => s.disk
  | ProbeResult.overflow d _ => d

/-! ## Vocabulary of the specification -/

/-- The records stored on the disk pages `ids`, in page-list order and then in
record order. -/
def Disk.records (d : Disk) (ids : List Nat) : List Record := (ids.map d.read).flatten

/-- The partition index of a record, `partition_hash() % (MEM_SIZE_IN_PAGE - 1)`. -/
def partIdx (c : Config) (r : Record) : Nat := c.partition_hash r % (c.MEM_SIZE_IN_PAGE - 1)

/-- The sub-bucket index of a record, `probe_hash() % (MEM_SIZE_IN_PAGE - 2)`. -/
def hashIdx (c : Config) (r : Record) : Nat := c.probe_hash r % (c.MEM_SIZE_IN_PAGE - 2)

/-- The bucket at index `i` of the vector `partitions`. -/
def PState.bucket (s : PState) (i : Nat) : Bucket := (s.partitions[i]?).getD Bucket.new

/-- The records of partition `i` for one relation during a pass: those already
on its disk pages followed by those still in its output frame. -/
def PState.content (s : PState) (side : Side) (i : Nat) : List Record :=
  s.disk.records ((s.bucket i).rel side) ++ s.mem.mem_page i

/-- Every page id registered in a bucket names an existing disk page. -/
def PState.Valid (s : PState) : Prop :=
  ∀ b ∈ s.partitions, ∀ side : Side, ∀ id ∈ b.rel side, id < s.disk.length

/-- The records on all pages listed for relation `sd` in the buckets `bs`. -/
def bucketsRecords (d : Disk) (sd : Side) (bs : List Bucket) : List Record :=
  (bs.map (fun b => d.records (b.rel sd))).flatten

/-- A record with join key `k`. -/
def keyRecord (k : Nat) : Record := { key := k, data := 0 }

/-- The configuration of the concrete scenario of the specification
(`MEM_SIZE_IN_PAGE = 5`), with pages of four records and both hash functions
returning the key. -/
def scenarioConfig : Config :=
  { MEM_SIZE_IN_PAGE := 5, RECORDS_PER_PAGE := 4,
    partition_hash := fun r => r.key, probe_hash := fun r => r.key }

/-- The disk of the concrete scenario: the left relation on pages 0 and 1 (keys
1..6), the right relation on page 2 (keys 2, 4, 9). -/
def scenarioDisk : Disk :=
  [[keyRecord 1, keyRecord 2, keyRecord 3], [keyRecord 4, keyRecord 5, keyRecord 6],
   [keyRecord 2, keyRecord 4, keyRecord 9]]

/-- Every page id registered in a bucket names a non-empty disk page. -/
def PState.NonEmptyPages (s : PState) : Prop :=
  ∀ b ∈ s.partitions, ∀ side : Side, ∀ id ∈ b.rel side, s.disk.read id ≠ []

/-- The build side of a bucket, `smaller_pages` of `Join.cpp` line 95. -/
def Bucket.smaller_pages (b : Bucket) : List Nat :=
  if b.num_left_rel_record ≤ b.num_right_rel_record then b.get_left_rel else b.get_right_rel

/-- The probe side of a bucket, `larger_pages` of `Join.cpp` line 96. -/
def Bucket.larger_pages (b : Bucket) : List Nat :=
  if b.num_left_rel_record ≤ b.num_right_rel_record then b.get_right_rel else b.get_left_rel

/-- The pair written by lines 139-143 for a probe record and a matching record
of the hash table: the record of the left relation comes first. -/
def orient (left_is_smaller : Bool) (probe_record hash_record : Record) : Record × Record :=
  if left_is_smaller then (hash_record, probe_record) else (probe_record, hash_record)

/-- The pairs emitted for one probe record against the hash table `table`, in
the order of the scan of lines 128-144. -/
def matchesOf (c : Config) (left_is_smaller : Bool) (table : Mem) (p : Record) :
    List (Record × Record) :=
  ((table (hashIdx c p)).filter (fun h => p.eq h)).map (orient left_is_smaller p)

/-- The pairs emitted when the records `probeRecs` are streamed, in order,
against the hash table built from the records `build`. -/
def joinWith (c : Config) (left_is_smaller : Bool) (build probeRecs : List Record) :
    List (Record × Record) :=
  probeRecs.flatMap (fun p =>
    ((build.filter (fun h => decide (hashIdx c h = hashIdx c p))).filter
      (fun h => p.eq h)).map (orient left_is_smaller p))

/-- The pairs that `probe` emits for one bucket whose pages are on the disk
`d`, in emission order. -/
def bucketJoin (c : Config) (d : Disk) (b : Bucket) : List (Record × Record) :=
  if b.get_left_rel.isEmpty || b.get_right_rel.isEmpty then []
  else joinWith c (decide (b.num_left_rel_record ≤ b.num_right_rel_record))
    (d.records b.smaller_pages) (d.records b.larger_pages)

/-- The pairs stored on the disk pages `ids`, in page-list order. -/
def pagesPairs (d : Disk) (ids : List Nat) : List (Record × Record) :=
  (ids.map (fun id => (d.read id).pairs)).flatten

/-- The invariant of the probe phase of one bucket, relative to the state `s0`
in which the phase starts: `ext` are the pages flushed so far, `E` the pairs
emitted so far, `table` the hash table of the build phase. -/
structure RInv (c : Config) (table : Mem) (s0 s : RState) (ext : List Page)
    (E : List (Record × Record)) : Prop where
  disk : s.disk = s0.disk ++ ext
  pages : s.result_pages = s0.result_pages ++ List.range' s0.disk.length ext.length
  out : (ext.map Page.pairs).flatten ++ (s.mem.mem_page (c.MEM_SIZE_IN_PAGE - 1)).pairs = E
  even : (s.mem.mem_page (c.MEM_SIZE_IN_PAGE - 1)).length % 2 = 0
  bound : 2 ≤ c.RECORDS_PER_PAGE →
    (s.mem.mem_page (c.MEM_SIZE_IN_PAGE - 1)).length ≤ c.RECORDS_PER_PAGE
  flushed : ∀ p ∈ ext, c.RECORDS_PER_PAGE - 1 ≤ p.length ∧ p.length % 2 = 0 ∧
    (2 ≤ c.RECORDS_PER_PAGE → p.length ≤ c.RECORDS_PER_PAGE)
  table : ∀ j, j < c.MEM_SIZE_IN_PAGE - 2 → s.mem j = table j

/-- A configuration whose two hash functions return the join key. -/
def keyConfig (memSize recordsPerPage : Nat) : Config :=
  { MEM_SIZE_IN_PAGE := memSize, RECORDS_PER_PAGE := recordsPerPage,
    partition_hash := fun r => r.key, probe_hash := fun r => r.key }

/-- A disk for the examples of `probe`: pages 0 and 1 hold keys 1, 2 and 3,
page 2 holds three records with key 1. -/
def probeDisk : Disk :=
  [[keyRecord 1, keyRecord 2], [keyRecord 3], [keyRecord 1, keyRecord 1, keyRecord 1]]

/-- A disk whose records are told apart by their data: page 0 holds two left
records, page 1 one right record with key 1. -/
def orderDisk : Disk :=
  [[{ key := 1, data := 10 }, { key := 2, data := 20 }], [{ key := 1, data := 11 }]]

/-- The disk of the no-match scenario: one left page with one record (key 1)
and one right page with one record (key 2). -/
def noMatchDisk : Disk := [[keyRecord 1], [keyRecord 2]]

/-- The overflow condition of a bucket whose pages are on the disk `d`: both
page lists are non-empty and some sub-bucket index `h < MEM_SIZE_IN_PAGE - 2`
receives more than `RECORDS_PER_PAGE` records of the build side. -/
def Bucket.Overflows (c : Config) (d : Disk) (b : Bucket) : Prop :=
  b.get_left_rel ≠ [] ∧ b.get_right_rel ≠ [] ∧
  ∃ h, h < c.MEM_SIZE_IN_PAGE - 2 ∧
    c.RECORDS_PER_PAGE
      < ((d.records b.smaller_pages).filter (fun r => decide (hashIdx c r = h))).length

/-- A disk with skewed keys: the left relation (pages 0 and 1) holds three even
keys, the right relation (page 2) holds key 1. -/
def skewDisk : Disk := [[keyRecord 2, keyRecord 4], [keyRecord 6], [keyRecord 1]]

/-- The packing invariant of a pass of `partition` for relation `sd`.  For the
bucket indices `j ≥ n` (not yet reached by the final flush loop) every
registered page is full and the output frame holds at most a page; for the
indices `j < n` every registered page but the last is full and every page
holds between one record and a full page. -/
def PState.Packed (c : Config) (sd : Side) (n : Nat) (s : PState) : Prop :=
  ∀ j,
    (j < n →
      (∀ id ∈ ((s.bucket j).rel sd).dropLast, (s.disk.read id).length = c.RECORDS_PER_PAGE) ∧
      (∀ id ∈ (s.bucket j).rel sd,
        1 ≤ (s.disk.read id).length ∧ (s.disk.read id).length ≤ c.RECORDS_PER_PAGE)) ∧
    (n ≤ j →
      (∀ id ∈ (s.bucket j).rel sd, (s.disk.read id).length = c.RECORDS_PER_PAGE) ∧
      (j < c.MEM_SIZE_IN_PAGE - 1 → (s.mem j).length ≤ c.RECORDS_PER_PAGE))

/-- A relation of three pages of at most two records: four even keys and one
odd key. -/
def packDisk : Disk := [[keyRecord 2, keyRecord 4], [keyRecord 6, keyRecord 1], [keyRecord 8]]

/-- The counts of the buckets `bs` are the numbers of records on the pages of
their lists on the disk `d`, and every listed id names a page of `d`. -/
def Counted (d : Disk) (bs : List Bucket) : Prop :=
  ∀ b ∈ bs, (∀ side : Side, ∀ id ∈ b.rel side, id < d.length) ∧
    b.num_left_rel_record = (d.records b.get_left_rel).length ∧
    b.num_right_rel_record = (d.records b.get_right_rel).length

/-- The two page lists of a bucket. -/
def Bucket.lists (b : Bucket) : List Nat × List Nat := (b.get_left_rel, b.get_right_rel)

/-- Two states of `partition` with the same disk, the same memory and the same
page lists in their buckets (the counts may differ). -/
def PState.SameLists (s t : PState) : Prop :=
  t.disk = s.disk ∧ t.mem = s.mem ∧ t.partitions.map Bucket.lists = s.partitions.map Bucket.lists

/-- The invariant of one pass of `partition` (relation `sd`), relative to the
state `s0` at the start of the pass: `rs` are the records scanned so far. -/
structure PInv (c : Config) (sd : Side) (s0 s : PState) (rs : List Record) : Prop where
  len : s.partitions.length = s0.partitions.length
  valid : s.Valid
  disk : ∃ t, s.disk = s0.disk ++ t
  content : ∀ j, j < s0.partitions.length →
    s.content sd j = rs.filter (fun r => decide (partIdx c r = j))
  other : ∀ j sd', sd' ≠ sd → (s.bucket j).rel sd' = (s0.bucket j).rel sd'
  numl : ∀ j, (s.bucket j).num_left_rel_record = (s0.bucket j).num_left_rel_record
  numr : ∀ j, (s.bucket j).num_right_rel_record = (s0.bucket j).num_right_rel_record

/-! ## The calls made to the collaborators

Every call that `Join.cpp` makes to `Mem` and to `Page::loadRecord` /
`Page::loadPair`, and every `%`, is listed in program order by the functions
below.  They follow the same loops as `partition` and `probe` and take the
states from them. -/

/-- One call to a collaborator.  `loadRecord f full` is `Page::loadRecord` on
the page of frame `f`, `full` being the value of `full()` on that page at the
call; `modulus n` is an evaluation of `% n`. -/
inductive MemCall where
  | reset
  | loadFromDisk (diskPageId frameIdx : Nat)
  | mem_page (frameIdx : Nat)
  | flushToDisk (frameIdx : Nat)
  | loadRecord (frameIdx : Nat) (full : Bool)
  | loadPair (frameIdx : Nat)
  | modulus (n : Nat)
deriving DecidableEq, Repr

/-- The calls of a loop: those of the body at each iteration, in order. -/
def foldlCalls {σ α : Type} (step : σ → α → σ) (calls : σ → α → List MemCall) :
    σ → List α → List MemCall
  | _, [] => []
  | s, x :: xs => calls s x ++ foldlCalls step calls (step s x) xs

/-- Calls of lines 25-34 (53-62). -/
def partitionRecordCalls (c : Config) (side : Side) (s : PState) (record : Record) :
    List MemCall :=
  let bucket_idx := c.partition_hash record % (c.MEM_SIZE_IN_PAGE - 1)
  let s1 := if Page.full c (s.mem.mem_page bucket_idx) then s.flushBucket side bucket_idx else s
  [MemCall.modulus (c.MEM_SIZE_IN_PAGE - 1), MemCall.mem_page bucket_idx]
    ++ (if Page.full c (s.mem.mem_page bucket_idx) then [MemCall.flushToDisk bucket_idx] else [])
    ++ [MemCall.loadRecord bucket_idx (Page.full c (s1.mem.mem_page bucket_idx))]

/-- Calls of lines 21-35 (49-63). -/
def partitionPageCalls (c : Config) (side : Side) (s : PState) (disk_page_id : Nat) :
    List MemCall :=
  let input_buffer := c.MEM_SIZE_IN_PAGE - 1
  let s1 := { s with mem := s.mem.loadFromDisk s.disk disk_page_id input_buffer }
  [MemCall.loadFromDisk disk_page_id input_buffer, MemCall.mem_page input_buffer]
    ++ foldlCalls (partitionRecord c side) (partitionRecordCalls c side) s1
        (s1.mem.mem_page input_buffer)

/-- Calls of lines 39-43 (67-71). -/
def flushRemainingCalls (s : PState) (bucket_idx : Nat) : List MemCall :=
  [MemCall.mem_page bucket_idx]
    ++ (if !(s.mem.mem_page bucket_idx).empty then [MemCall.flushToDisk bucket_idx] else [])

/-- Calls of one pass of `partition`, lines 20-44 (48-72). -/
def partitionRelCalls (c : Config) (side : Side) (s : PState) (rel : Nat × Nat) :
    List MemCall :=
  foldlCalls (partitionPage c side) (partitionPageCalls c side) s (pageIds rel)
    ++ foldlCalls (flushRemaining side) flushRemainingCalls
        ((pageIds rel).foldl (partitionPage c side) s) (List.range (c.MEM_SIZE_IN_PAGE - 1))

/-- Calls of `partition`, lines 16-72. -/
def partitionCalls (c : Config) (disk : Disk) (left_rel right_rel : Nat × Nat) : List MemCall :=
  let s0 : PState :=
    { disk := disk, mem := Mem.reset,
      partitions := List.replicate (c.MEM_SIZE_IN_PAGE - 1) Bucket.new }
  let s1 := partitionRel c .left s0 left_rel
  [MemCall.reset] ++ partitionRelCalls c .left s0 left_rel ++ [MemCall.reset]
    ++ partitionRelCalls c .right { s1 with mem := Mem.reset } right_rel

/-- Calls of lines 107-115; after the throw of line 112 nothing is called. -/
def buildRecordCalls (c : Config) (mem : Mem) (record : Record) : List MemCall :=
  let hash_idx := c.probe_hash record % (c.MEM_SIZE_IN_PAGE - 2)
  [MemCall.modulus (c.MEM_SIZE_IN_PAGE - 2), MemCall.mem_page hash_idx]
    ++ (if Page.full c (mem.mem_page hash_idx) then []
        else [MemCall.loadRecord hash_idx (Page.full c (mem.mem_page hash_idx))])

/-- Calls of lines 106-116. -/
def buildRecordsCalls (c : Config) : Mem → List Record → List MemCall
  | _, [] => []
  | mem, record :: rest =>
    buildRecordCalls c mem record ++
      match buildRecord c mem record with
      | Except.error _ => []
      | Except.ok m => buildRecordsCalls c m rest

/-- Calls of lines 102-117. -/
def buildPagesCalls (c : Config) (disk : Disk) : Mem → List Nat → List MemCall
  | _, [] => []
  | mem, disk_page_id :: rest =>
    let input_buffer := c.MEM_SIZE_IN_PAGE - 2
    let m1 := mem.loadFromDisk disk disk_page_id input_buffer
    [MemCall.loadFromDisk disk_page_id input_buffer, MemCall.mem_page input_buffer]
      ++ buildRecordsCalls c m1 (m1.mem_page input_buffer) ++
      match buildRecords c m1 (m1.mem_page input_buffer) with
      | Except.error _ => []
      | Except.ok m => buildPagesCalls c disk m rest

/-- Calls of lines 132-143. -/
def emitPairCalls (c : Config) (s : RState) : List MemCall :=
  let result_buffer := c.MEM_SIZE_IN_PAGE - 1
  [MemCall.mem_page result_buffer]
    ++ (if c.RECORDS_PER_PAGE - 1 ≤ (s.mem.mem_page result_buffer).size then
          [MemCall.flushToDisk result_buffer] else [])
    ++ [MemCall.loadPair result_buffer]

/-- Calls of lines 129-144. -/
def probeMatchCalls (c : Config) (probe_record : Record) (s : RState) (hash_record : Record) :
    List MemCall :=
  if probe_record.eq hash_record then emitPairCalls c s else []

/-- Calls of lines 124-145. -/
def probeRecordCalls (c : Config) (left_is_smaller : Bool) (s : RState)
    (probe_record : Record) : List MemCall :=
  let hash_idx := c.probe_hash probe_record % (c.MEM_SIZE_IN_PAGE - 2)
  [MemCall.modulus (c.MEM_SIZE_IN_PAGE - 2), MemCall.mem_page hash_idx]
    ++ foldlCalls (probeMatch c left_is_smaller probe_record) (probeMatchCalls c probe_record) s
        (s.mem.mem_page hash_idx)

/-- Calls of lines 120-146. -/
def probePageCalls (c : Config) (left_is_smaller : Bool) (s : RState) (disk_page_id : Nat) :
    List MemCall :=
  let input_buffer := c.MEM_SIZE_IN_PAGE - 2
  let s1 := { s with mem := s.mem.loadFromDisk s.disk disk_page_id input_buffer }
  [MemCall.loadFromDisk disk_page_id input_buffer, MemCall.mem_page input_buffer]
    ++ foldlCalls (probeRecord c left_is_smaller) (probeRecordCalls c left_is_smaller) s1
        (s1.mem.mem_page input_buffer)

/-- Calls of one iteration of the bucket loop, lines 85-153. -/
def probeBucketCalls (c : Config) (s : RState) (bucket : Bucket) : List MemCall :=
  let s0 := { s with mem := Mem.reset }
  let left_is_smaller := decide (bucket.num_left_rel_record ≤ bucket.num_right_rel_record)
  let result_buffer := c.MEM_SIZE_IN_PAGE - 1
  [MemCall.reset] ++
    if bucket.get_left_rel.isEmpty || bucket.get_right_rel.isEmpty then []
    else
      buildPagesCalls c s0.disk s0.mem bucket.smaller_pages ++
        match buildPages c s0.disk s0.mem bucket.smaller_pages with
        | Except.error _ => []
        | Except.ok m =>
          let s1 := bucket.larger_pages.foldl (probePage c left_is_smaller) { s0 with mem := m }
          foldlCalls (probePage c left_is_smaller) (probePageCalls c left_is_smaller)
              { s0 with mem := m } bucket.larger_pages
            ++ [MemCall.mem_page result_buffer]
            ++ (if !(s1.mem.mem_page result_buffer).empty then
                  [MemCall.flushToDisk result_buffer] else [])

/-- Calls of the bucket loop of `probe`: nothing is called after a throw. -/
def probeBucketsCalls (c : Config) : RState → List Bucket → List MemCall
  | _, [] => []
  | s, bucket :: rest =>
    probeBucketCalls c s bucket ++
      match probeBucket c s bucket with
      | ProbeResult.overflow _ _ => []
      | ProbeResult.ok s1 => probeBucketsCalls c s1 rest

/-- Calls of `probe`. -/
def probeCalls (c : Config) (disk : Disk) (mem : Mem) (partitions : List Bucket) : List MemCall :=
  probeBucketsCalls c { disk := disk, mem := mem, result_pages := [] } partitions

/-- The preconditions of a call made by `partition`: frames below
`MEM_SIZE_IN_PAGE`, input pages loaded into frame `MEM_SIZE_IN_PAGE - 1`,
records written and frames flushed only in frames `0..MEM_SIZE_IN_PAGE - 2`,
`loadRecord` on a page that is not full, a non-zero modulus. -/
def MemCall.okInPartition (c : Config) : MemCall → Prop
  | MemCall.reset => True
  | MemCall.loadFromDisk _ f => f = c.MEM_SIZE_IN_PAGE - 1 ∧ f < c.MEM_SIZE_IN_PAGE
  | MemCall.mem_page f => f < c.MEM_SIZE_IN_PAGE
  | MemCall.flushToDisk f => f < c.MEM_SIZE_IN_PAGE - 1
  | MemCall.loadRecord f full => f < c.MEM_SIZE_IN_PAGE - 1 ∧ full = false
  | MemCall.loadPair _ => False
  | MemCall.modulus n => n = c.MEM_SIZE_IN_PAGE - 1 ∧ n ≠ 0

/-- The preconditions of a call made by `probe`: frames below
`MEM_SIZE_IN_PAGE`, build-side records written only to frames
`0..MEM_SIZE_IN_PAGE - 3` and never to a full page, frame
`MEM_SIZE_IN_PAGE - 2` the only target of `loadFromDisk`, frame
`MEM_SIZE_IN_PAGE - 1` the only target of `loadPair` and `flushToDisk`, a
non-zero modulus. -/
def MemCall.okInProbe (c : Config) : MemCall → Prop
  | MemCall.reset => True
  | MemCall.loadFromDisk _ f => f = c.MEM_SIZE_IN_PAGE - 2 ∧ f < c.MEM_SIZE_IN_PAGE
  | MemCall.mem_page f => f < c.MEM_SIZE_IN_PAGE
  | MemCall.flushToDisk f => f = c.MEM_SIZE_IN_PAGE - 1 ∧ f < c.MEM_SIZE_IN_PAGE
  | MemCall.loadRecord f full => f < c.MEM_SIZE_IN_PAGE - 2 ∧ full = false
  | MemCall.loadPair f => f = c.MEM_SIZE_IN_PAGE - 1 ∧ f < c.MEM_SIZE_IN_PAGE
  | MemCall.modulus n => n = c.MEM_SIZE_IN_PAGE - 2 ∧ n ≠ 0

/-! ## Frames and disk pages -/

@[simp] theorem Mem.setPage_same (m : Mem) (i : Nat) (p : Page) : (m.setPage i p) i = p := by
  simp [Mem.setPage]

@[simp] theorem Mem.setPage_ne (m : Mem) {i j : Nat} (p : Page) (h : j ≠ i) :
    (m.setPage i p) j = m j := by
  simp [Mem.setPage, h]

theorem Disk.read_append_lt (d t : Disk) {id : Nat} (h : id < d.length) :
    Disk.read (d ++ t) id = Disk.read d id := by
  simp [Disk.read, List.getElem?_append_left h]

theorem Disk.read_append_length (d : Disk) (p : Page) :
    Disk.read (d ++ [p]) d.length = p := by
  simp [Disk.read]

theorem Disk.read_of_le (d : Disk) {id : Nat} (h : d.length ≤ id) : Disk.read d id = [] := by
  simp [Disk.read, List.getElem?_eq_none h]

theorem Disk.lt_of_read_ne_nil (d : Disk) {id : Nat} (h : Disk.read d id ≠ []) :
    id < d.length := by
  by_contra hlt
  exact h (Disk.read_of_le d (Nat.le_of_not_lt hlt))

theorem Disk.records_nil (d : Disk) : Disk.records d [] = [] := rfl

theorem Disk.records_append (d : Disk) (a b : List Nat) :
    Disk.records d (a ++ b) = Disk.records d a ++ Disk.records d b := by
  simp [Disk.records]

theorem Disk.records_singleton (d : Disk) (id : Nat) : Disk.records d [id] = Disk.read d id := by
  simp [Disk.records]

theorem Disk.records_cons (d : Disk) (id : Nat) (ids : List Nat) :
    Disk.records d (id :: ids) = Disk.read d id ++ Disk.records d ids := by
  simp [Disk.records]

theorem Disk.records_grow (d t : Disk) (ids : List Nat) (h : ∀ id ∈ ids, id < d.length) :
    Disk.records (d ++ t) ids = Disk.records d ids := by
  induction ids with
  | nil => rfl
  | cons id ids ih =>
    rw [Disk.records_cons, Disk.records_cons, Disk.read_append_lt d t (h id (by simp)),
      ih (fun x hx => h x (by simp [hx]))]

/-! ## Buckets -/

theorem Bucket.rel_add_rel_page (b : Bucket) (sd sd' : Side) (id : Nat) :
    (b.add_rel_page sd id).rel sd' = if sd' = sd then b.rel sd' ++ [id] else b.rel sd' := by
  cases sd <;> cases sd' <;> rfl

@[simp] theorem Bucket.num_left_add_rel_page (b : Bucket) (sd : Side) (id : Nat) :
    (b.add_rel_page sd id).num_left_rel_record = b.num_left_rel_record := by
  cases sd <;> rfl

@[simp] theorem Bucket.num_right_add_rel_page (b : Bucket) (sd : Side) (id : Nat) :
    (b.add_rel_page sd id).num_right_rel_record = b.num_right_rel_record := by
  cases sd <;> rfl

@[simp] theorem Bucket.rel_new (sd : Side) : Bucket.new.rel sd = [] := by
  cases sd <;> rfl

theorem PState.bucket_eq_new (s : PState) {i : Nat} (h : s.partitions.length ≤ i) :
    s.bucket i = Bucket.new := by
  simp [PState.bucket, List.getElem?_eq_none h]

theorem PState.bucket_mem (s : PState) {i : Nat} (h : i < s.partitions.length) :
    s.bucket i ∈ s.partitions := by
  simp [PState.bucket, List.getElem?_eq_getElem h]

theorem PState.bucket_of_getElem? (s : PState) {i : Nat} {b : Bucket}
    (h : s.partitions[i]? = some b) : s.bucket i = b := by
  simp [PState.bucket, h]

theorem PState.getElem?_eq_bucket (s : PState) {i : Nat} (h : i < s.partitions.length) :
    s.partitions[i]? = some (s.bucket i) := by
  simp [PState.bucket, List.getElem?_eq_getElem h]

theorem PState.Valid.valid_bucket {s : PState} (hv : s.Valid) (i : Nat) (sd : Side) :
    ∀ id ∈ (s.bucket i).rel sd, id < s.disk.length := by
  intro id hid
  by_cases h : i < s.partitions.length
  · exact hv _ (s.bucket_mem h) sd id hid
  · rw [s.bucket_eq_new (Nat.le_of_not_lt h)] at hid
    simp at hid

/-! ## The flush of one output frame (`Join.cpp` lines 30-31) -/

@[simp] theorem PState.flushBucket_disk (s : PState) (sd : Side) (i : Nat) :
    (s.flushBucket sd i).disk = s.disk ++ [s.mem i] := rfl

@[simp] theorem PState.flushBucket_mem (s : PState) (sd : Side) (i : Nat) :
    (s.flushBucket sd i).mem = s.mem.setPage i [] := rfl

@[simp] theorem PState.flushBucket_partitions (s : PState) (sd : Side) (i : Nat) :
    (s.flushBucket sd i).partitions
      = s.partitions.modify (fun b => b.add_rel_page sd s.disk.length) i := rfl

theorem PState.bucket_flushBucket (s : PState) (sd : Side) {i : Nat} (j : Nat)
    (hi : i < s.partitions.length) :
    (s.flushBucket sd i).bucket j
      = if j = i then (s.bucket i).add_rel_page sd s.disk.length else s.bucket j := by
  unfold PState.bucket
  rw [PState.flushBucket_partitions, List.getElem?_modify]
  by_cases h : j = i
  · subst h
    simp [List.getElem?_eq_getElem hi]
  · have h' : i ≠ j := fun e => h e.symm
    simp [h, h']

theorem PState.Valid.valid_flushBucket {s : PState} (hv : s.Valid) (sd : Side) (i : Nat) :
    (s.flushBucket sd i).Valid := by
  intro b hb sd' id hid
  rw [PState.flushBucket_partitions] at hb
  rw [PState.flushBucket_disk, List.length_append, List.length_singleton]
  obtain ⟨k, hk, rfl⟩ := List.getElem_of_mem hb
  rw [List.getElem_modify] at hid
  rw [List.length_modify] at hk
  split at hid
  · rw [Bucket.rel_add_rel_page] at hid
    split at hid
    · rcases List.mem_append.mp hid with h | h
      · exact Nat.lt_succ_of_lt (hv _ (List.getElem_mem hk) sd' id h)
      · simp at h; omega
    · exact Nat.lt_succ_of_lt (hv _ (List.getElem_mem hk) sd' id hid)
  · exact Nat.lt_succ_of_lt (hv _ (List.getElem_mem hk) sd' id hid)

theorem PState.content_flushBucket {s : PState} (hv : s.Valid) (sd : Side) {i : Nat} (j : Nat)
    (hi : i < s.partitions.length) :
    (s.flushBucket sd i).content sd j = s.content sd j := by
  unfold PState.content
  rw [PState.bucket_flushBucket s sd j hi, PState.flushBucket_disk, PState.flushBucket_mem]
  by_cases h : j = i
  · subst h
    simp only [if_true, Bucket.rel_add_rel_page, Disk.records_append, Disk.records_singleton,
      Disk.read_append_length, Mem.mem_page, Mem.setPage_same, List.append_nil]
    rw [Disk.records_grow _ _ _ (hv.valid_bucket j sd)]
  · simp only [if_neg h, Mem.mem_page, Mem.setPage_ne _ _ h]
    rw [Disk.records_grow _ _ _ (hv.valid_bucket j sd)]

/-- A flush for one relation leaves the stored records of the other relation
(and of the other buckets) unchanged. -/
theorem PState.records_flushBucket_other {s : PState} (hv : s.Valid) {sd sd' : Side}
    (hsd : sd' ≠ sd) {i : Nat} (j : Nat) (hi : i < s.partitions.length) :
    (s.flushBucket sd i).disk.records (((s.flushBucket sd i).bucket j).rel sd')
      = s.disk.records ((s.bucket j).rel sd') ∧
    ((s.flushBucket sd i).bucket j).rel sd' = (s.bucket j).rel sd' := by
  have hrel : ((s.flushBucket sd i).bucket j).rel sd' = (s.bucket j).rel sd' := by
    rw [PState.bucket_flushBucket s sd j hi]
    by_cases h : j = i
    · subst h
      simp [Bucket.rel_add_rel_page, hsd]
    · simp [h]
  rw [hrel, PState.flushBucket_disk, Disk.records_grow _ _ _ (hv.valid_bucket j sd')]
  exact ⟨rfl, rfl⟩

/-! ## One pass of `partition` -/

theorem PInv.init (c : Config) (sd : Side) (s0 : PState) (hv : s0.Valid)
    (h0 : ∀ j, j < s0.partitions.length → s0.content sd j = []) : PInv c sd s0 s0 [] where
  len := rfl
  valid := hv
  disk := ⟨[], by simp⟩
  content := fun j hj => by simp [h0 j hj]
  other := fun _ _ _ => rfl
  numl := fun _ => rfl
  numr := fun _ => rfl

theorem PInv.keep_flushBucket {c : Config} {sd : Side} {s0 s : PState} {rs : List Record}
    (h : PInv c sd s0 s rs) {i : Nat} (hi : i < s0.partitions.length) :
    PInv c sd s0 (s.flushBucket sd i) rs where
  len := by simp [h.len]
  valid := h.valid.valid_flushBucket sd i
  disk := by
    obtain ⟨t, ht⟩ := h.disk
    exact ⟨t ++ [s.mem i], by simp [ht]⟩
  content := fun j hj => by
    rw [PState.content_flushBucket h.valid sd j (h.len ▸ hi)]
    exact h.content j hj
  other := fun j sd' hsd => by
    rw [(PState.records_flushBucket_other h.valid hsd j (h.len ▸ hi)).2]
    exact h.other j sd' hsd
  numl := fun j => by
    rw [PState.bucket_flushBucket s sd j (h.len ▸ hi)]
    split
    · next e => subst e; simp [h.numl]
    · exact h.numl j
  numr := fun j => by
    rw [PState.bucket_flushBucket s sd j (h.len ▸ hi)]
    split
    · next e => subst e; simp [h.numr]
    · exact h.numr j

/-- Writing frames only: the part of the invariant that does not mention the
memory is kept. -/
theorem PInv.setMem {c : Config} {sd : Side} {s0 s : PState} {rs rs' : List Record}
    (h : PInv c sd s0 s rs) (m : Mem)
    (hc : ∀ j, j < s0.partitions.length →
      s.disk.records ((s.bucket j).rel sd) ++ m j = rs'.filter (fun r => decide (partIdx c r = j))) :
    PInv c sd s0 { s with mem := m } rs' where
  len := h.len
  valid := h.valid
  disk := h.disk
  content := hc
  other := h.other
  numl := h.numl
  numr := h.numr

theorem PInv.loadRecord {c : Config} {sd : Side} {s0 s : PState} {rs : List Record}
    (h : PInv c sd s0 s rs) (r : Record) :
    PInv c sd s0
      { s with mem := s.mem.setPage (partIdx c r) ((s.mem.mem_page (partIdx c r)).loadRecord r) }
      (rs ++ [r]) := by
  refine h.setMem _ (fun j hj => ?_)
  have hc := h.content j hj
  unfold PState.content at hc
  rw [List.filter_append]
  by_cases e : j = partIdx c r
  · subst e
    simp only [Mem.setPage_same, Page.loadRecord, Mem.mem_page] at hc ⊢
    rw [← List.append_assoc, hc]
    simp
  · have e' : ¬ partIdx c r = j := fun x => e x.symm
    simp only [Mem.setPage_ne _ _ e, Mem.mem_page] at hc ⊢
    rw [hc]
    simp [e']

theorem PInv.keep_partitionRecord {c : Config} {sd : Side} {s0 s : PState} {rs : List Record}
    (h : PInv c sd s0 s rs) (hK : s0.partitions.length = c.MEM_SIZE_IN_PAGE - 1)
    (hpos : 0 < c.MEM_SIZE_IN_PAGE - 1) (r : Record) :
    PInv c sd s0 (partitionRecord c sd s r) (rs ++ [r]) := by
  have hi : partIdx c r < s0.partitions.length := by
    rw [hK]; exact Nat.mod_lt _ hpos
  unfold GHJ.partitionRecord
  simp only []
  split
  · exact (h.keep_flushBucket hi).loadRecord r
  · exact h.loadRecord r

theorem PInv.keep_foldl_partitionRecord {c : Config} {sd : Side} {s0 : PState}
    (hK : s0.partitions.length = c.MEM_SIZE_IN_PAGE - 1) (hpos : 0 < c.MEM_SIZE_IN_PAGE - 1)
    (page : List Record) :
    ∀ {s : PState} {rs : List Record}, PInv c sd s0 s rs →
      PInv c sd s0 (page.foldl (GHJ.partitionRecord c sd) s) (rs ++ page) := by
  induction page with
  | nil => intro s rs h; simpa using h
  | cons r page ih =>
    intro s rs h
    have := ih (h.keep_partitionRecord hK hpos r)
    simpa using this

theorem PInv.keep_partitionPage {c : Config} {sd : Side} {s0 s : PState} {rs : List Record}
    (h : PInv c sd s0 s rs) (hK : s0.partitions.length = c.MEM_SIZE_IN_PAGE - 1)
    (hpos : 0 < c.MEM_SIZE_IN_PAGE - 1) (id : Nat) :
    PInv c sd s0 (partitionPage c sd s id) (rs ++ s.disk.read id) := by
  unfold GHJ.partitionPage
  simp only [Mem.loadFromDisk, Mem.mem_page, Mem.setPage_same]
  refine PInv.keep_foldl_partitionRecord hK hpos _ (h.setMem _ (fun j hj => ?_))
  have hc := h.content j hj
  unfold PState.content at hc
  have hne : j ≠ c.MEM_SIZE_IN_PAGE - 1 := by omega
  simpa [Mem.setPage_ne _ _ hne, Mem.mem_page] using hc

theorem PInv.keep_foldl_partitionPage {c : Config} {sd : Side} {s0 : PState}
    (hK : s0.partitions.length = c.MEM_SIZE_IN_PAGE - 1) (hpos : 0 < c.MEM_SIZE_IN_PAGE - 1)
    (ids : List Nat) :
    ∀ {s : PState} {rs : List Record}, PInv c sd s0 s rs →
      ∃ rs', PInv c sd s0 (ids.foldl (GHJ.partitionPage c sd) s) (rs ++ rs') ∧
        ((∀ id ∈ ids, id < s0.disk.length) → rs' = s0.disk.records ids) := by
  induction ids with
  | nil =>
    intro s rs h
    exact ⟨[], by simpa using h, fun _ => rfl⟩
  | cons id ids ih =>
    intro s rs h
    obtain ⟨rs', h', hrs'⟩ := ih (h.keep_partitionPage hK hpos id)
    refine ⟨s.disk.read id ++ rs', by simpa [List.append_assoc] using h', fun hv => ?_⟩
    obtain ⟨t, ht⟩ := h.disk
    rw [Disk.records_cons, hrs' (fun x hx => hv x (by simp [hx])), ht,
      Disk.read_append_lt _ _ (hv id (by simp))]

theorem flushRemaining_mem (sd : Side) (s : PState) (i j : Nat) :
    (flushRemaining sd s i).mem j = if j = i then [] else s.mem j := by
  unfold flushRemaining
  by_cases he : (s.mem.mem_page i).empty = true
  · simp only [he, Bool.not_true, Bool.false_eq_true, if_false]
    split
    · next e =>
      subst e
      simpa [Page.empty, Mem.mem_page] using he
    · rfl
  · simp only [he, Bool.not_false, if_true, PState.flushBucket_mem]
    split
    · next e => subst e; simp
    · next e => simp [Mem.setPage_ne _ _ e]

theorem PInv.keep_flushRemaining {c : Config} {sd : Side} {s0 s : PState} {rs : List Record}
    (h : PInv c sd s0 s rs) {i : Nat} (hi : i < s0.partitions.length) :
    PInv c sd s0 (GHJ.flushRemaining sd s i) rs := by
  unfold GHJ.flushRemaining
  split
  · exact h.keep_flushBucket hi
  · exact h

theorem PInv.keep_foldl_flushRemaining {c : Config} {sd : Side} {s0 s : PState} {rs : List Record}
    (h : PInv c sd s0 s rs) (n : Nat) (hn : n ≤ s0.partitions.length) :
    PInv c sd s0 ((List.range n).foldl (GHJ.flushRemaining sd) s) rs ∧
      ∀ j, ((List.range n).foldl (GHJ.flushRemaining sd) s).mem j
        = if j < n then [] else s.mem j := by
  induction n with
  | zero => exact ⟨by simpa using h, fun j => by simp⟩
  | succ n ih =>
    obtain ⟨h1, h2⟩ := ih (Nat.le_of_succ_le hn)
    rw [List.range_succ, List.foldl_append]
    refine ⟨by simpa using h1.keep_flushRemaining (Nat.lt_of_succ_le hn), fun j => ?_⟩
    simp only [List.foldl_cons, List.foldl_nil, flushRemaining_mem, h2]
    by_cases e : j = n
    · subst e; simp
    · by_cases e' : j < n
      · simp [e, e', Nat.lt_succ_of_lt e']
      · have : ¬ j < n + 1 := by omega
        simp [e, e', this]

/-- Summary of one pass of `partition` started in a state whose output frames
and page lists for the relation are empty. -/
theorem partitionRel_spec (c : Config) (sd : Side) (s0 : PState) (rel : Nat × Nat)
    (hK : s0.partitions.length = c.MEM_SIZE_IN_PAGE - 1) (hpos : 0 < c.MEM_SIZE_IN_PAGE - 1)
    (hv : s0.Valid) (h0 : ∀ j, j < s0.partitions.length → s0.content sd j = []) :
    ∃ rs, PInv c sd s0 (partitionRel c sd s0 rel) rs ∧
      (∀ j, j < s0.partitions.length → (partitionRel c sd s0 rel).mem j = []) ∧
      (rel.2 ≤ s0.disk.length → rs = s0.disk.records (pageIds rel)) := by
  obtain ⟨rs, h1, hrs⟩ := PInv.keep_foldl_partitionPage hK hpos (pageIds rel) (PInv.init c sd s0 hv h0)
  obtain ⟨h2, h3⟩ := h1.keep_foldl_flushRemaining (c.MEM_SIZE_IN_PAGE - 1) (by omega)
  refine ⟨rs, by simpa [partitionRel] using h2, fun j hj => ?_, fun hr => ?_⟩
  · have := h3 j
    rw [if_pos (by omega)] at this
    simpa [partitionRel] using this
  · have := hrs (fun id hid => by
      simp only [pageIds, List.mem_range'_1] at hid
      omega)
    simpa using this

/-! ## `partition` as a whole -/

theorem bucket_replicate_new (d : Disk) (m : Mem) (n j : Nat) :
    PState.bucket { disk := d, mem := m, partitions := List.replicate n Bucket.new } j
      = Bucket.new := by
  unfold PState.bucket
  by_cases h : j < n
  · simp [List.getElem?_replicate, h]
  · simp [List.getElem?_replicate, h]

/-- What `partition` returns, for a budget of at least two pages: `L` and `R`
are the records it scanned in the two passes. -/
theorem partition_spec (c : Config) (disk : Disk) (mem : Mem) (left_rel right_rel : Nat × Nat)
    (hB : 2 ≤ c.MEM_SIZE_IN_PAGE) :
    (partition c disk mem left_rel right_rel).partitions.length = c.MEM_SIZE_IN_PAGE - 1 ∧
    (partition c disk mem left_rel right_rel).Valid ∧
    (∃ t, (partition c disk mem left_rel right_rel).disk = disk ++ t) ∧
    (∀ j, ((partition c disk mem left_rel right_rel).bucket j).num_left_rel_record = 0 ∧
      ((partition c disk mem left_rel right_rel).bucket j).num_right_rel_record = 0) ∧
    ∃ L R : List Record,
      (∀ j, j < c.MEM_SIZE_IN_PAGE - 1 →
        (partition c disk mem left_rel right_rel).disk.records
            (((partition c disk mem left_rel right_rel).bucket j).rel Side.left)
          = L.filter (fun r => decide (partIdx c r = j)) ∧
        (partition c disk mem left_rel right_rel).disk.records
            (((partition c disk mem left_rel right_rel).bucket j).rel Side.right)
          = R.filter (fun r => decide (partIdx c r = j))) ∧
      (left_rel.2 ≤ disk.length → L = disk.records (pageIds left_rel)) ∧
      (right_rel.2 ≤ disk.length → R = disk.records (pageIds right_rel)) := by
  have hpos : 0 < c.MEM_SIZE_IN_PAGE - 1 := by omega
  -- the left pass
  let s0 : PState :=
    { disk := disk, mem := Mem.reset,
      partitions := List.replicate (c.MEM_SIZE_IN_PAGE - 1) Bucket.new }
  have hK0 : s0.partitions.length = c.MEM_SIZE_IN_PAGE - 1 := by simp [s0]
  have hv0 : s0.Valid := by
    intro b hb sd id hid
    have : b = Bucket.new := (List.mem_replicate.mp hb).2
    subst this
    simp at hid
  have h00 : ∀ j, j < s0.partitions.length → s0.content Side.left j = [] := by
    intro j _
    simp [PState.content, s0, bucket_replicate_new, Disk.records, Mem.reset, Mem.mem_page]
  obtain ⟨L, hL, hLm, hLrs⟩ := partitionRel_spec c Side.left s0 left_rel hK0 hpos hv0 h00
  -- the right pass
  let s1 : PState := { partitionRel c Side.left s0 left_rel with mem := Mem.reset }
  have hb1 : ∀ j, s1.bucket j = (partitionRel c Side.left s0 left_rel).bucket j := fun _ => rfl
  have hK1 : s1.partitions.length = c.MEM_SIZE_IN_PAGE - 1 := by
    have := hL.len
    simpa [s1, hK0] using this
  have hv1 : s1.Valid := hL.valid
  have h10 : ∀ j, j < s1.partitions.length → s1.content Side.right j = [] := by
    intro j _
    have := hL.other j Side.right (by decide)
    simp [PState.content, hb1, this, s0, bucket_replicate_new, Disk.records, Mem.reset,
      Mem.mem_page, s1]
  obtain ⟨R, hR, hRm, hRrs⟩ := partitionRel_spec c Side.right s1 right_rel hK1 hpos hv1 h10
  have hfin : partition c disk mem left_rel right_rel = partitionRel c Side.right s1 right_rel :=
    rfl
  obtain ⟨t1, ht1⟩ := hL.disk
  obtain ⟨t2, ht2⟩ := hR.disk
  have hd1 : s1.disk = disk ++ t1 := ht1
  rw [hfin]
  refine ⟨by rw [hR.len, hK1], hR.valid, ⟨t1 ++ t2, by rw [ht2, hd1, List.append_assoc]⟩,
    fun j => ⟨?_, ?_⟩, L, R, fun j hj => ⟨?_, ?_⟩, hLrs, fun hr => ?_⟩
  · rw [hR.numl j, hb1, hL.numl j, bucket_replicate_new]
    rfl
  · rw [hR.numr j, hb1, hL.numr j, bucket_replicate_new]
    rfl
  · rw [hR.other j Side.left (by decide), ht2,
      Disk.records_grow _ _ _ (hv1.valid_bucket j Side.left)]
    have := hL.content j (by omega)
    simpa [PState.content, hLm j (by omega), Mem.mem_page] using this
  · have := hR.content j (by omega)
    simpa [PState.content, hRm j (by omega), Mem.mem_page] using this
  · rw [hRrs (by rw [hd1, List.length_append]; omega), hd1]
    refine Disk.records_grow _ _ _ (fun id hid => ?_)
    simp only [pageIds, List.mem_range'_1] at hid
    omega

/-! ## Counting lemmas for the decomposition into partitions -/

theorem count_filter_ite {α : Type} [DecidableEq α] (p : α → Bool) (a : α) (l : List α) :
    (l.filter p).count a = if p a = true then l.count a else 0 := by
  split
  · next h => exact List.count_filter h
  · next h =>
    apply List.count_eq_zero_of_not_mem
    intro hm
    exact h (List.mem_filter.mp hm).2

theorem sum_range_ite (K i x : Nat) :
    ((List.range K).map (fun j => if i = j then x else 0)).sum = if i < K then x else 0 := by
  induction K with
  | zero => simp
  | succ K ih =>
    rw [List.range_succ, List.map_append, List.sum_append, ih]
    by_cases h1 : i < K
    · have h2 : i ≠ K := by omega
      have h3 : i < K + 1 := by omega
      simp [h1, h2, h3]
    · by_cases h2 : i = K
      · subst h2; simp
      · have h3 : ¬ i < K + 1 := by omega
        simp [h1, h2, h3]

theorem count_flatten_range {α : Type} [DecidableEq α] (parts : List (List α)) (a : α) :
    parts.flatten.count a
      = ((List.range parts.length).map (fun j => (parts.getD j []).count a)).sum := by
  rw [List.count_flatten]
  congr 1
  apply List.ext_getElem
  · simp
  · intro n h1 h2
    simp at h1
    simp [List.getElem?_eq_getElem h1]

/-- Splitting a list by an index function and gluing the parts together again
gives a permutation of the list. -/
theorem perm_flatten_parts {α : Type} [DecidableEq α] (idx : α → Nat) (L : List α)
    (parts : List (List α)) (hidx : ∀ a, idx a < parts.length)
    (hparts : ∀ j, j < parts.length → parts.getD j [] = L.filter (fun a => decide (idx a = j))) :
    List.Perm parts.flatten L := by
  rw [List.perm_iff_count]
  intro a
  rw [count_flatten_range]
  have : (List.range parts.length).map (fun j => (parts.getD j []).count a)
      = (List.range parts.length).map (fun j => if idx a = j then L.count a else 0) := by
    apply List.map_congr_left
    intro j hj
    rw [hparts j (List.mem_range.mp hj), count_filter_ite]
    simp
  rw [this, sum_range_ite, if_pos (hidx a)]

/-! ## Length of the returned vector -/

theorem partitionRecord_length (c : Config) (sd : Side) (s : PState) (r : Record) :
    (partitionRecord c sd s r).partitions.length = s.partitions.length := by
  unfold partitionRecord
  simp only []
  split <;> simp

theorem foldl_partitionRecord_length (c : Config) (sd : Side) (page : List Record) :
    ∀ s : PState, (page.foldl (partitionRecord c sd) s).partitions.length
      = s.partitions.length := by
  induction page with
  | nil => intro s; rfl
  | cons r page ih => intro s; rw [List.foldl_cons, ih, partitionRecord_length]

theorem partitionPage_length (c : Config) (sd : Side) (s : PState) (id : Nat) :
    (partitionPage c sd s id).partitions.length = s.partitions.length := by
  unfold partitionPage
  simp only []
  rw [foldl_partitionRecord_length]

theorem foldl_partitionPage_length (c : Config) (sd : Side) (ids : List Nat) :
    ∀ s : PState, (ids.foldl (partitionPage c sd) s).partitions.length
      = s.partitions.length := by
  induction ids with
  | nil => intro s; rfl
  | cons id ids ih => intro s; rw [List.foldl_cons, ih, partitionPage_length]

theorem flushRemaining_length (sd : Side) (s : PState) (i : Nat) :
    (flushRemaining sd s i).partitions.length = s.partitions.length := by
  unfold flushRemaining
  split <;> simp

theorem foldl_flushRemaining_length (sd : Side) (is : List Nat) :
    ∀ s : PState, (is.foldl (flushRemaining sd) s).partitions.length
      = s.partitions.length := by
  induction is with
  | nil => intro s; rfl
  | cons i is ih => intro s; rw [List.foldl_cons, ih, flushRemaining_length]

theorem partitionRel_length (c : Config) (sd : Side) (s : PState) (rel : Nat × Nat) :
    (partitionRel c sd s rel).partitions.length = s.partitions.length := by
  unfold partitionRel
  simp only []
  rw [foldl_flushRemaining_length, foldl_partitionPage_length]

/-- The vector returned by `partition` has `MEM_SIZE_IN_PAGE - 1` buckets. -/
theorem partition_length (c : Config) (disk : Disk) (mem : Mem) (left_rel right_rel : Nat × Nat) :
    (partition c disk mem left_rel right_rel).partitions.length = c.MEM_SIZE_IN_PAGE - 1 := by
  unfold partition
  simp only []
  rw [partitionRel_length]
  show (partitionRel c Side.left _ left_rel).partitions.length = _
  rw [partitionRel_length]
  simp

/-! ## Claims about `partition` -/

theorem bucketsRecords_perm (c : Config) (d : Disk) (sd : Side) (bs : List Bucket)
    (L : List Record) (hlen : bs.length = c.MEM_SIZE_IN_PAGE - 1)
    (hpos : 0 < c.MEM_SIZE_IN_PAGE - 1)
    (h : ∀ j, j < c.MEM_SIZE_IN_PAGE - 1 →
      d.records (((bs[j]?).getD Bucket.new).rel sd) = L.filter (fun r => decide (partIdx c r = j))) :
    List.Perm (bucketsRecords d sd bs) L := by
  unfold bucketsRecords
  apply perm_flatten_parts (partIdx c)
  · intro a
    simp only [List.length_map, hlen]
    exact Nat.mod_lt _ hpos
  · intro j hj
    simp only [List.length_map, hlen] at hj
    rw [← h j hj]
    have hj' : j < bs.length := by omega
    simp [List.getElem?_eq_getElem hj']

/-- C3 (partition completeness): with a budget of at least two pages, a page
capacity of at least one record and input ranges that lie on the disk, the
records on all pages of the left page lists of the returned buckets are a
permutation of the records of the left input pages, and likewise for the right
page lists and the right input pages: nothing is lost, nothing is duplicated. -/
theorem partition_complete (c : Config) (disk : Disk) (mem : Mem) (left_rel right_rel : Nat × Nat)
    (hB : 2 ≤ c.MEM_SIZE_IN_PAGE) (_hcap : 1 ≤ c.RECORDS_PER_PAGE)
    (hl : left_rel.2 ≤ disk.length) (hr : right_rel.2 ≤ disk.length) :
    List.Perm
      (bucketsRecords (partition c disk mem left_rel right_rel).disk Side.left
        (partition c disk mem left_rel right_rel).partitions)
      (disk.records (pageIds left_rel)) ∧
    List.Perm
      (bucketsRecords (partition c disk mem left_rel right_rel).disk Side.right
        (partition c disk mem left_rel right_rel).partitions)
      (disk.records (pageIds right_rel)) := by
  obtain ⟨hlen, _, _, _, L, R, hLR, hL, hR⟩ := partition_spec c disk mem left_rel right_rel hB
  have hpos : 0 < c.MEM_SIZE_IN_PAGE - 1 := by omega
  rw [← hL hl, ← hR hr]
  exact ⟨bucketsRecords_perm c _ _ _ L hlen hpos (fun j hj => (hLR j hj).1),
    bucketsRecords_perm c _ _ _ R hlen hpos (fun j hj => (hLR j hj).2)⟩

theorem partition_complete_witness :
    2 ≤ scenarioConfig.MEM_SIZE_IN_PAGE ∧ 1 ≤ scenarioConfig.RECORDS_PER_PAGE ∧
    (0, 2).2 ≤ scenarioDisk.length ∧ (2, 3).2 ≤ scenarioDisk.length ∧
    List.Perm
      (bucketsRecords (partition scenarioConfig scenarioDisk Mem.reset (0, 2) (2, 3)).disk
        Side.left (partition scenarioConfig scenarioDisk Mem.reset (0, 2) (2, 3)).partitions)
      (scenarioDisk.records (pageIds (0, 2))) ∧
    List.Perm
      (bucketsRecords (partition scenarioConfig scenarioDisk Mem.reset (0, 2) (2, 3)).disk
        Side.right (partition scenarioConfig scenarioDisk Mem.reset (0, 2) (2, 3)).partitions)
      (scenarioDisk.records (pageIds (2, 3))) :=
  ⟨by decide, by decide, by decide, by decide,
    partition_complete scenarioConfig scenarioDisk Mem.reset (0, 2) (2, 3)
      (by decide) (by decide) (by decide) (by decide)⟩

/-- C4 (partition correctness): for every input, a record stored on a page
listed in the left or right page list of the bucket at index `i` returned by
`partition` has `partition_hash(record) mod (MEM_SIZE_IN_PAGE - 1) = i`. -/
theorem partition_correct (c : Config) (disk : Disk) (mem : Mem) (left_rel right_rel : Nat × Nat)
    (i : Nat) (b : Bucket)
    (hb : (partition c disk mem left_rel right_rel).partitions[i]? = some b)
    (id : Nat) (hid : id ∈ b.get_left_rel ∨ id ∈ b.get_right_rel) (r : Record)
    (hr : r ∈ (partition c disk mem left_rel right_rel).disk.read id) :
    c.partition_hash r % (c.MEM_SIZE_IN_PAGE - 1) = i := by
  have hlen := partition_length c disk mem left_rel right_rel
  have hi : i < c.MEM_SIZE_IN_PAGE - 1 := by
    rw [← hlen]
    exact (List.getElem?_eq_some_iff.mp hb).1
  obtain ⟨_, _, _, _, L, R, hLR, _, _⟩ :=
    partition_spec c disk mem left_rel right_rel (by omega)
  have hbi := PState.bucket_of_getElem? _ hb
  obtain ⟨h1, h2⟩ := hLR i hi
  rw [hbi] at h1 h2
  have key : ∀ ids : List Nat, id ∈ ids →
      r ∈ (partition c disk mem left_rel right_rel).disk.records ids := by
    intro ids hmem
    unfold Disk.records
    rw [List.mem_flatten]
    exact ⟨_, List.mem_map.mpr ⟨id, hmem, rfl⟩, hr⟩
  rcases hid with h | h
  · have := key _ h
    rw [show b.get_left_rel = b.rel Side.left from rfl, h1, List.mem_filter] at this
    simpa [partIdx] using this.2
  · have := key _ h
    rw [show b.get_right_rel = b.rel Side.right from rfl, h2, List.mem_filter] at this
    simpa [partIdx] using this.2

theorem partition_correct_witness :
    (partition scenarioConfig scenarioDisk Mem.reset (0, 2) (2, 3)).partitions[2]?
      = some { left_rel := [5], right_rel := [9], num_left_rel_record := 0,
               num_right_rel_record := 0 } ∧
    keyRecord 6 ∈ (partition scenarioConfig scenarioDisk Mem.reset (0, 2) (2, 3)).disk.read 5 ∧
    scenarioConfig.partition_hash (keyRecord 6) % (scenarioConfig.MEM_SIZE_IN_PAGE - 1) = 2 :=
  ⟨by decide, by decide,
    partition_correct scenarioConfig scenarioDisk Mem.reset (0, 2) (2, 3) 2
      { left_rel := [5], right_rel := [9], num_left_rel_record := 0, num_right_rel_record := 0 }
      (by decide) 5 (Or.inl (by decide)) (keyRecord 6) (by decide)⟩

/-! ## No empty page is registered -/

theorem PState.NonEmptyPages.ne_flushBucket {s : PState} (hv : s.NonEmptyPages) (sd : Side)
    (i : Nat) (hne : s.mem i ≠ []) : (s.flushBucket sd i).NonEmptyPages := by
  intro b hb sd' id hid
  rw [PState.flushBucket_partitions] at hb
  rw [PState.flushBucket_disk]
  have old : ∀ b' ∈ s.partitions, ∀ x ∈ b'.rel sd', Disk.read (s.disk ++ [s.mem i]) x ≠ [] := by
    intro b' hb' x hx
    have := hv b' hb' sd' x hx
    rwa [Disk.read_append_lt _ _ (Disk.lt_of_read_ne_nil _ this)]
  obtain ⟨k, hk, rfl⟩ := List.getElem_of_mem hb
  rw [List.getElem_modify] at hid
  rw [List.length_modify] at hk
  split at hid
  · rw [Bucket.rel_add_rel_page] at hid
    split at hid
    · rcases List.mem_append.mp hid with h | h
      · exact old _ (List.getElem_mem hk) id h
      · simp only [List.mem_singleton] at h
        subst h
        rw [Disk.read_append_length]
        exact hne
    · exact old _ (List.getElem_mem hk) id hid
  · exact old _ (List.getElem_mem hk) id hid

theorem PState.NonEmptyPages.ne_partitionRecord {c : Config} {s : PState} (hv : s.NonEmptyPages)
    (hcap : 1 ≤ c.RECORDS_PER_PAGE) (sd : Side) (r : Record) :
    (GHJ.partitionRecord c sd s r).NonEmptyPages := by
  unfold GHJ.partitionRecord
  simp only []
  split
  · next hfull =>
    refine hv.ne_flushBucket sd _ (fun h0 => ?_)
    simp [Page.full, Mem.mem_page, h0] at hfull
    omega
  · exact hv

theorem PState.NonEmptyPages.ne_foldl_partitionRecord {c : Config} (hcap : 1 ≤ c.RECORDS_PER_PAGE)
    (sd : Side) (page : List Record) :
    ∀ {s : PState}, s.NonEmptyPages →
      (page.foldl (GHJ.partitionRecord c sd) s).NonEmptyPages := by
  induction page with
  | nil => intro s h; exact h
  | cons r page ih => intro s h; exact ih (h.ne_partitionRecord hcap sd r)

theorem PState.NonEmptyPages.ne_foldl_partitionPage {c : Config} (hcap : 1 ≤ c.RECORDS_PER_PAGE)
    (sd : Side) (ids : List Nat) :
    ∀ {s : PState}, s.NonEmptyPages →
      (ids.foldl (GHJ.partitionPage c sd) s).NonEmptyPages := by
  induction ids with
  | nil => intro s h; exact h
  | cons id ids ih =>
    intro s h
    refine ih ?_
    unfold GHJ.partitionPage
    exact PState.NonEmptyPages.ne_foldl_partitionRecord hcap sd _ h

theorem PState.NonEmptyPages.ne_foldl_flushRemaining (sd : Side) (is : List Nat) :
    ∀ {s : PState}, s.NonEmptyPages →
      (is.foldl (GHJ.flushRemaining sd) s).NonEmptyPages := by
  induction is with
  | nil => intro s h; exact h
  | cons i is ih =>
    intro s h
    refine ih ?_
    unfold GHJ.flushRemaining
    split
    · next hne =>
      refine h.ne_flushBucket sd i (fun h0 => ?_)
      simp [Page.empty, Mem.mem_page, h0] at hne
    · exact h

theorem PState.NonEmptyPages.ne_partitionRel {c : Config} (hcap : 1 ≤ c.RECORDS_PER_PAGE)
    (sd : Side) {s : PState} (h : s.NonEmptyPages) (rel : Nat × Nat) :
    (GHJ.partitionRel c sd s rel).NonEmptyPages := by
  unfold GHJ.partitionRel
  exact PState.NonEmptyPages.ne_foldl_flushRemaining sd _
    (PState.NonEmptyPages.ne_foldl_partitionPage hcap sd _ h)

theorem partition_nonEmptyPages (c : Config) (disk : Disk) (mem : Mem)
    (left_rel right_rel : Nat × Nat) (hcap : 1 ≤ c.RECORDS_PER_PAGE) :
    (partition c disk mem left_rel right_rel).NonEmptyPages := by
  unfold partition
  refine PState.NonEmptyPages.ne_partitionRel hcap Side.right ?_ right_rel
  have h1 := PState.NonEmptyPages.ne_partitionRel hcap Side.left
    (s := { disk := disk, mem := Mem.reset,
            partitions := List.replicate (c.MEM_SIZE_IN_PAGE - 1) Bucket.new })
    (by
      intro b hb sd id hid
      have : b = Bucket.new := (List.mem_replicate.mp hb).2
      subst this
      simp at hid) left_rel
  exact h1

theorem Disk.records_eq_nil_of_nonEmpty (d : Disk) (ids : List Nat)
    (hne : ∀ id ∈ ids, d.read id ≠ []) (h : d.records ids = []) : ids = [] := by
  cases ids with
  | nil => rfl
  | cons id ids =>
    rw [Disk.records_cons, List.append_eq_nil] at h
    exact absurd h.1 (hne id (by simp))

/-- C10 (no spurious empty page): with a page capacity of at least one record,
every page id that `partition` registers in a left or right page list names a
non-empty disk page; and when the input ranges lie on the disk, a partition
index that receives no record of a relation has an empty page list for that
relation. -/
theorem partition_no_empty_page (c : Config) (disk : Disk) (mem : Mem)
    (left_rel right_rel : Nat × Nat) (hcap : 1 ≤ c.RECORDS_PER_PAGE) :
    (∀ b ∈ (partition c disk mem left_rel right_rel).partitions,
      ∀ id, id ∈ b.get_left_rel ∨ id ∈ b.get_right_rel →
        (partition c disk mem left_rel right_rel).disk.read id ≠ []) ∧
    (∀ i b, (partition c disk mem left_rel right_rel).partitions[i]? = some b →
      (left_rel.2 ≤ disk.length →
        (∀ r ∈ disk.records (pageIds left_rel), partIdx c r ≠ i) → b.get_left_rel = []) ∧
      (right_rel.2 ≤ disk.length →
        (∀ r ∈ disk.records (pageIds right_rel), partIdx c r ≠ i) → b.get_right_rel = [])) := by
  have hne := partition_nonEmptyPages c disk mem left_rel right_rel hcap
  refine ⟨fun b hb id hid => ?_, fun i b hb => ?_⟩
  · rcases hid with h | h
    · exact hne b hb Side.left id h
    · exact hne b hb Side.right id h
  · have hlen := partition_length c disk mem left_rel right_rel
    have hi : i < c.MEM_SIZE_IN_PAGE - 1 := by
      rw [← hlen]
      exact (List.getElem?_eq_some_iff.mp hb).1
    obtain ⟨_, _, _, _, L, R, hLR, hL, hR⟩ :=
      partition_spec c disk mem left_rel right_rel (by omega)
    have hbi := PState.bucket_of_getElem? _ hb
    have hmem : b ∈ (partition c disk mem left_rel right_rel).partitions :=
      List.getElem?_mem hb
    obtain ⟨h1, h2⟩ := hLR i hi
    rw [hbi] at h1 h2
    refine ⟨fun hl hzero => ?_, fun hr hzero => ?_⟩
    · apply Disk.records_eq_nil_of_nonEmpty _ _ (hne b hmem Side.left)
      rw [h1, hL hl, List.filter_eq_nil_iff]
      intro r hr
      simpa using hzero r hr
    · apply Disk.records_eq_nil_of_nonEmpty _ _ (hne b hmem Side.right)
      rw [h2, hR hr, List.filter_eq_nil_iff]
      intro r hr'
      simpa using hzero r hr'

theorem partition_no_empty_page_witness :
    1 ≤ scenarioConfig.RECORDS_PER_PAGE ∧
    (∀ b ∈ (partition scenarioConfig scenarioDisk Mem.reset (0, 2) (2, 3)).partitions,
      ∀ id, id ∈ b.get_left_rel ∨ id ∈ b.get_right_rel →
        (partition scenarioConfig scenarioDisk Mem.reset (0, 2) (2, 3)).disk.read id ≠ []) ∧
    (∀ r ∈ scenarioDisk.records (pageIds (2, 3)), partIdx scenarioConfig r ≠ 3) ∧
    Bucket.get_right_rel (Bucket.mk [6] [] 0 0) = [] :=
  ⟨by decide,
    (partition_no_empty_page scenarioConfig scenarioDisk Mem.reset (0, 2) (2, 3) (by decide)).1,
    by decide,
    ((partition_no_empty_page scenarioConfig scenarioDisk Mem.reset (0, 2) (2, 3)
      (by decide)).2 3 _ (by decide)).2 (by decide) (by decide)⟩

/-- The counts of the returned buckets: `partition` never assigns
`num_left_rel_record` or `num_right_rel_record`, so that with a `Bucket` whose
`add_left_rel_page` / `add_right_rel_page` increment nothing every returned
bucket still carries the two counts of a new bucket, zero, whatever number of
records its pages hold. -/
theorem partition_counts_stay_zero (c : Config) (disk : Disk) (mem : Mem)
    (left_rel right_rel : Nat × Nat) :
    ∀ b ∈ (partition c disk mem left_rel right_rel).partitions,
      b.num_left_rel_record = 0 ∧ b.num_right_rel_record = 0 := by
  intro b hb
  obtain ⟨i, hi, rfl⟩ := List.getElem_of_mem hb
  have hlen := partition_length c disk mem left_rel right_rel
  obtain ⟨_, _, _, hnum, _⟩ := partition_spec c disk mem left_rel right_rel (by omega)
  have := hnum i
  rwa [PState.bucket_of_getElem? _ (List.getElem?_eq_getElem hi)] at this

/-- C7, counterexample: given that `add_left_rel_page` / `add_right_rel_page`
only register the page id and increment nothing, in the concrete scenario the
bucket at index 1 returned by `partition` lists the left page 4, which holds
the two records with keys 1 and 5, and its recorded left count is 0, not 2. -/
theorem partition_counts_scenario :
    ((partition scenarioConfig scenarioDisk Mem.reset (0, 2) (2, 3)).partitions[1]?).map
        (fun b => (b.get_left_rel, b.num_left_rel_record,
          ((partition scenarioConfig scenarioDisk Mem.reset (0, 2) (2, 3)).disk.records
            b.get_left_rel).length))
      = some ([4], 0, 2) := by
  decide

/-! ## The build phase of `probe` -/

theorem hashIdx_lt (c : Config) (hB : 3 ≤ c.MEM_SIZE_IN_PAGE) (r : Record) :
    hashIdx c r < c.MEM_SIZE_IN_PAGE - 2 :=
  Nat.mod_lt _ (by omega)

theorem buildRecord_ok {c : Config} {m m' : Mem} {r : Record}
    (h : buildRecord c m r = Except.ok m') :
    (m (hashIdx c r)).length < c.RECORDS_PER_PAGE ∧
      m' = m.setPage (hashIdx c r) (m (hashIdx c r) ++ [r]) := by
  unfold buildRecord at h
  simp only [] at h
  split at h
  · cases h
  · next hfull =>
    injection h with h
    refine ⟨?_, h.symm⟩
    simpa [Page.full, Mem.mem_page] using hfull

theorem buildRecords_ok {c : Config} (rs : List Record) :
    ∀ {m m' : Mem}, buildRecords c m rs = Except.ok m' →
      (∀ j, m' j = m j ++ rs.filter (fun r => decide (hashIdx c r = j))) ∧
      (∀ j, rs.filter (fun r => decide (hashIdx c r = j)) ≠ [] →
        (m' j).length ≤ c.RECORDS_PER_PAGE) := by
  induction rs with
  | nil =>
    intro m m' h
    injection h with h
    subst h
    exact ⟨fun j => by simp, fun j hj => absurd rfl hj⟩
  | cons r rs ih =>
    intro m m' h
    unfold buildRecords at h
    split at h
    · cases h
    · next m1 h1 =>
      obtain ⟨hlt, hm1⟩ := buildRecord_ok h1
      obtain ⟨ih1, ih2⟩ := ih h
      have key : ∀ j, m1 j = m j ++ (if hashIdx c r = j then [r] else []) := by
        intro j
        rw [hm1]
        by_cases e : j = hashIdx c r
        · subst e; simp
        · have e' : ¬ hashIdx c r = j := fun x => e x.symm
          simp [Mem.setPage_ne _ _ e, e']
      refine ⟨fun j => ?_, fun j hj => ?_⟩
      · rw [ih1 j, key j, List.filter_cons]
        by_cases e : hashIdx c r = j <;> simp [e]
      · by_cases hrest : rs.filter (fun r => decide (hashIdx c r = j)) = []
        · rw [ih1 j, hrest, List.append_nil, key j]
          have e : hashIdx c r = j := by
            by_contra e
            apply hj
            rw [List.filter_cons]
            simp [e, hrest]
          subst e
          simp
          omega
        · exact ih2 j hrest

theorem buildPages_ok {c : Config} (hB : 3 ≤ c.MEM_SIZE_IN_PAGE) (d : Disk) (ids : List Nat) :
    ∀ {m m' : Mem}, buildPages c d m ids = Except.ok m' →
      (∀ j, j < c.MEM_SIZE_IN_PAGE - 2 →
        m' j = m j ++ (d.records ids).filter (fun r => decide (hashIdx c r = j))) ∧
      (∀ j, j < c.MEM_SIZE_IN_PAGE - 2 →
        (d.records ids).filter (fun r => decide (hashIdx c r = j)) ≠ [] →
        (m' j).length ≤ c.RECORDS_PER_PAGE) ∧
      (∀ j, c.MEM_SIZE_IN_PAGE - 2 < j → m' j = m j) := by
  induction ids with
  | nil =>
    intro m m' h
    injection h with h
    subst h
    exact ⟨fun j _ => by simp [Disk.records], fun j _ hj => absurd rfl hj, fun _ _ => rfl⟩
  | cons id ids ih =>
    intro m m' h
    unfold buildPages at h
    simp only [Mem.loadFromDisk, Mem.mem_page, Mem.setPage_same] at h
    split at h
    · cases h
    · next m2 h2 =>
      obtain ⟨b1, b2⟩ := buildRecords_ok _ h2
      obtain ⟨ih1, ih2, ih3⟩ := ih h
      refine ⟨fun j hj => ?_, fun j hj hne => ?_, fun j hj => ?_⟩
      · have hne : j ≠ c.MEM_SIZE_IN_PAGE - 2 := by omega
        rw [ih1 j hj, b1 j, Mem.setPage_ne _ _ hne, Disk.records_cons, List.filter_append,
          List.append_assoc]
      · by_cases hrest : (d.records ids).filter (fun r => decide (hashIdx c r = j)) = []
        · rw [ih1 j hj, hrest, List.append_nil]
          apply b2 j
          intro h0
          apply hne
          rw [Disk.records_cons, List.filter_append, h0, hrest]
          rfl
        · exact ih2 j hj hrest
      · have hne : j ≠ c.MEM_SIZE_IN_PAGE - 2 := by omega
        rw [ih3 j hj, b1 j, Mem.setPage_ne _ _ hne]
        have : (d.read id).filter (fun r => decide (hashIdx c r = j)) = [] := by
          rw [List.filter_eq_nil_iff]
          intro r _
          have := hashIdx_lt c hB r
          simp
          omega
        rw [this, List.append_nil]

theorem sum_map_le_mul (H cap : Nat) (f : Nat → Nat) (h : ∀ j, j < H → f j ≤ cap) :
    ((List.range H).map f).sum ≤ H * cap := by
  induction H with
  | zero => simp
  | succ H ih =>
    rw [List.range_succ, List.map_append, List.sum_append]
    have h1 := ih (fun j hj => h j (Nat.lt_succ_of_lt hj))
    have h2 := h H (Nat.lt_succ_self H)
    simp only [List.map_cons, List.map_nil, List.sum_cons, List.sum_nil, Nat.add_zero]
    rw [Nat.succ_mul]
    omega

/-- Pigeonhole: a list whose elements fall into `H` classes of at most `cap`
elements each has at most `H * cap` elements. -/
theorem length_le_of_classes {α : Type} [DecidableEq α] (idx : α → Nat) (L : List α)
    (H cap : Nat) (hidx : ∀ a, idx a < H)
    (h : ∀ j, j < H → (L.filter (fun a => decide (idx a = j))).length ≤ cap) :
    L.length ≤ H * cap := by
  have hperm := perm_flatten_parts idx L
    ((List.range H).map (fun j => L.filter (fun a => decide (idx a = j))))
    (by simpa using hidx)
    (by
      intro j hj
      simp only [List.length_map, List.length_range] at hj
      simp [List.getElem?_eq_getElem, hj])
  rw [← hperm.length_eq, List.length_flatten, List.map_map]
  exact sum_map_le_mul H cap _ (fun j hj => h j hj)

/-! ## The probe phase of `probe` -/

theorem Page.pairs_append_pair (a b : Record) :
    ∀ p : Page, p.length % 2 = 0 → Page.pairs (p ++ [a, b]) = Page.pairs p ++ [(a, b)]
  | [], _ => rfl
  | [x], h => by simp at h
  | x :: y :: rest, h => by
    have h' : rest.length % 2 = 0 := by
      simp only [List.length_cons] at h
      omega
    show (x, y) :: Page.pairs (rest ++ [a, b]) = (x, y) :: (Page.pairs rest ++ [(a, b)])
    rw [Page.pairs_append_pair a b rest h']

theorem Page.pairs_loadPair (p : Page) (a b : Record) (h : p.length % 2 = 0) :
    (p.loadPair a b).pairs = p.pairs ++ [(a, b)] :=
  Page.pairs_append_pair a b p h

@[simp] theorem RState.flushResult_disk (s : RState) (i : Nat) :
    (s.flushResult i).disk = s.disk ++ [s.mem i] := rfl

@[simp] theorem RState.flushResult_mem (s : RState) (i : Nat) :
    (s.flushResult i).mem = s.mem.setPage i [] := rfl

@[simp] theorem RState.flushResult_pages (s : RState) (i : Nat) :
    (s.flushResult i).result_pages = s.result_pages ++ [s.disk.length] := rfl

theorem RInv.keep_flushResult {c : Config} {table : Mem} {s0 s : RState} {ext : List Page}
    {E : List (Record × Record)} (h : RInv c table s0 s ext E)
    (hsize : c.RECORDS_PER_PAGE - 1 ≤ (s.mem.mem_page (c.MEM_SIZE_IN_PAGE - 1)).length) :
    RInv c table s0 (s.flushResult (c.MEM_SIZE_IN_PAGE - 1))
      (ext ++ [s.mem.mem_page (c.MEM_SIZE_IN_PAGE - 1)]) E where
  disk := by simp [h.disk, Mem.mem_page]
  pages := by
    rw [RState.flushResult_pages, h.pages, h.disk, List.length_append, List.length_append,
      List.length_singleton, List.range'_concat, List.append_assoc]
    simp
  out := by
    have := h.out
    simpa [Mem.mem_page, Page.pairs] using this
  even := by simp [Mem.mem_page]
  bound := fun _ => by simp [Mem.mem_page]
  flushed := fun p hp => by
    rcases List.mem_append.mp hp with hp | hp
    · exact h.flushed p hp
    · simp only [List.mem_singleton] at hp
      subst hp
      exact ⟨hsize, h.even, h.bound⟩
  table := fun j hj => by
    have hne : j ≠ c.MEM_SIZE_IN_PAGE - 1 := by omega
    rw [RState.flushResult_mem, Mem.setPage_ne _ _ hne]
    exact h.table j hj

theorem RInv.keep_loadPair {c : Config} {table : Mem} {s0 s : RState} {ext : List Page}
    {E : List (Record × Record)} (h : RInv c table s0 s ext E) (l r : Record)
    (hroom : 2 ≤ c.RECORDS_PER_PAGE →
      (s.mem.mem_page (c.MEM_SIZE_IN_PAGE - 1)).length + 2 ≤ c.RECORDS_PER_PAGE) :
    RInv c table s0
      { s with mem := s.mem.setPage (c.MEM_SIZE_IN_PAGE - 1)
                        ((s.mem.mem_page (c.MEM_SIZE_IN_PAGE - 1)).loadPair l r) }
      ext (E ++ [(l, r)]) where
  disk := h.disk
  pages := h.pages
  out := by
    have := h.out
    simp only [Mem.mem_page, Mem.setPage_same] at this ⊢
    rw [Page.pairs_loadPair (s.mem (c.MEM_SIZE_IN_PAGE - 1)) l r h.even, ← List.append_assoc, this]
  even := by
    have := h.even
    simp only [Mem.mem_page, Mem.setPage_same, Page.loadPair, List.length_append,
      List.length_cons, List.length_nil] at this ⊢
    omega
  bound := fun hc => by
    have := hroom hc
    simp only [Mem.mem_page, Mem.setPage_same, Page.loadPair, List.length_append,
      List.length_cons, List.length_nil] at this ⊢
    omega
  flushed := h.flushed
  table := fun j hj => by
    have hne : j ≠ c.MEM_SIZE_IN_PAGE - 1 := by omega
    simp only [Mem.setPage_ne _ _ hne]
    exact h.table j hj

theorem RInv.keep_emitPair {c : Config} {table : Mem} {s0 s : RState} {ext : List Page}
    {E : List (Record × Record)} (h : RInv c table s0 s ext E) (lis : Bool)
    (probe_record hash_record : Record) :
    ∃ ext', RInv c table s0 (emitPair c lis s probe_record hash_record) ext'
      (E ++ [orient lis probe_record hash_record]) := by
  unfold emitPair
  simp only [Page.size]
  split
  · next hsize =>
    have h1 := h.keep_flushResult hsize
    have hroom : 2 ≤ c.RECORDS_PER_PAGE →
        ((s.flushResult (c.MEM_SIZE_IN_PAGE - 1)).mem.mem_page
          (c.MEM_SIZE_IN_PAGE - 1)).length + 2 ≤ c.RECORDS_PER_PAGE := by
      intro hc
      simpa [Mem.mem_page] using hc
    cases lis
    · exact ⟨_, by simpa [orient] using h1.keep_loadPair probe_record hash_record hroom⟩
    · exact ⟨_, by simpa [orient] using h1.keep_loadPair hash_record probe_record hroom⟩
  · next hsize =>
    have hroom : 2 ≤ c.RECORDS_PER_PAGE →
        (s.mem.mem_page (c.MEM_SIZE_IN_PAGE - 1)).length + 2 ≤ c.RECORDS_PER_PAGE := by
      intro hc
      omega
    cases lis
    · exact ⟨_, by simpa [orient] using h.keep_loadPair probe_record hash_record hroom⟩
    · exact ⟨_, by simpa [orient] using h.keep_loadPair hash_record probe_record hroom⟩

theorem RInv.keep_foldl_probeMatch {c : Config} {table : Mem} {s0 : RState} (lis : Bool)
    (p : Record) (X : List Record) :
    ∀ {s : RState} {ext : List Page} {E : List (Record × Record)}, RInv c table s0 s ext E →
      ∃ ext', RInv c table s0 (X.foldl (probeMatch c lis p) s) ext'
        (E ++ (X.filter (fun h => p.eq h)).map (orient lis p)) := by
  induction X with
  | nil => intro s ext E h; exact ⟨ext, by simpa using h⟩
  | cons x X ih =>
    intro s ext E h
    rw [List.foldl_cons, List.filter_cons]
    unfold probeMatch
    by_cases e : p.eq x = true
    · obtain ⟨ext1, h1⟩ := h.keep_emitPair lis p x
      obtain ⟨ext2, h2⟩ := ih h1
      refine ⟨ext2, ?_⟩
      simpa [e, probeMatch] using h2
    · obtain ⟨ext2, h2⟩ := ih h
      refine ⟨ext2, ?_⟩
      simpa [e, probeMatch] using h2

theorem RInv.keep_probeRecord {c : Config} {table : Mem} {s0 s : RState} {ext : List Page}
    {E : List (Record × Record)} (h : RInv c table s0 s ext E)
    (hB : 3 ≤ c.MEM_SIZE_IN_PAGE) (lis : Bool) (p : Record) :
    ∃ ext', RInv c table s0 (probeRecord c lis s p) ext' (E ++ matchesOf c lis table p) := by
  unfold probeRecord matchesOf
  have ht := h.table (hashIdx c p) (hashIdx_lt c hB p)
  simp only [Mem.mem_page]
  rw [← ht]
  exact RInv.keep_foldl_probeMatch lis p _ h

theorem RInv.keep_foldl_probeRecord {c : Config} {table : Mem} {s0 : RState}
    (hB : 3 ≤ c.MEM_SIZE_IN_PAGE) (lis : Bool) (page : List Record) :
    ∀ {s : RState} {ext : List Page} {E : List (Record × Record)}, RInv c table s0 s ext E →
      ∃ ext', RInv c table s0 (page.foldl (probeRecord c lis) s) ext'
        (E ++ page.flatMap (matchesOf c lis table)) := by
  induction page with
  | nil => intro s ext E h; exact ⟨ext, by simpa using h⟩
  | cons p page ih =>
    intro s ext E h
    obtain ⟨ext1, h1⟩ := h.keep_probeRecord hB lis p
    obtain ⟨ext2, h2⟩ := ih h1
    exact ⟨ext2, by simpa [List.flatMap_cons, List.append_assoc] using h2⟩

theorem RInv.keep_load {c : Config} {table : Mem} {s0 s : RState} {ext : List Page}
    {E : List (Record × Record)} (h : RInv c table s0 s ext E)
    (hB : 3 ≤ c.MEM_SIZE_IN_PAGE) (pg : Page) :
    RInv c table s0 { s with mem := s.mem.setPage (c.MEM_SIZE_IN_PAGE - 2) pg } ext E where
  disk := h.disk
  pages := h.pages
  out := by
    have hne : c.MEM_SIZE_IN_PAGE - 1 ≠ c.MEM_SIZE_IN_PAGE - 2 := by omega
    simpa [Mem.mem_page, Mem.setPage_ne _ _ hne] using h.out
  even := by
    have hne : c.MEM_SIZE_IN_PAGE - 1 ≠ c.MEM_SIZE_IN_PAGE - 2 := by omega
    simpa [Mem.mem_page, Mem.setPage_ne _ _ hne] using h.even
  bound := by
    have hne : c.MEM_SIZE_IN_PAGE - 1 ≠ c.MEM_SIZE_IN_PAGE - 2 := by omega
    simpa [Mem.mem_page, Mem.setPage_ne _ _ hne] using h.bound
  flushed := h.flushed
  table := fun j hj => by
    have hne : j ≠ c.MEM_SIZE_IN_PAGE - 2 := by omega
    simp only [Mem.setPage_ne _ _ hne]
    exact h.table j hj

theorem RInv.keep_probePage {c : Config} {table : Mem} {s0 s : RState} {ext : List Page}
    {E : List (Record × Record)} (h : RInv c table s0 s ext E)
    (hB : 3 ≤ c.MEM_SIZE_IN_PAGE) (lis : Bool) (id : Nat) :
    ∃ ext', RInv c table s0 (probePage c lis s id) ext'
      (E ++ (s.disk.read id).flatMap (matchesOf c lis table)) := by
  unfold probePage
  simp only [Mem.loadFromDisk, Mem.mem_page, Mem.setPage_same]
  exact RInv.keep_foldl_probeRecord hB lis _ (h.keep_load hB _)

theorem RInv.keep_foldl_probePage {c : Config} {table : Mem} {s0 : RState}
    (hB : 3 ≤ c.MEM_SIZE_IN_PAGE) (lis : Bool) (ids : List Nat) :
    ∀ {s : RState} {ext : List Page} {E : List (Record × Record)}, RInv c table s0 s ext E →
      ∃ ext' PR, RInv c table s0 (ids.foldl (probePage c lis) s) ext'
          (E ++ PR.flatMap (matchesOf c lis table)) ∧
        ((∀ id ∈ ids, id < s0.disk.length) → PR = s0.disk.records ids) := by
  induction ids with
  | nil => intro s ext E h; exact ⟨ext, [], by simpa using h, fun _ => rfl⟩
  | cons id ids ih =>
    intro s ext E h
    obtain ⟨ext1, h1⟩ := h.keep_probePage hB lis id
    obtain ⟨ext2, PR, h2, hPR⟩ := ih h1
    refine ⟨ext2, s.disk.read id ++ PR, by simpa [List.append_assoc] using h2, fun hv => ?_⟩
    rw [Disk.records_cons, hPR (fun x hx => hv x (by simp [hx])), h.disk,
      Disk.read_append_lt _ _ (hv id (by simp))]

/-! ## One bucket of `probe` -/

theorem probeBucket_skip (c : Config) (s : RState) (b : Bucket)
    (h : b.get_left_rel = [] ∨ b.get_right_rel = []) :
    probeBucket c s b = ProbeResult.ok { s with mem := Mem.reset } := by
  unfold probeBucket
  rcases h with h | h <;> simp [h]

theorem probeBucket_eq (c : Config) (s : RState) (b : Bucket)
    (hl : b.get_left_rel ≠ []) (hr : b.get_right_rel ≠ []) :
    probeBucket c s b =
      match buildPages c s.disk Mem.reset b.smaller_pages with
      | Except.error m => ProbeResult.overflow s.disk m
      | Except.ok m =>
        let s1 := b.larger_pages.foldl
          (probePage c (decide (b.num_left_rel_record ≤ b.num_right_rel_record)))
          { s with mem := m }
        ProbeResult.ok
          (if !(s1.mem.mem_page (c.MEM_SIZE_IN_PAGE - 1)).empty then
            s1.flushResult (c.MEM_SIZE_IN_PAGE - 1) else s1) := by
  unfold probeBucket Bucket.smaller_pages Bucket.larger_pages
  simp [hl, hr]

theorem flatMap_matchesOf_eq_joinWith (c : Config) (lis : Bool) (table : Mem)
    (build PR : List Record)
    (ht : ∀ p, table (hashIdx c p) = build.filter (fun h => decide (hashIdx c h = hashIdx c p))) :
    PR.flatMap (matchesOf c lis table) = joinWith c lis build PR := by
  unfold joinWith matchesOf
  congr 1
  funext p
  rw [ht p]

/-- What one iteration of the bucket loop of `probe` does when it does not
throw: `ext` are the pages it appends to the disk, `PR` the probe-side records
it reads. -/
theorem probeBucket_ok_spec (c : Config) (hB : 3 ≤ c.MEM_SIZE_IN_PAGE) (s s' : RState)
    (b : Bucket) (h : probeBucket c s b = ProbeResult.ok s') :
    ∃ (ext : List Page) (PR : List Record),
      s'.disk = s.disk ++ ext ∧
      s'.result_pages = s.result_pages ++ List.range' s.disk.length ext.length ∧
      (ext.map Page.pairs).flatten =
        (if b.get_left_rel.isEmpty || b.get_right_rel.isEmpty then []
         else joinWith c (decide (b.num_left_rel_record ≤ b.num_right_rel_record))
           (s.disk.records b.smaller_pages) PR) ∧
      ((∀ id ∈ b.larger_pages, id < s.disk.length) → PR = s.disk.records b.larger_pages) ∧
      (∀ p ∈ ext.dropLast, c.RECORDS_PER_PAGE - 1 ≤ p.length) ∧
      (∀ p ∈ ext, p.length % 2 = 0 ∧
        (2 ≤ c.RECORDS_PER_PAGE → p ≠ [] ∧ p.length ≤ c.RECORDS_PER_PAGE)) := by
  by_cases hskip : b.get_left_rel = [] ∨ b.get_right_rel = []
  · rw [probeBucket_skip c s b hskip] at h
    injection h with h
    subst h
    refine ⟨[], s.disk.records b.larger_pages, by simp, by simp, ?_, fun _ => rfl, by simp,
      by simp⟩
    rcases hskip with e | e <;> simp [e]
  · have hl : b.get_left_rel ≠ [] := fun e => hskip (Or.inl e)
    have hr : b.get_right_rel ≠ [] := fun e => hskip (Or.inr e)
    rw [probeBucket_eq c s b hl hr] at h
    split at h
    · cases h
    · next m hm =>
      obtain ⟨b1, _, b3⟩ := buildPages_ok hB s.disk b.smaller_pages hm
      have hres : m (c.MEM_SIZE_IN_PAGE - 1) = [] := by
        rw [b3 _ (by omega)]
        rfl
      have hinit : RInv c m { s with mem := m } { s with mem := m } [] [] :=
        { disk := by simp
          pages := by simp
          out := by simp [Mem.mem_page, hres, Page.pairs]
          even := by simp [Mem.mem_page, hres]
          bound := fun _ => by simp [Mem.mem_page, hres]
          flushed := fun p hp => by simp at hp
          table := fun _ _ => rfl }
      obtain ⟨ext, PR, hinv, hPR⟩ := RInv.keep_foldl_probePage hB
        (decide (b.num_left_rel_record ≤ b.num_right_rel_record)) b.larger_pages hinit
      generalize List.foldl
        (probePage c (decide (b.num_left_rel_record ≤ b.num_right_rel_record)))
        { s with mem := m } b.larger_pages = s1 at h hinv
      have hjoin := flatMap_matchesOf_eq_joinWith c
        (decide (b.num_left_rel_record ≤ b.num_right_rel_record)) m
        (s.disk.records b.smaller_pages) PR (fun p => by
          rw [b1 _ (hashIdx_lt c hB p)]
          rfl)
      have hif : (b.get_left_rel.isEmpty || b.get_right_rel.isEmpty) = false := by
        simp [List.isEmpty_iff, hl, hr]
      simp only [] at h
      injection h with h
      rw [hif]
      simp only [Bool.false_eq_true, if_false]
      have hout := hinv.out
      simp only [List.nil_append] at hout
      split at h
      · next hne =>
        subst h
        refine ⟨ext ++ [s1.mem (c.MEM_SIZE_IN_PAGE - 1)], PR, ?_, ?_, ?_, hPR, ?_, ?_⟩
        · rw [RState.flushResult_disk, hinv.disk, List.append_assoc]
        · rw [RState.flushResult_pages, hinv.pages, hinv.disk, List.length_append,
            List.length_append, List.length_singleton, List.range'_concat, List.append_assoc]
          simp
        · rw [← hjoin, ← hout]
          simp [Mem.mem_page]
        · intro p hp
          rw [List.dropLast_concat] at hp
          exact (hinv.flushed p hp).1
        · intro p hp
          rcases List.mem_append.mp hp with hp | hp
          · obtain ⟨f1, f2, f3⟩ := hinv.flushed p hp
            refine ⟨f2, fun hc => ⟨fun e => ?_, f3 hc⟩⟩
            rw [e] at f1
            simp only [List.length_nil] at f1
            omega
          · simp only [List.mem_singleton] at hp
            subst hp
            refine ⟨hinv.even, fun hc => ⟨fun e => ?_, hinv.bound hc⟩⟩
            simp [Page.empty, Mem.mem_page, e] at hne
      · next hne =>
        subst h
        have hempty : s1.mem.mem_page (c.MEM_SIZE_IN_PAGE - 1) = [] := by
          simpa [Page.empty] using hne
        refine ⟨ext, PR, hinv.disk, hinv.pages, ?_, hPR, ?_, ?_⟩
        · rw [← hjoin, ← hout, hempty]
          simp [Page.pairs]
        · intro p hp
          exact (hinv.flushed p (List.mem_of_mem_dropLast hp)).1
        · intro p hp
          obtain ⟨f1, f2, f3⟩ := hinv.flushed p hp
          refine ⟨f2, fun hc => ⟨fun e => ?_, f3 hc⟩⟩
          rw [e] at f1
          simp only [List.length_nil] at f1
          omega

theorem Disk.length_read_le (d t : Disk) (id : Nat) :
    (Disk.read d id).length ≤ (Disk.read (d ++ t) id).length := by
  by_cases h : id < d.length
  · rw [Disk.read_append_lt d t h]
  · rw [Disk.read_of_le d (Nat.le_of_not_lt h)]
    exact Nat.zero_le _

theorem Disk.length_records_le (d t : Disk) (ids : List Nat) :
    (Disk.records d ids).length ≤ (Disk.records (d ++ t) ids).length := by
  induction ids with
  | nil => exact Nat.le_refl _
  | cons id ids ih =>
    rw [Disk.records_cons, Disk.records_cons, List.length_append, List.length_append]
    exact Nat.add_le_add (Disk.length_read_le d t id) ih

theorem Disk.read_append_ge (d t : Disk) {id : Nat} (h : d.length ≤ id) :
    Disk.read (d ++ t) id = Disk.read t (id - d.length) := by
  simp [Disk.read, List.getElem?_append_right h]

theorem Disk.read_eq_nil_or_mem (d : Disk) (id : Nat) : Disk.read d id = [] ∨ Disk.read d id ∈ d := by
  by_cases h : id < d.length
  · right
    simp [Disk.read, List.getElem?_eq_getElem h]
  · left
    exact Disk.read_of_le d (Nat.le_of_not_lt h)

/-- A bucket whose build side holds more records than the hash table has room
for makes the bucket loop throw. -/
theorem probeBucket_overflow (c : Config) (hB : 3 ≤ c.MEM_SIZE_IN_PAGE) (s : RState) (b : Bucket)
    (hl : b.get_left_rel ≠ []) (hr : b.get_right_rel ≠ [])
    (hcount : (c.MEM_SIZE_IN_PAGE - 2) * c.RECORDS_PER_PAGE
      < (s.disk.records b.smaller_pages).length) :
    ∃ m, probeBucket c s b = ProbeResult.overflow s.disk m := by
  rw [probeBucket_eq c s b hl hr]
  split
  · next m _ => exact ⟨m, rfl⟩
  · next m hm =>
    exfalso
    obtain ⟨b1, b2, _⟩ := buildPages_ok hB s.disk b.smaller_pages hm
    have hle := length_le_of_classes (hashIdx c) (s.disk.records b.smaller_pages)
      (c.MEM_SIZE_IN_PAGE - 2) c.RECORDS_PER_PAGE (hashIdx_lt c hB) (fun j hj => by
        by_cases e : (s.disk.records b.smaller_pages).filter
            (fun r => decide (hashIdx c r = j)) = []
        · rw [e]; exact Nat.zero_le _
        · have := b2 j hj e
          rw [b1 j hj] at this
          simpa [Mem.reset] using this)
    omega

theorem probeBucket_disk_grows (c : Config) (hB : 3 ≤ c.MEM_SIZE_IN_PAGE) (s : RState)
    (b : Bucket) : ∃ ext, (probeBucket c s b).disk = s.disk ++ ext := by
  cases h : probeBucket c s b with
  | ok s' =>
    obtain ⟨ext, _, hd, _⟩ := probeBucket_ok_spec c hB s s' b h
    exact ⟨ext, hd⟩
  | overflow d m =>
    refine ⟨[], ?_⟩
    by_cases hskip : b.get_left_rel = [] ∨ b.get_right_rel = []
    · rw [probeBucket_skip c s b hskip] at h
      cases h
    · rw [probeBucket_eq c s b (fun e => hskip (Or.inl e)) (fun e => hskip (Or.inr e))] at h
      split at h
      · injection h with h1 h2
        simp [ProbeResult.disk, h1]
      · cases h

theorem probeBuckets_overflow (c : Config) (hB : 3 ≤ c.MEM_SIZE_IN_PAGE) (disk : Disk)
    (b : Bucket) (hl : b.get_left_rel ≠ []) (hr : b.get_right_rel ≠ [])
    (hcount : (c.MEM_SIZE_IN_PAGE - 2) * c.RECORDS_PER_PAGE
      < (disk.records b.smaller_pages).length) (bs : List Bucket) :
    b ∈ bs → ∀ s : RState, (∃ t, s.disk = disk ++ t) → (probeBuckets c s bs).pages = none := by
  induction bs with
  | nil => intro hb; simp at hb
  | cons x xs ih =>
    intro hb s hs
    obtain ⟨t, ht⟩ := hs
    unfold probeBuckets
    cases hx : probeBucket c s x with
    | overflow d m => rfl
    | ok s1 =>
      simp only []
      rcases List.mem_cons.mp hb with e | e
      · subst e
        have hc : (c.MEM_SIZE_IN_PAGE - 2) * c.RECORDS_PER_PAGE
            < (s.disk.records b.smaller_pages).length := by
          have := Disk.length_records_le disk t b.smaller_pages
          rw [ht]
          omega
        obtain ⟨m, hm⟩ := probeBucket_overflow c hB s b hl hr hc
        rw [hm] at hx
        cases hx
      · obtain ⟨ext, hext⟩ := probeBucket_disk_grows c hB s x
        rw [hx] at hext
        exact ih e s1 ⟨t ++ ext, by
          have : s1.disk = s.disk ++ ext := hext
          rw [this, ht, List.append_assoc]⟩

/-- C5 (overflow detection): with a budget of at least three pages, if the
bucket list contains a bucket with both page lists non-empty whose build side
(the left pages when the left count is at most the right count, else the right
pages) holds more than `(MEM_SIZE_IN_PAGE - 2) * RECORDS_PER_PAGE` records,
`probe` throws instead of returning a list, whatever `probe_hash` is. -/
theorem probe_overflow_detected (c : Config) (hB : 3 ≤ c.MEM_SIZE_IN_PAGE) (disk : Disk)
    (mem : Mem) (partitions : List Bucket) (b : Bucket) (hb : b ∈ partitions)
    (hl : b.get_left_rel ≠ []) (hr : b.get_right_rel ≠ [])
    (hcount : (c.MEM_SIZE_IN_PAGE - 2) * c.RECORDS_PER_PAGE
      < (disk.records b.smaller_pages).length) :
    (probe c disk mem partitions).pages = none :=
  probeBuckets_overflow c hB disk b hl hr hcount partitions hb _ ⟨[], by simp⟩

theorem probe_overflow_detected_witness :
    3 ≤ (keyConfig 3 2).MEM_SIZE_IN_PAGE ∧
    Bucket.mk [0, 1] [2] 0 0 ∈ [Bucket.mk [] [2] 0 0, Bucket.mk [0, 1] [2] 0 0] ∧
    ((keyConfig 3 2).MEM_SIZE_IN_PAGE - 2) * (keyConfig 3 2).RECORDS_PER_PAGE
      < (probeDisk.records (Bucket.mk [0, 1] [2] 0 0).smaller_pages).length ∧
    (probe (keyConfig 3 2) probeDisk Mem.reset
      [Bucket.mk [] [2] 0 0, Bucket.mk [0, 1] [2] 0 0]).pages = none :=
  ⟨by decide, by decide, by decide,
    probe_overflow_detected (keyConfig 3 2) (by decide) probeDisk Mem.reset
      [Bucket.mk [] [2] 0 0, Bucket.mk [0, 1] [2] 0 0] (Bucket.mk [0, 1] [2] 0 0)
      (by decide) (by decide) (by decide) (by decide)⟩

theorem probeBuckets_skip (c : Config) (bs : List Bucket)
    (h : ∀ b ∈ bs, b.get_left_rel = [] ∨ b.get_right_rel = []) :
    ∀ s : RState, ∃ m, probeBuckets c s bs = ProbeResult.ok { s with mem := m } := by
  induction bs with
  | nil => intro s; exact ⟨s.mem, rfl⟩
  | cons x xs ih =>
    intro s
    unfold probeBuckets
    rw [probeBucket_skip c s x (h x (by simp))]
    simp only []
    obtain ⟨m, hm⟩ := ih (fun b hb => h b (by simp [hb])) { s with mem := Mem.reset }
    exact ⟨m, hm⟩

/-- C9 (empty-partition skip): for a bucket whose left or right page list is
empty the bucket loop of `probe` only resets the memory: it appends no page id
to the result and writes no page to the disk; hence `probe` of a list of such
buckets returns the empty list and leaves the disk unchanged. -/
theorem probe_skips_empty (c : Config) (disk : Disk) (mem : Mem) (partitions : List Bucket)
    (h : ∀ b ∈ partitions, b.get_left_rel = [] ∨ b.get_right_rel = []) :
    (∀ (s : RState) (b : Bucket), b ∈ partitions →
      probeBucket c s b = ProbeResult.ok { s with mem := Mem.reset }) ∧
    (probe c disk mem partitions).pages = some [] ∧
    (probe c disk mem partitions).disk = disk := by
  refine ⟨fun s b hb => probeBucket_skip c s b (h b hb), ?_⟩
  obtain ⟨m, hm⟩ := probeBuckets_skip c partitions h
    { disk := disk, mem := mem, result_pages := [] }
  unfold probe
  rw [hm]
  exact ⟨rfl, rfl⟩

theorem probe_skips_empty_witness :
    (∀ b ∈ [Bucket.mk [] [2] 0 0, Bucket.mk [0, 1] [] 2 0, Bucket.mk [] [] 0 0],
      b.get_left_rel = [] ∨ b.get_right_rel = []) ∧
    (probe (keyConfig 3 2) probeDisk Mem.reset
      [Bucket.mk [] [2] 0 0, Bucket.mk [0, 1] [] 2 0, Bucket.mk [] [] 0 0]).pages = some [] ∧
    (probe (keyConfig 3 2) probeDisk Mem.reset
      [Bucket.mk [] [2] 0 0, Bucket.mk [0, 1] [] 2 0, Bucket.mk [] [] 0 0]).disk = probeDisk :=
  ⟨by decide,
    (probe_skips_empty (keyConfig 3 2) probeDisk Mem.reset
      [Bucket.mk [] [2] 0 0, Bucket.mk [0, 1] [] 2 0, Bucket.mk [] [] 0 0] (by decide)).2⟩

/-! ## Soundness and pair order -/

theorem mem_joinWith {c : Config} {lis : Bool} {build PR : List Record} {pr : Record × Record}
    (h : pr ∈ joinWith c lis build PR) :
    ∃ p ∈ PR, ∃ x ∈ build, p.eq x = true ∧ hashIdx c x = hashIdx c p ∧ pr = orient lis p x := by
  unfold joinWith at h
  rw [List.mem_flatMap] at h
  obtain ⟨p, hp, hmem⟩ := h
  rw [List.mem_map] at hmem
  obtain ⟨x, hx, rfl⟩ := hmem
  rw [List.mem_filter, List.mem_filter] at hx
  exact ⟨p, hp, x, hx.1.1, hx.2, by simpa using hx.1.2, rfl⟩

theorem Record.eq_comm (a b : Record) : a.eq b = b.eq a := by
  unfold Record.eq
  exact Bool.beq_comm

theorem orient_sound (lis : Bool) (p x : Record) (h : p.eq x = true) :
    (orient lis p x).1.eq (orient lis p x).2 = true := by
  cases lis
  · simpa [orient] using h
  · rw [Record.eq_comm] at h
    simpa [orient] using h

/-- The pairs on the pages that one iteration of the bucket loop appends to the
disk are pairs of the join sequence of the bucket. -/
theorem probeBucket_new_pairs (c : Config) (hB : 3 ≤ c.MEM_SIZE_IN_PAGE) (s s' : RState)
    (b : Bucket) (h : probeBucket c s b = ProbeResult.ok s') (id : Nat)
    (hid : s.disk.length ≤ id) (pr : Record × Record) (hpr : pr ∈ (s'.disk.read id).pairs) :
    ∃ PR, pr ∈ joinWith c (decide (b.num_left_rel_record ≤ b.num_right_rel_record))
        (s.disk.records b.smaller_pages) PR ∧
      ((∀ id ∈ b.larger_pages, id < s.disk.length) → PR = s.disk.records b.larger_pages) := by
  obtain ⟨ext, PR, hd, _, hout, hPR, _, _⟩ := probeBucket_ok_spec c hB s s' b h
  refine ⟨PR, ?_, hPR⟩
  rw [hd, Disk.read_append_ge _ _ hid] at hpr
  have hmem : pr ∈ (ext.map Page.pairs).flatten := by
    rcases Disk.read_eq_nil_or_mem ext (id - s.disk.length) with e | e
    · rw [e] at hpr
      simp [Page.pairs] at hpr
    · rw [List.mem_flatten]
      exact ⟨_, List.mem_map.mpr ⟨_, e, rfl⟩, hpr⟩
  rw [hout] at hmem
  split at hmem
  · simp at hmem
  · exact hmem

theorem probeBucket_overflow_disk (c : Config) (s : RState) (b : Bucket) (d : Disk) (m : Mem)
    (h : probeBucket c s b = ProbeResult.overflow d m) : d = s.disk := by
  by_cases hskip : b.get_left_rel = [] ∨ b.get_right_rel = []
  · rw [probeBucket_skip c s b hskip] at h
    cases h
  · rw [probeBucket_eq c s b (fun e => hskip (Or.inl e)) (fun e => hskip (Or.inr e))] at h
    split at h
    · injection h with h1 h2
      exact h1.symm
    · cases h

theorem probeBuckets_sound (c : Config) (hB : 3 ≤ c.MEM_SIZE_IN_PAGE) (disk : Disk)
    (bs : List Bucket) :
    ∀ s : RState, disk.length ≤ s.disk.length →
      (∀ id, disk.length ≤ id → ∀ pr ∈ (s.disk.read id).pairs, pr.1.eq pr.2 = true) →
      ∀ id, disk.length ≤ id →
        ∀ pr ∈ ((probeBuckets c s bs).disk.read id).pairs, pr.1.eq pr.2 = true := by
  induction bs with
  | nil => intro s _ hs; exact hs
  | cons x xs ih =>
    intro s hlen hs
    unfold probeBuckets
    cases hx : probeBucket c s x with
    | overflow d m =>
      have hd := probeBucket_overflow_disk c s x d m hx
      subst hd
      exact hs
    | ok s1 =>
      simp only []
      obtain ⟨ext, _, hd, _⟩ := probeBucket_ok_spec c hB s s1 x hx
      refine ih s1 (by rw [hd, List.length_append]; omega) (fun id hid pr hpr => ?_)
      by_cases hlt : id < s.disk.length
      · rw [hd, Disk.read_append_lt _ _ hlt] at hpr
        exact hs id hid pr hpr
      · obtain ⟨PR, hj, _⟩ := probeBucket_new_pairs c hB s s1 x hx id (Nat.le_of_not_lt hlt) pr hpr
        obtain ⟨p, _, y, _, he, _, rfl⟩ := mem_joinWith hj
        exact orient_sound _ p y he

theorem bucketJoin_grow (c : Config) (d t : Disk) (b : Bucket)
    (hv : ∀ id ∈ b.get_left_rel ++ b.get_right_rel, id < d.length) :
    bucketJoin c (d ++ t) b = bucketJoin c d b := by
  have h1 : ∀ id ∈ b.smaller_pages, id < d.length := by
    intro id hid
    unfold Bucket.smaller_pages at hid
    split at hid <;> exact hv id (by simp [hid])
  have h2 : ∀ id ∈ b.larger_pages, id < d.length := by
    intro id hid
    unfold Bucket.larger_pages at hid
    split at hid <;> exact hv id (by simp [hid])
  unfold bucketJoin
  rw [Disk.records_grow d t _ h1, Disk.records_grow d t _ h2]

/-- What `probe` does on a list of buckets when it does not throw: `ext` are
the pages it appends to the disk. -/
theorem probeBuckets_ok_spec (c : Config) (hB : 3 ≤ c.MEM_SIZE_IN_PAGE) (bs : List Bucket) :
    ∀ s s' : RState, probeBuckets c s bs = ProbeResult.ok s' →
      ∃ ext : List Page,
        s'.disk = s.disk ++ ext ∧
        s'.result_pages = s.result_pages ++ List.range' s.disk.length ext.length ∧
        ((∀ b ∈ bs, ∀ id ∈ b.get_left_rel ++ b.get_right_rel, id < s.disk.length) →
          (ext.map Page.pairs).flatten = (bs.map (bucketJoin c s.disk)).flatten) := by
  induction bs with
  | nil =>
    intro s s' h
    injection h with h
    subst h
    exact ⟨[], by simp, by simp, fun _ => by simp⟩
  | cons x xs ih =>
    intro s s' h
    unfold probeBuckets at h
    cases hx : probeBucket c s x with
    | overflow d m => rw [hx] at h; cases h
    | ok s1 =>
      rw [hx] at h
      simp only [] at h
      obtain ⟨ext1, PR, hd1, hp1, hout1, hPR, _, _⟩ := probeBucket_ok_spec c hB s s1 x hx
      obtain ⟨ext2, hd2, hp2, hout2⟩ := ih s1 s' h
      refine ⟨ext1 ++ ext2, by rw [hd2, hd1, List.append_assoc], ?_, fun hv => ?_⟩
      · rw [hp2, hp1, hd1, List.append_assoc, List.length_append, List.length_append,
          List.range'_append_1, Nat.add_comm ext2.length]
      · have hvx := hv x (by simp)
        have hlarger : ∀ id ∈ x.larger_pages, id < s.disk.length := by
          intro id hid
          unfold Bucket.larger_pages at hid
          split at hid <;> exact hvx id (by simp [hid])
        rw [List.map_append, List.flatten_append, hout1, hPR hlarger, List.map_cons,
          List.flatten_cons]
        have hrest := hout2 (fun b hb id hid => by
          rw [hd1, List.length_append]
          exact Nat.lt_add_right _ (hv b (by simp [hb]) id hid))
        rw [hrest]
        congr 1
        congr 1
        apply List.map_congr_left
        intro b hb
        rw [hd1]
        exact bucketJoin_grow c s.disk ext1 b (hv b (by simp [hb]))

/-- C2 (join soundness): with a budget of at least three pages and with no
assumption on the two hash functions, the two records of every pair on a page
that `probe` writes to the disk (a page id not below the size of the disk at
the call) compare equal; the page ids that `probe` returns are such pages. -/
theorem probe_sound (c : Config) (hB : 3 ≤ c.MEM_SIZE_IN_PAGE) (disk : Disk) (mem : Mem)
    (partitions : List Bucket) :
    (∀ id, disk.length ≤ id →
      ∀ pr ∈ ((probe c disk mem partitions).disk.read id).pairs, pr.1.eq pr.2 = true) ∧
    (∀ pages, (probe c disk mem partitions).pages = some pages →
      ∀ id ∈ pages, ∀ pr ∈ ((probe c disk mem partitions).disk.read id).pairs,
        pr.1.eq pr.2 = true) := by
  have h1 : ∀ id, disk.length ≤ id →
      ∀ pr ∈ ((probe c disk mem partitions).disk.read id).pairs, pr.1.eq pr.2 = true :=
    probeBuckets_sound c hB disk partitions { disk := disk, mem := mem, result_pages := [] }
      (Nat.le_refl _) (fun id hid pr hpr => by
        rw [Disk.read_of_le disk hid] at hpr
        simp [Page.pairs] at hpr)
  refine ⟨h1, fun pages hp id hid => h1 id ?_⟩
  cases hres : probe c disk mem partitions with
  | overflow d m => rw [hres] at hp; simp [ProbeResult.pages] at hp
  | ok s' =>
    rw [hres] at hp
    simp only [ProbeResult.pages, Option.some.injEq] at hp
    obtain ⟨ext, _, hpages, _⟩ := probeBuckets_ok_spec c hB partitions _ s' hres
    rw [← hp, hpages] at hid
    simp only [List.nil_append, List.mem_range'_1] at hid
    exact hid.1

theorem probe_sound_witness :
    3 ≤ (keyConfig 3 2).MEM_SIZE_IN_PAGE ∧
    (probe (keyConfig 3 2) probeDisk Mem.reset [Bucket.mk [0] [2] 0 0]).pages = some [3, 4, 5] ∧
    (∀ id ∈ [3, 4, 5],
      ∀ pr ∈ ((probe (keyConfig 3 2) probeDisk Mem.reset
        [Bucket.mk [0] [2] 0 0]).disk.read id).pairs, pr.1.eq pr.2 = true) :=
  ⟨by decide, by decide,
    (probe_sound (keyConfig 3 2) (by decide) probeDisk Mem.reset [Bucket.mk [0] [2] 0 0]).2
      [3, 4, 5] (by decide)⟩

/-- C6 (pair order): with a budget of at least three pages, for every bucket
whose page ids name pages of the disk, in both cases of the build-side choice,
every pair on a page that the bucket loop of `probe` writes has a record of the
bucket's left pages as first component and a record of the bucket's right
pages as second component. -/
theorem probe_pair_order (c : Config) (hB : 3 ≤ c.MEM_SIZE_IN_PAGE) (s : RState) (b : Bucket)
    (hv : ∀ id ∈ b.get_left_rel ++ b.get_right_rel, id < s.disk.length)
    (id : Nat) (hid : s.disk.length ≤ id) (pr : Record × Record)
    (hpr : pr ∈ ((probeBucket c s b).disk.read id).pairs) :
    pr.1 ∈ s.disk.records b.get_left_rel ∧ pr.2 ∈ s.disk.records b.get_right_rel := by
  cases hres : probeBucket c s b with
  | overflow d m =>
    rw [hres] at hpr
    have hd := probeBucket_overflow_disk c s b d m hres
    subst hd
    simp only [ProbeResult.disk] at hpr
    rw [Disk.read_of_le _ hid] at hpr
    simp [Page.pairs] at hpr
  | ok s' =>
    rw [hres] at hpr
    obtain ⟨PR, hj, hPR⟩ := probeBucket_new_pairs c hB s s' b hres id hid pr hpr
    have hlarger : ∀ id ∈ b.larger_pages, id < s.disk.length := by
      intro id hid
      unfold Bucket.larger_pages at hid
      split at hid <;> exact hv id (by simp [hid])
    rw [hPR hlarger] at hj
    obtain ⟨p, hp, x, hx, _, _, rfl⟩ := mem_joinWith hj
    unfold Bucket.smaller_pages at hx
    unfold Bucket.larger_pages at hp
    by_cases hle : b.num_left_rel_record ≤ b.num_right_rel_record
    · simp only [hle, if_true] at hx hp
      simpa [orient, hle] using And.intro hx hp
    · simp only [hle, if_false] at hx hp
      simpa [orient, hle] using And.intro hp hx

theorem probe_pair_order_witness :
    3 ≤ (keyConfig 3 2).MEM_SIZE_IN_PAGE ∧
    ((probeBucket (keyConfig 3 2) { disk := orderDisk, mem := Mem.reset, result_pages := [] }
      (Bucket.mk [0] [1] 2 1)).disk.read 2).pairs
      = [({ key := 1, data := 10 }, { key := 1, data := 11 })] ∧
    (Record.mk 1 10 ∈ orderDisk.records (Bucket.mk [0] [1] 2 1).get_left_rel ∧
      Record.mk 1 11 ∈ orderDisk.records (Bucket.mk [0] [1] 2 1).get_right_rel) :=
  ⟨by decide, by decide,
    probe_pair_order (keyConfig 3 2) (by decide)
      { disk := orderDisk, mem := Mem.reset, result_pages := [] } (Bucket.mk [0] [1] 2 1)
      (by decide) 2 (by decide) (Record.mk 1 10, Record.mk 1 11) (by decide)⟩

/-! ## Flushing of the output buffer -/

/-- C8 as stated fails: with pages of three records the output buffer is
flushed when it holds two records, although `Page.full()` is false.  In the
run below one bucket yields three pairs; the pages 3 and 4 are written before
the last page 5 and hold two records each, so they are not full. -/
theorem output_flush_counterexample :
    (probe (keyConfig 3 3) probeDisk Mem.reset [Bucket.mk [0] [2] 0 0]).pages = some [3, 4, 5] ∧
    (probe (keyConfig 3 3) probeDisk Mem.reset [Bucket.mk [0] [2] 0 0]).disk.read 3
      = [keyRecord 1, keyRecord 1] ∧
    Page.full (keyConfig 3 3)
      ((probe (keyConfig 3 3) probeDisk Mem.reset [Bucket.mk [0] [2] 0 0]).disk.read 3) = false ∧
    Page.full (keyConfig 3 3) [keyRecord 1, keyRecord 1] = false ∧
    (emitPair (keyConfig 3 3) true
      { disk := probeDisk, mem := Mem.reset.setPage 2 [keyRecord 1, keyRecord 1],
        result_pages := [] } (keyRecord 1) (keyRecord 1)).disk
      = probeDisk ++ [[keyRecord 1, keyRecord 1]] := by
  decide

theorem emitPair_flush (c : Config) (lis : Bool) (s : RState) (p x : Record)
    (h : c.RECORDS_PER_PAGE - 1 ≤ (s.mem.mem_page (c.MEM_SIZE_IN_PAGE - 1)).size) :
    (emitPair c lis s p x).disk = s.disk ++ [s.mem.mem_page (c.MEM_SIZE_IN_PAGE - 1)] ∧
    (emitPair c lis s p x).result_pages = s.result_pages ++ [s.disk.length] := by
  unfold emitPair
  simp only [h, if_true]
  exact ⟨rfl, rfl⟩

theorem emitPair_no_flush (c : Config) (lis : Bool) (s : RState) (p x : Record)
    (h : ¬ c.RECORDS_PER_PAGE - 1 ≤ (s.mem.mem_page (c.MEM_SIZE_IN_PAGE - 1)).size) :
    (emitPair c lis s p x).disk = s.disk ∧
    (emitPair c lis s p x).result_pages = s.result_pages := by
  unfold emitPair
  simp only [h, if_false]
  exact ⟨trivial, trivial⟩

/-- C8, amended: the output buffer is flushed before a pair is emitted exactly
when it holds at least `RECORDS_PER_PAGE - 1` records (no room for the two
records of a pair); hence, with a budget of at least three pages, every page
that the bucket loop writes for a bucket, except the last one, holds at least
`RECORDS_PER_PAGE - 1` records, an even number of them, and with a capacity of
at least two it is a full page exactly when `RECORDS_PER_PAGE` is even. -/
theorem output_flush_rule (c : Config) (hB : 3 ≤ c.MEM_SIZE_IN_PAGE) :
    (∀ (lis : Bool) (s : RState) (p x : Record),
      (c.RECORDS_PER_PAGE - 1 ≤ (s.mem.mem_page (c.MEM_SIZE_IN_PAGE - 1)).size →
        (emitPair c lis s p x).disk = s.disk ++ [s.mem.mem_page (c.MEM_SIZE_IN_PAGE - 1)] ∧
        (emitPair c lis s p x).result_pages = s.result_pages ++ [s.disk.length]) ∧
      (¬ c.RECORDS_PER_PAGE - 1 ≤ (s.mem.mem_page (c.MEM_SIZE_IN_PAGE - 1)).size →
        (emitPair c lis s p x).disk = s.disk ∧
        (emitPair c lis s p x).result_pages = s.result_pages)) ∧
    (∀ (s : RState) (b : Bucket), ∃ ext : List Page,
      (probeBucket c s b).disk = s.disk ++ ext ∧
      ∀ pg ∈ ext.dropLast,
        c.RECORDS_PER_PAGE - 1 ≤ pg.length ∧ pg.length % 2 = 0 ∧
        (2 ≤ c.RECORDS_PER_PAGE → pg.length ≤ c.RECORDS_PER_PAGE ∧
          (Page.full c pg = true ↔ c.RECORDS_PER_PAGE % 2 = 0))) := by
  refine ⟨fun lis s p x => ⟨emitPair_flush c lis s p x, emitPair_no_flush c lis s p x⟩,
    fun s b => ?_⟩
  cases hres : probeBucket c s b with
  | overflow d m =>
    have hd := probeBucket_overflow_disk c s b d m hres
    subst hd
    exact ⟨[], by simp [ProbeResult.disk], by simp⟩
  | ok s' =>
    obtain ⟨ext, _, hd, _, _, _, hfull, hall⟩ := probeBucket_ok_spec c hB s s' b hres
    refine ⟨ext, hd, fun pg hpg => ?_⟩
    have h1 := hfull pg hpg
    obtain ⟨h2, h3⟩ := hall pg (List.mem_of_mem_dropLast hpg)
    refine ⟨h1, h2, fun hc => ⟨(h3 hc).2, ?_⟩⟩
    have h4 := (h3 hc).2
    simp only [Page.full, decide_eq_true_eq]
    omega

theorem output_flush_rule_witness :
    3 ≤ (keyConfig 3 4).MEM_SIZE_IN_PAGE ∧
    (probeBucket (keyConfig 3 4) { disk := probeDisk, mem := Mem.reset, result_pages := [] }
      (Bucket.mk [0] [2] 0 0)).pages = some [3, 4] ∧
    ∃ ext : List Page,
      (probeBucket (keyConfig 3 4) { disk := probeDisk, mem := Mem.reset, result_pages := [] }
        (Bucket.mk [0] [2] 0 0)).disk = probeDisk ++ ext ∧
      ∀ pg ∈ ext.dropLast,
        (keyConfig 3 4).RECORDS_PER_PAGE - 1 ≤ pg.length ∧ pg.length % 2 = 0 ∧
        (2 ≤ (keyConfig 3 4).RECORDS_PER_PAGE → pg.length ≤ (keyConfig 3 4).RECORDS_PER_PAGE ∧
          (Page.full (keyConfig 3 4) pg = true ↔ (keyConfig 3 4).RECORDS_PER_PAGE % 2 = 0)) :=
  ⟨by decide, by decide,
    (output_flush_rule (keyConfig 3 4) (by decide)).2
      { disk := probeDisk, mem := Mem.reset, result_pages := [] } (Bucket.mk [0] [2] 0 0)⟩

/-! ## Completeness of the join -/

theorem pagesPairs_new (d : Disk) (ext : List Page) :
    pagesPairs (d ++ ext) (List.range' d.length ext.length) = (ext.map Page.pairs).flatten := by
  unfold pagesPairs
  congr 1
  apply List.ext_getElem
  · simp
  · intro n h1 h2
    simp only [List.length_map, List.length_range'] at h1
    simp only [List.getElem_map, List.getElem_range'_1]
    rw [Disk.read_append_ge d ext (Nat.le_add_right _ _), Nat.add_sub_cancel_left]
    simp [Disk.read, List.getElem?_eq_getElem h1]

theorem probeBuckets_cons (c : Config) (s : RState) (x : Bucket) (xs : List Bucket) :
    probeBuckets c s (x :: xs) =
      match probeBucket c s x with
      | ProbeResult.overflow d m => ProbeResult.overflow d m
      | ProbeResult.ok s1 => probeBuckets c s1 xs := rfl

theorem probeBuckets_append (c : Config) (xs ys : List Bucket) :
    ∀ s : RState, probeBuckets c s (xs ++ ys) =
      match probeBuckets c s xs with
      | ProbeResult.ok s1 => probeBuckets c s1 ys
      | ProbeResult.overflow d m => ProbeResult.overflow d m := by
  induction xs with
  | nil => intro s; rfl
  | cons x xs ih =>
    intro s
    rw [List.cons_append, probeBuckets_cons, probeBuckets_cons]
    cases probeBucket c s x with
    | overflow d m => rfl
    | ok s1 => exact ih s1

theorem probeBuckets_singleton (c : Config) (s : RState) (b : Bucket) :
    probeBuckets c s [b] = probeBucket c s b := by
  rw [probeBuckets_cons]
  cases probeBucket c s b with
  | overflow d m => rfl
  | ok s1 => rfl

/-- C20 (failure is not atomic on the disk): if `probe` succeeds on the buckets
before index `k` and throws at the bucket of index `k`, then `probe` on the
whole list throws and the disk it leaves is the disk left by probing the
buckets before index `k`: the pages written for the earlier buckets stay and
nothing is written for bucket `k` or a later bucket. -/
theorem probe_failure_disk (c : Config) (disk : Disk) (mem : Mem) (partitions : List Bucket)
    (k : Nat) (pages : List Nat)
    (hbefore : (probe c disk mem (partitions.take k)).pages = some pages)
    (hfail : (probe c disk mem (partitions.take (k + 1))).pages = none) :
    (probe c disk mem partitions).pages = none ∧
    (probe c disk mem partitions).disk = (probe c disk mem (partitions.take k)).disk := by
  unfold probe at *
  generalize ({ disk := disk, mem := mem, result_pages := [] } : RState) = s0 at *
  have hsplit : partitions = partitions.take k ++ partitions.drop k :=
    (List.take_append_drop k partitions).symm
  cases hk : probeBuckets c s0 (partitions.take k) with
  | overflow d m => rw [hk] at hbefore; simp [ProbeResult.pages] at hbefore
  | ok sk =>
    cases hd : partitions.drop k with
    | nil =>
      have : partitions.take (k + 1) = partitions.take k := by
        have hlen : partitions.length ≤ k := List.drop_eq_nil_iff.mp hd
        rw [List.take_of_length_le hlen, List.take_of_length_le (Nat.le_succ_of_le hlen)]
      rw [this, hk] at hfail
      simp [ProbeResult.pages] at hfail
    | cons b rest =>
      have htake : partitions.take (k + 1) = partitions.take k ++ [b] := by
        rw [List.take_succ]
        congr 1
        have : partitions[k]? = some b := by
          have := List.getElem?_drop partitions k 0
          rw [hd] at this
          simpa using this.symm
        rw [this]
        rfl
      rw [htake, probeBuckets_append, hk] at hfail
      simp only [probeBuckets_singleton] at hfail
      rw [hsplit, probeBuckets_append, hk, hd]
      simp only []
      rw [probeBuckets_cons]
      cases hb : probeBucket c sk b with
      | ok s1 => rw [hb] at hfail; simp [ProbeResult.pages] at hfail
      | overflow d m =>
        have := probeBucket_overflow_disk c sk b d m hb
        subst this
        exact ⟨rfl, rfl⟩

theorem probe_failure_disk_witness :
    (probe (keyConfig 3 2) probeDisk Mem.reset
      ([Bucket.mk [0] [2] 0 0, Bucket.mk [0, 1] [2] 0 0, Bucket.mk [1] [2] 0 0].take 1)).pages
        = some [3, 4, 5] ∧
    (probe (keyConfig 3 2) probeDisk Mem.reset
      ([Bucket.mk [0] [2] 0 0, Bucket.mk [0, 1] [2] 0 0, Bucket.mk [1] [2] 0 0].take (1 + 1))).pages
        = none ∧
    (probe (keyConfig 3 2) probeDisk Mem.reset
      [Bucket.mk [0] [2] 0 0, Bucket.mk [0, 1] [2] 0 0, Bucket.mk [1] [2] 0 0]).pages = none ∧
    (probe (keyConfig 3 2) probeDisk Mem.reset
      [Bucket.mk [0] [2] 0 0, Bucket.mk [0, 1] [2] 0 0, Bucket.mk [1] [2] 0 0]).disk
      = (probe (keyConfig 3 2) probeDisk Mem.reset
          ([Bucket.mk [0] [2] 0 0, Bucket.mk [0, 1] [2] 0 0, Bucket.mk [1] [2] 0 0].take 1)).disk :=
  ⟨by decide, by decide,
    probe_failure_disk (keyConfig 3 2) probeDisk Mem.reset
      [Bucket.mk [0] [2] 0 0, Bucket.mk [0, 1] [2] 0 0, Bucket.mk [1] [2] 0 0] 1 [3, 4, 5]
      (by decide) (by decide)⟩

/-! ## The disk only grows -/

theorem foldl_disk_grows {σ α : Type} (f : σ → α → σ) (disk : σ → Disk)
    (hf : ∀ s a, ∃ t, disk (f s a) = disk s ++ t) (xs : List α) :
    ∀ s, ∃ t, disk (xs.foldl f s) = disk s ++ t := by
  induction xs with
  | nil => intro s; exact ⟨[], by simp⟩
  | cons x xs ih =>
    intro s
    obtain ⟨t1, h1⟩ := hf s x
    obtain ⟨t2, h2⟩ := ih (f s x)
    exact ⟨t1 ++ t2, by rw [List.foldl_cons, h2, h1, List.append_assoc]⟩

theorem partitionRecord_disk_grows (c : Config) (sd : Side) (s : PState) (r : Record) :
    ∃ t, (partitionRecord c sd s r).disk = s.disk ++ t := by
  unfold partitionRecord
  simp only []
  split
  · exact ⟨[_], rfl⟩
  · exact ⟨[], by simp⟩

theorem partitionPage_disk_grows (c : Config) (sd : Side) (s : PState) (id : Nat) :
    ∃ t, (partitionPage c sd s id).disk = s.disk ++ t := by
  unfold partitionPage
  exact foldl_disk_grows (partitionRecord c sd) PState.disk (partitionRecord_disk_grows c sd) _ _

theorem flushRemaining_disk_grows (sd : Side) (s : PState) (i : Nat) :
    ∃ t, (flushRemaining sd s i).disk = s.disk ++ t := by
  unfold flushRemaining
  split
  · exact ⟨[_], rfl⟩
  · exact ⟨[], by simp⟩

theorem partitionRel_disk_grows (c : Config) (sd : Side) (s : PState) (rel : Nat × Nat) :
    ∃ t, (partitionRel c sd s rel).disk = s.disk ++ t := by
  unfold partitionRel
  obtain ⟨t1, h1⟩ := foldl_disk_grows (partitionPage c sd) PState.disk
    (partitionPage_disk_grows c sd) (pageIds rel) s
  obtain ⟨t2, h2⟩ := foldl_disk_grows (flushRemaining sd) PState.disk
    (flushRemaining_disk_grows sd) (List.range (c.MEM_SIZE_IN_PAGE - 1))
    ((pageIds rel).foldl (partitionPage c sd) s)
  exact ⟨t1 ++ t2, by rw [h2, h1, List.append_assoc]⟩

theorem partition_disk_grows (c : Config) (disk : Disk) (mem : Mem)
    (left_rel right_rel : Nat × Nat) :
    ∃ t, (partition c disk mem left_rel right_rel).disk = disk ++ t := by
  unfold partition
  obtain ⟨t1, h1⟩ := partitionRel_disk_grows c Side.left
    { disk := disk, mem := Mem.reset,
      partitions := List.replicate (c.MEM_SIZE_IN_PAGE - 1) Bucket.new } left_rel
  obtain ⟨t2, h2⟩ := partitionRel_disk_grows c Side.right
    { partitionRel c Side.left
        { disk := disk, mem := Mem.reset,
          partitions := List.replicate (c.MEM_SIZE_IN_PAGE - 1) Bucket.new } left_rel with
      mem := Mem.reset } right_rel
  exact ⟨t1 ++ t2, by simp only [] at h1 h2 ⊢; rw [h2, h1, List.append_assoc]⟩

theorem emitPair_disk_grows (c : Config) (lis : Bool) (s : RState) (p x : Record) :
    ∃ t, (emitPair c lis s p x).disk = s.disk ++ t := by
  by_cases h : c.RECORDS_PER_PAGE - 1 ≤ (s.mem.mem_page (c.MEM_SIZE_IN_PAGE - 1)).size
  · exact ⟨[_], (emitPair_flush c lis s p x h).1⟩
  · exact ⟨[], by rw [(emitPair_no_flush c lis s p x h).1]; simp⟩

theorem probeMatch_disk_grows (c : Config) (lis : Bool) (p : Record) (s : RState) (x : Record) :
    ∃ t, (probeMatch c lis p s x).disk = s.disk ++ t := by
  unfold probeMatch
  split
  · exact emitPair_disk_grows c lis s p x
  · exact ⟨[], by simp⟩

theorem probeRecord_disk_grows (c : Config) (lis : Bool) (s : RState) (p : Record) :
    ∃ t, (probeRecord c lis s p).disk = s.disk ++ t := by
  unfold probeRecord
  exact foldl_disk_grows (probeMatch c lis p) RState.disk (probeMatch_disk_grows c lis p) _ _

theorem probePage_disk_grows (c : Config) (lis : Bool) (s : RState) (id : Nat) :
    ∃ t, (probePage c lis s id).disk = s.disk ++ t := by
  unfold probePage
  exact foldl_disk_grows (probeRecord c lis) RState.disk (probeRecord_disk_grows c lis) _ _

theorem probeBucket_disk_append (c : Config) (s : RState) (b : Bucket) :
    ∃ t, (probeBucket c s b).disk = s.disk ++ t := by
  by_cases hskip : b.get_left_rel = [] ∨ b.get_right_rel = []
  · rw [probeBucket_skip c s b hskip]
    exact ⟨[], by simp [ProbeResult.disk]⟩
  · rw [probeBucket_eq c s b (fun e => hskip (Or.inl e)) (fun e => hskip (Or.inr e))]
    split
    · exact ⟨[], by simp [ProbeResult.disk]⟩
    · next m _ =>
      obtain ⟨t1, h1⟩ := foldl_disk_grows
        (probePage c (decide (b.num_left_rel_record ≤ b.num_right_rel_record))) RState.disk
        (probePage_disk_grows c _) b.larger_pages { s with mem := m }
      simp only [ProbeResult.disk]
      split
      · exact ⟨t1 ++ [_], by rw [RState.flushResult_disk, h1, List.append_assoc]⟩
      · exact ⟨t1, h1⟩

theorem probeBuckets_disk_append (c : Config) (bs : List Bucket) :
    ∀ s : RState, ∃ t, (probeBuckets c s bs).disk = s.disk ++ t := by
  induction bs with
  | nil => intro s; exact ⟨[], by simp [probeBuckets, ProbeResult.disk]⟩
  | cons x xs ih =>
    intro s
    rw [probeBuckets_cons]
    obtain ⟨t1, h1⟩ := probeBucket_disk_append c s x
    cases hx : probeBucket c s x with
    | overflow d m =>
      rw [hx] at h1
      exact ⟨t1, h1⟩
    | ok s1 =>
      rw [hx] at h1
      obtain ⟨t2, h2⟩ := ih s1
      exact ⟨t1 ++ t2, by
        simp only [ProbeResult.disk] at h1
        simp only []
        rw [h2, h1, List.append_assoc]⟩

/-- C13 (disk frame): for every input, `partition` and `probe` change the disk
only by appending pages (the pages written by `flushToDisk`): the disk after
the call is the disk before the call followed by new pages, so every page that
exists before the call, in particular every input page, reads the same after
it. -/
theorem disk_frame (c : Config) (disk : Disk) (mem : Mem) (left_rel right_rel : Nat × Nat)
    (partitions : List Bucket) :
    (∃ t, (partition c disk mem left_rel right_rel).disk = disk ++ t) ∧
    (∃ t, (probe c disk mem partitions).disk = disk ++ t) ∧
    (∀ id, id < disk.length →
      (partition c disk mem left_rel right_rel).disk.read id = disk.read id ∧
      (probe c disk mem partitions).disk.read id = disk.read id) := by
  obtain ⟨t1, h1⟩ := partition_disk_grows c disk mem left_rel right_rel
  obtain ⟨t2, h2⟩ := probeBuckets_disk_append c partitions
    { disk := disk, mem := mem, result_pages := [] }
  have h2' : (probe c disk mem partitions).disk = disk ++ t2 := h2
  refine ⟨⟨t1, h1⟩, ⟨t2, h2'⟩, fun id hid => ?_⟩
  rw [h1, h2', Disk.read_append_lt _ _ hid, Disk.read_append_lt _ _ hid]
  exact ⟨rfl, rfl⟩

/-! ## Order of the returned page ids -/

theorem probeBuckets_ok_of_append (c : Config) (xs ys : List Bucket) (s s' : RState)
    (h : probeBuckets c s (xs ++ ys) = ProbeResult.ok s') :
    ∃ s1, probeBuckets c s xs = ProbeResult.ok s1 ∧ probeBuckets c s1 ys = ProbeResult.ok s' := by
  rw [probeBuckets_append] at h
  cases hx : probeBuckets c s xs with
  | overflow d m => rw [hx] at h; cases h
  | ok s1 => rw [hx] at h; exact ⟨s1, rfl, h⟩

/-- C12 (output page order): with a budget of at least three pages, when
`probe` returns, the returned list is exactly the ids of the pages appended to
the disk during the call, in the order of the flushes: it is the ascending run
of ids from the size of the disk at the call, hence strictly increasing and
without duplicates; and it is grouped by bucket in bucket-list order: the list
returned for the first `k` buckets is an initial segment of it, for every `k`. -/
theorem probe_page_order (c : Config) (hB : 3 ≤ c.MEM_SIZE_IN_PAGE) (disk : Disk) (mem : Mem)
    (partitions : List Bucket) (pages : List Nat)
    (hok : (probe c disk mem partitions).pages = some pages) :
    pages = List.range' disk.length ((probe c disk mem partitions).disk.length - disk.length) ∧
    List.Pairwise (fun a b => a < b) pages ∧ pages.Nodup ∧
    (∀ k, ∃ pk, (probe c disk mem (partitions.take k)).pages = some pk ∧
      pk = List.range' disk.length
        ((probe c disk mem (partitions.take k)).disk.length - disk.length) ∧
      pages.take pk.length = pk) := by
  cases hres : probe c disk mem partitions with
  | overflow d m => rw [hres] at hok; simp [ProbeResult.pages] at hok
  | ok s' =>
    rw [hres] at hok
    simp only [ProbeResult.pages, Option.some.injEq] at hok
    obtain ⟨ext, hd, hpages, _⟩ := probeBuckets_ok_spec c hB partitions _ s' hres
    simp only [List.nil_append] at hpages hd
    have hp : pages = List.range' disk.length ext.length := by rw [← hok, hpages]
    refine ⟨?_, ?_, ?_, fun k => ?_⟩
    · simp [ProbeResult.disk, hd, hp]
    · rw [hp]; exact List.pairwise_lt_range' _ _
    · rw [hp]; exact List.nodup_range' _ _
    · have hsplit : partitions = partitions.take k ++ partitions.drop k :=
        (List.take_append_drop k partitions).symm
      have hres' : probeBuckets c { disk := disk, mem := mem, result_pages := [] }
          (partitions.take k ++ partitions.drop k) = ProbeResult.ok s' := by
        rw [← hsplit]; exact hres
      obtain ⟨s1, h1, h2⟩ := probeBuckets_ok_of_append c _ _ _ _ hres'
      obtain ⟨ext1, hd1, hp1, _⟩ := probeBuckets_ok_spec c hB _ _ s1 h1
      obtain ⟨ext2, hd2, hp2, _⟩ := probeBuckets_ok_spec c hB _ _ s' h2
      simp only [List.nil_append] at hp1 hd1
      have hk : probe c disk mem (partitions.take k) = ProbeResult.ok s1 := h1
      refine ⟨s1.result_pages, by rw [hk]; rfl, ?_, ?_⟩
      · rw [hk]
        simp [ProbeResult.disk, hd1, hp1]
      · rw [← hok, hp2]
        exact List.take_left _ _

theorem probe_page_order_witness :
    3 ≤ (keyConfig 3 2).MEM_SIZE_IN_PAGE ∧
    (probe (keyConfig 3 2) probeDisk Mem.reset
      [Bucket.mk [0] [2] 0 0, Bucket.mk [1] [2] 0 0, Bucket.mk [2] [0] 3 2]).pages
        = some [3, 4, 5, 6, 7, 8] ∧
    List.Pairwise (fun a b => a < b) [3, 4, 5, 6, 7, 8] ∧
    (∃ pk, (probe (keyConfig 3 2) probeDisk Mem.reset
      ([Bucket.mk [0] [2] 0 0, Bucket.mk [1] [2] 0 0, Bucket.mk [2] [0] 3 2].take 1)).pages
        = some pk ∧
      pk = List.range' probeDisk.length
        ((probe (keyConfig 3 2) probeDisk Mem.reset
          ([Bucket.mk [0] [2] 0 0, Bucket.mk [1] [2] 0 0,
            Bucket.mk [2] [0] 3 2].take 1)).disk.length - probeDisk.length) ∧
      [3, 4, 5, 6, 7, 8].take pk.length = pk) :=
  ⟨by decide, by decide,
    (probe_page_order (keyConfig 3 2) (by decide) probeDisk Mem.reset
      [Bucket.mk [0] [2] 0 0, Bucket.mk [1] [2] 0 0, Bucket.mk [2] [0] 3 2]
      [3, 4, 5, 6, 7, 8] (by decide)).2.1,
    (probe_page_order (keyConfig 3 2) (by decide) probeDisk Mem.reset
      [Bucket.mk [0] [2] 0 0, Bucket.mk [1] [2] 0 0, Bucket.mk [2] [0] 3 2]
      [3, 4, 5, 6, 7, 8] (by decide)).2.2.2 1⟩

/-! ## A bucket without a match -/

theorem foldl_probeMatch_none (c : Config) (lis : Bool) (p : Record) (X : List Record)
    (s : RState) (h : ∀ x ∈ X, p.eq x = false) : X.foldl (probeMatch c lis p) s = s := by
  induction X with
  | nil => rfl
  | cons x X ih =>
    rw [List.foldl_cons]
    have hx : probeMatch c lis p s x = s := by
      unfold probeMatch
      simp [h x (by simp)]
    rw [hx]
    exact ih (fun y hy => h y (by simp [hy]))

theorem foldl_probeRecord_none (c : Config) (lis : Bool) (page : List Record) (s : RState)
    (h : ∀ p ∈ page, ∀ x ∈ s.mem (hashIdx c p), p.eq x = false) :
    page.foldl (probeRecord c lis) s = s := by
  induction page with
  | nil => rfl
  | cons p page ih =>
    rw [List.foldl_cons]
    have hp : probeRecord c lis s p = s :=
      foldl_probeMatch_none c lis p _ s (h p (by simp))
    rw [hp]
    exact ih (fun y hy => h y (by simp [hy]))

theorem probePage_none (c : Config) (hB : 3 ≤ c.MEM_SIZE_IN_PAGE) (lis : Bool) (s : RState)
    (id : Nat) (h : ∀ p ∈ s.disk.read id, ∀ x ∈ s.mem (hashIdx c p), p.eq x = false) :
    probePage c lis s id
      = { s with mem := s.mem.setPage (c.MEM_SIZE_IN_PAGE - 2) (s.disk.read id) } := by
  unfold probePage
  simp only [Mem.loadFromDisk, Mem.mem_page, Mem.setPage_same]
  apply foldl_probeRecord_none
  intro p hp x hx
  have hne : hashIdx c p ≠ c.MEM_SIZE_IN_PAGE - 2 := Nat.ne_of_lt (hashIdx_lt c hB p)
  simp only [Mem.setPage_ne _ _ hne] at hx
  exact h p hp x hx

theorem foldl_probePage_none (c : Config) (hB : 3 ≤ c.MEM_SIZE_IN_PAGE) (lis : Bool)
    (ids : List Nat) :
    ∀ s : RState,
      (∀ id ∈ ids, ∀ p ∈ s.disk.read id, ∀ x ∈ s.mem (hashIdx c p), p.eq x = false) →
      (ids.foldl (probePage c lis) s).disk = s.disk ∧
      (ids.foldl (probePage c lis) s).result_pages = s.result_pages ∧
      ∀ j, j ≠ c.MEM_SIZE_IN_PAGE - 2 → (ids.foldl (probePage c lis) s).mem j = s.mem j := by
  induction ids with
  | nil => intro s _; exact ⟨rfl, rfl, fun _ _ => rfl⟩
  | cons id ids ih =>
    intro s h
    rw [List.foldl_cons, probePage_none c hB lis s id (h id (by simp))]
    obtain ⟨h1, h2, h3⟩ := ih
      { s with mem := s.mem.setPage (c.MEM_SIZE_IN_PAGE - 2) (s.disk.read id) }
      (fun id' hid' p hp x hx => by
        have hne : hashIdx c p ≠ c.MEM_SIZE_IN_PAGE - 2 := Nat.ne_of_lt (hashIdx_lt c hB p)
        simp only [Mem.setPage_ne _ _ hne] at hx
        exact h id' (by simp [hid']) p hp x hx)
    refine ⟨h1, h2, fun j hj => ?_⟩
    rw [h3 j hj]
    exact Mem.setPage_ne _ _ hj

theorem Disk.mem_records_of_mem_read (d : Disk) {ids : List Nat} {id : Nat} {r : Record}
    (hid : id ∈ ids) (hr : r ∈ d.read id) : r ∈ d.records ids := by
  unfold Disk.records
  rw [List.mem_flatten]
  exact ⟨_, List.mem_map.mpr ⟨id, hid, rfl⟩, hr⟩

/-- C11 (no match, no output page): with a budget of at least three pages, for
a bucket in which no record of the left pages compares equal to a record of
the right pages, the bucket loop of `probe` leaves the disk unchanged (no
output page is flushed), and when it does not throw it adds no page id to the
result and its output buffer is empty (no pair was emitted). -/
theorem probe_no_match (c : Config) (hB : 3 ≤ c.MEM_SIZE_IN_PAGE) (s : RState) (b : Bucket)
    (hno : ∀ l ∈ s.disk.records b.get_left_rel, ∀ r ∈ s.disk.records b.get_right_rel,
      l.eq r = false) :
    (probeBucket c s b).disk = s.disk ∧
    ∀ s', probeBucket c s b = ProbeResult.ok s' →
      s'.result_pages = s.result_pages ∧ s'.mem.mem_page (c.MEM_SIZE_IN_PAGE - 1) = [] := by
  by_cases hskip : b.get_left_rel = [] ∨ b.get_right_rel = []
  · rw [probeBucket_skip c s b hskip]
    refine ⟨rfl, fun s' h => ?_⟩
    injection h with h
    subst h
    exact ⟨rfl, rfl⟩
  · rw [probeBucket_eq c s b (fun e => hskip (Or.inl e)) (fun e => hskip (Or.inr e))]
    split
    · exact ⟨rfl, fun s' h => by cases h⟩
    · next m hm =>
      obtain ⟨b1, _, b3⟩ := buildPages_ok hB s.disk b.smaller_pages hm
      have hres : m (c.MEM_SIZE_IN_PAGE - 1) = [] := by
        rw [b3 _ (by omega)]
        rfl
      have hnone : ∀ id ∈ b.larger_pages, ∀ p ∈ s.disk.read id,
          ∀ x ∈ m (hashIdx c p), p.eq x = false := by
        intro id hid p hp x hx
        rw [b1 _ (hashIdx_lt c hB p)] at hx
        have hx' : x ∈ s.disk.records b.smaller_pages := by
          simp only [Mem.reset, List.nil_append] at hx
          exact (List.mem_filter.mp hx).1
        have hp' : p ∈ s.disk.records b.larger_pages := Disk.mem_records_of_mem_read _ hid hp
        unfold Bucket.smaller_pages at hx'
        unfold Bucket.larger_pages at hp'
        by_cases hle : b.num_left_rel_record ≤ b.num_right_rel_record
        · simp only [hle, if_true] at hx' hp'
          rw [Record.eq_comm]
          exact hno x hx' p hp'
        · simp only [hle, if_false] at hx' hp'
          exact hno p hp' x hx'
      obtain ⟨h1, h2, h3⟩ := foldl_probePage_none c hB
        (decide (b.num_left_rel_record ≤ b.num_right_rel_record)) b.larger_pages
        { s with mem := m } hnone
      have hbuf : (List.foldl
          (probePage c (decide (b.num_left_rel_record ≤ b.num_right_rel_record)))
          { s with mem := m } b.larger_pages).mem.mem_page (c.MEM_SIZE_IN_PAGE - 1) = [] := by
        unfold Mem.mem_page
        rw [h3 _ (by omega)]
        exact hres
      simp only [hbuf, Page.empty, List.isEmpty_nil, Bool.not_true, Bool.false_eq_true,
        if_false]
      refine ⟨h1, fun s' h => ?_⟩
      injection h with h
      subst h
      exact ⟨h2, hbuf⟩

theorem probe_no_match_witness :
    3 ≤ (keyConfig 3 2).MEM_SIZE_IN_PAGE ∧
    (∀ l ∈ noMatchDisk.records (Bucket.mk [0] [1] 1 1).get_left_rel,
      ∀ r ∈ noMatchDisk.records (Bucket.mk [0] [1] 1 1).get_right_rel, l.eq r = false) ∧
    (probeBucket (keyConfig 3 2) { disk := noMatchDisk, mem := Mem.reset, result_pages := [] }
      (Bucket.mk [0] [1] 1 1)).pages = some [] ∧
    (probeBucket (keyConfig 3 2) { disk := noMatchDisk, mem := Mem.reset, result_pages := [] }
      (Bucket.mk [0] [1] 1 1)).disk = noMatchDisk :=
  ⟨by decide, by decide, by decide,
    (probe_no_match (keyConfig 3 2) (by decide)
      { disk := noMatchDisk, mem := Mem.reset, result_pages := [] } (Bucket.mk [0] [1] 1 1)
      (by decide)).1⟩

/-! ## An empty left relation -/

theorem foldl_flushRemaining_empty (sd : Side) (is : List Nat) (s : PState)
    (h : ∀ i ∈ is, s.mem i = []) : is.foldl (flushRemaining sd) s = s := by
  induction is with
  | nil => rfl
  | cons i is ih =>
    rw [List.foldl_cons]
    have hi : flushRemaining sd s i = s := by
      unfold flushRemaining
      simp [Mem.mem_page, Page.empty, h i (by simp)]
    rw [hi]
    exact ih (fun j hj => h j (by simp [hj]))

theorem pageIds_empty (rel : Nat × Nat) (h : rel.2 ≤ rel.1) : pageIds rel = [] := by
  unfold pageIds
  rw [Nat.sub_eq_zero_of_le h]
  rfl

theorem partitionRel_empty (c : Config) (sd : Side) (s : PState) (rel : Nat × Nat)
    (h : rel.2 ≤ rel.1) (hm : ∀ i, s.mem i = []) : partitionRel c sd s rel = s := by
  unfold partitionRel
  rw [pageIds_empty rel h]
  exact foldl_flushRemaining_empty sd _ s (fun i _ => hm i)

/-- C15 (empty left relation): with a budget of at least two pages and an
empty left range (`first ≥ second`), for every right range `partition` returns
exactly `MEM_SIZE_IN_PAGE - 1` buckets, each with an empty left page list, and
`probe` applied to them returns the empty list. -/
theorem partition_empty_left (c : Config) (disk : Disk) (mem : Mem)
    (left_rel right_rel : Nat × Nat) (hB : 2 ≤ c.MEM_SIZE_IN_PAGE)
    (hempty : left_rel.2 ≤ left_rel.1) :
    (partition c disk mem left_rel right_rel).partitions.length = c.MEM_SIZE_IN_PAGE - 1 ∧
    (∀ b ∈ (partition c disk mem left_rel right_rel).partitions, b.get_left_rel = []) ∧
    (probe c (partition c disk mem left_rel right_rel).disk
      (partition c disk mem left_rel right_rel).mem
      (partition c disk mem left_rel right_rel).partitions).pages = some [] := by
  have hpos : 0 < c.MEM_SIZE_IN_PAGE - 1 := by omega
  let s0 : PState :=
    { disk := disk, mem := Mem.reset,
      partitions := List.replicate (c.MEM_SIZE_IN_PAGE - 1) Bucket.new }
  have hleft : partitionRel c Side.left s0 left_rel = s0 :=
    partitionRel_empty c Side.left s0 left_rel hempty (fun _ => rfl)
  have hfin : partition c disk mem left_rel right_rel = partitionRel c Side.right s0 right_rel := by
    show partitionRel c Side.right { partitionRel c Side.left s0 left_rel with mem := Mem.reset }
      right_rel = _
    rw [hleft]
  have hK0 : s0.partitions.length = c.MEM_SIZE_IN_PAGE - 1 := by simp [s0]
  have hv0 : s0.Valid := by
    intro b hb sd id hid
    have : b = Bucket.new := (List.mem_replicate.mp hb).2
    subst this
    simp at hid
  have h00 : ∀ j, j < s0.partitions.length → s0.content Side.right j = [] := by
    intro j _
    simp [PState.content, s0, bucket_replicate_new, Disk.records, Mem.reset, Mem.mem_page]
  obtain ⟨R, hR, _, _⟩ := partitionRel_spec c Side.right s0 right_rel hK0 hpos hv0 h00
  have hlists : ∀ b ∈ (partition c disk mem left_rel right_rel).partitions,
      b.get_left_rel = [] := by
    intro b hb
    obtain ⟨j, hj, rfl⟩ := List.getElem_of_mem hb
    have hb' := PState.bucket_of_getElem? _ (List.getElem?_eq_getElem hj)
    have := hR.other j Side.left (by decide)
    rw [← hfin, hb', bucket_replicate_new] at this
    exact this
  refine ⟨partition_length c disk mem left_rel right_rel, hlists, ?_⟩
  obtain ⟨m, hm⟩ := probeBuckets_skip c _ (fun b hb => Or.inl (hlists b hb))
    { disk := (partition c disk mem left_rel right_rel).disk,
      mem := (partition c disk mem left_rel right_rel).mem, result_pages := [] }
  unfold probe
  rw [hm]
  rfl

theorem partition_empty_left_witness :
    2 ≤ scenarioConfig.MEM_SIZE_IN_PAGE ∧ (1, 1).2 ≤ (1, 1).1 ∧
    (partition scenarioConfig scenarioDisk Mem.reset (1, 1) (2, 3)).partitions
      = [Bucket.mk [] [3] 0 0, Bucket.mk [] [4] 0 0, Bucket.mk [] [5] 0 0, Bucket.mk [] [] 0 0] ∧
    (probe scenarioConfig (partition scenarioConfig scenarioDisk Mem.reset (1, 1) (2, 3)).disk
      (partition scenarioConfig scenarioDisk Mem.reset (1, 1) (2, 3)).mem
      (partition scenarioConfig scenarioDisk Mem.reset (1, 1) (2, 3)).partitions).pages
        = some [] :=
  ⟨by decide, by decide, by decide,
    (partition_empty_left scenarioConfig scenarioDisk Mem.reset (1, 1) (2, 3)
      (by decide) (by decide)).2.2⟩

/-! ## Build side and emission order -/

/-- C17 (build-side choice and emission order): with a budget of at least three
pages, for a bucket with both sides non-empty whose page ids name pages of the
disk and on which the bucket loop does not throw: the hash table is built from
the left pages exactly when the left recorded count is at most the right one
(ties favor left), otherwise from the right pages, sub-bucket `j` holding the
build-side records of index `j` in reading order; and the pairs on the pages
written for the bucket, read in page order, are the pairs of `joinWith`: probe
side records in page-list order then record order, and for one probe record
the matching records of its sub-bucket in insertion order. -/
theorem probe_emission_order (c : Config) (hB : 3 ≤ c.MEM_SIZE_IN_PAGE) (s : RState) (b : Bucket)
    (hl : b.get_left_rel ≠ []) (hr : b.get_right_rel ≠ [])
    (hv : ∀ id ∈ b.get_left_rel ++ b.get_right_rel, id < s.disk.length)
    (pages : List Nat) (hok : (probeBucket c s b).pages = some pages) :
    (∃ m, buildPages c s.disk Mem.reset
        (if b.num_left_rel_record ≤ b.num_right_rel_record then b.get_left_rel
         else b.get_right_rel) = Except.ok m ∧
      ∀ j, j < c.MEM_SIZE_IN_PAGE - 2 →
        m j = (s.disk.records
          (if b.num_left_rel_record ≤ b.num_right_rel_record then b.get_left_rel
           else b.get_right_rel)).filter (fun r => decide (hashIdx c r = j))) ∧
    pagesPairs (probeBucket c s b).disk (pages.drop s.result_pages.length)
      = joinWith c (decide (b.num_left_rel_record ≤ b.num_right_rel_record))
          (s.disk.records
            (if b.num_left_rel_record ≤ b.num_right_rel_record then b.get_left_rel
             else b.get_right_rel))
          (s.disk.records
            (if b.num_left_rel_record ≤ b.num_right_rel_record then b.get_right_rel
             else b.get_left_rel)) := by
  cases hres : probeBucket c s b with
  | overflow d m => rw [hres] at hok; simp [ProbeResult.pages] at hok
  | ok s' =>
    rw [hres] at hok
    simp only [ProbeResult.pages, Option.some.injEq] at hok
    obtain ⟨ext, PR, hd, hpages, hout, hPR, _, _⟩ := probeBucket_ok_spec c hB s s' b hres
    have hlarger : ∀ id ∈ b.larger_pages, id < s.disk.length := by
      intro id hid
      unfold Bucket.larger_pages at hid
      split at hid <;> exact hv id (by simp [hid])
    have hif : (b.get_left_rel.isEmpty || b.get_right_rel.isEmpty) = false := by
      simp [List.isEmpty_iff, hl, hr]
    rw [hif, hPR hlarger] at hout
    simp only [Bool.false_eq_true, if_false] at hout
    refine ⟨?_, ?_⟩
    · have heq := probeBucket_eq c s b hl hr
      rw [hres] at heq
      cases hbuild : buildPages c s.disk Mem.reset b.smaller_pages with
      | error m => rw [hbuild] at heq; cases heq
      | ok m =>
        obtain ⟨b1, _, _⟩ := buildPages_ok hB s.disk b.smaller_pages hbuild
        refine ⟨m, hbuild, fun j hj => ?_⟩
        rw [b1 j hj]
        rfl
    · simp only [ProbeResult.disk]
      rw [← hok, hpages, List.drop_left, hd, pagesPairs_new, hout]
      rfl

theorem probe_emission_order_witness :
    3 ≤ (keyConfig 3 2).MEM_SIZE_IN_PAGE ∧
    (probeBucket (keyConfig 3 2) { disk := orderDisk, mem := Mem.reset, result_pages := [] }
      (Bucket.mk [0] [1] 2 1)).pages = some [2] ∧
    pagesPairs (probeBucket (keyConfig 3 2)
        { disk := orderDisk, mem := Mem.reset, result_pages := [] }
        (Bucket.mk [0] [1] 2 1)).disk [2]
      = [({ key := 1, data := 10 }, { key := 1, data := 11 })] ∧
    pagesPairs (probeBucket (keyConfig 3 2)
        { disk := orderDisk, mem := Mem.reset, result_pages := [] }
        (Bucket.mk [0] [1] 2 1)).disk
        (List.drop (RState.mk orderDisk Mem.reset []).result_pages.length [2])
      = joinWith (keyConfig 3 2) (decide ((Bucket.mk [0] [1] 2 1).num_left_rel_record
            ≤ (Bucket.mk [0] [1] 2 1).num_right_rel_record))
          (orderDisk.records
            (if (Bucket.mk [0] [1] 2 1).num_left_rel_record
                ≤ (Bucket.mk [0] [1] 2 1).num_right_rel_record
             then (Bucket.mk [0] [1] 2 1).get_left_rel else (Bucket.mk [0] [1] 2 1).get_right_rel))
          (orderDisk.records
            (if (Bucket.mk [0] [1] 2 1).num_left_rel_record
                ≤ (Bucket.mk [0] [1] 2 1).num_right_rel_record
             then (Bucket.mk [0] [1] 2 1).get_right_rel else (Bucket.mk [0] [1] 2 1).get_left_rel)) :=
  ⟨by decide, by decide, by decide,
    (probe_emission_order (keyConfig 3 2) (by decide)
      { disk := orderDisk, mem := Mem.reset, result_pages := [] } (Bucket.mk [0] [1] 2 1)
      (by decide) (by decide) (by decide) [2] (by decide)).2⟩

/-! ## When the build phase throws -/

theorem buildRecords_ok_of_fits {c : Config} (rs : List Record) :
    ∀ m : Mem,
      (∀ j, rs.filter (fun r => decide (hashIdx c r = j)) ≠ [] →
        (m j).length + (rs.filter (fun r => decide (hashIdx c r = j))).length
          ≤ c.RECORDS_PER_PAGE) →
      ∃ m', buildRecords c m rs = Except.ok m' := by
  induction rs with
  | nil => intro m _; exact ⟨m, rfl⟩
  | cons r rs ih =>
    intro m h
    have hr := h (hashIdx c r) (by simp [List.filter_cons])
    have hlt : (m (hashIdx c r)).length < c.RECORDS_PER_PAGE := by
      simp only [List.filter_cons, decide_True, if_true, List.length_cons] at hr
      omega
    have hstep : buildRecord c m r
        = Except.ok (m.setPage (hashIdx c r) (m (hashIdx c r) ++ [r])) := by
      unfold buildRecord
      simp only [Page.full, Mem.mem_page, Page.loadRecord]
      rw [if_neg (by simpa using hlt)]
      rfl
    unfold buildRecords
    rw [hstep]
    simp only []
    apply ih
    intro j hj
    have hj' := h j (by
      rw [List.filter_cons]
      split
      · simp
      · exact hj)
    by_cases e : j = hashIdx c r
    · subst e
      simp only [Mem.setPage_same, List.length_append, List.length_singleton]
      simp only [List.filter_cons, decide_True, if_true, List.length_cons] at hj'
      omega
    · have e' : ¬ hashIdx c r = j := fun x => e x.symm
      simp only [Mem.setPage_ne _ _ e]
      simpa [List.filter_cons, e'] using hj'

theorem buildPages_ok_of_fits {c : Config} (hB : 3 ≤ c.MEM_SIZE_IN_PAGE) (d : Disk)
    (ids : List Nat) :
    ∀ m : Mem,
      (∀ j, j < c.MEM_SIZE_IN_PAGE - 2 →
        (d.records ids).filter (fun r => decide (hashIdx c r = j)) ≠ [] →
        (m j).length + ((d.records ids).filter (fun r => decide (hashIdx c r = j))).length
          ≤ c.RECORDS_PER_PAGE) →
      ∃ m', buildPages c d m ids = Except.ok m' := by
  induction ids with
  | nil => intro m _; exact ⟨m, rfl⟩
  | cons id ids ih =>
    intro m h
    have hpage : ∃ m2, buildRecords c
        (m.setPage (c.MEM_SIZE_IN_PAGE - 2) (d.read id)) (d.read id) = Except.ok m2 := by
      apply buildRecords_ok_of_fits
      intro j hj
      have hjlt : j < c.MEM_SIZE_IN_PAGE - 2 := by
        obtain ⟨r, hr⟩ := List.exists_mem_of_ne_nil _ hj
        have := (List.mem_filter.mp hr).2
        simp only [decide_eq_true_eq] at this
        rw [← this]
        exact hashIdx_lt c hB r
      have hne : j ≠ c.MEM_SIZE_IN_PAGE - 2 := by omega
      have := h j hjlt (by
        rw [Disk.records_cons, List.filter_append]
        intro e
        exact hj (List.append_eq_nil.mp e).1)
      rw [Disk.records_cons, List.filter_append, List.length_append] at this
      rw [Mem.setPage_ne _ _ hne]
      omega
    obtain ⟨m2, hm2⟩ := hpage
    obtain ⟨b1, _⟩ := buildRecords_ok _ hm2
    unfold buildPages
    simp only [Mem.loadFromDisk, Mem.mem_page, Mem.setPage_same]
    rw [hm2]
    simp only []
    apply ih
    intro j hjlt hj
    have hne : j ≠ c.MEM_SIZE_IN_PAGE - 2 := by omega
    have := h j hjlt (by
      rw [Disk.records_cons, List.filter_append]
      intro e
      exact hj (List.append_eq_nil.mp e).2)
    rw [Disk.records_cons, List.filter_append, List.length_append] at this
    rw [b1 j, Mem.setPage_ne _ _ hne, List.length_append]
    omega

/-- The bucket loop throws exactly on the overflow condition of the bucket. -/
theorem probeBucket_fails_iff (c : Config) (hB : 3 ≤ c.MEM_SIZE_IN_PAGE) (s : RState)
    (b : Bucket) : (probeBucket c s b).pages = none ↔ b.Overflows c s.disk := by
  unfold Bucket.Overflows
  by_cases hskip : b.get_left_rel = [] ∨ b.get_right_rel = []
  · rw [probeBucket_skip c s b hskip]
    constructor
    · intro h; simp [ProbeResult.pages] at h
    · rintro ⟨h1, h2, _⟩
      rcases hskip with e | e
      · exact absurd e h1
      · exact absurd e h2
  · have hl : b.get_left_rel ≠ [] := fun e => hskip (Or.inl e)
    have hr : b.get_right_rel ≠ [] := fun e => hskip (Or.inr e)
    rw [probeBucket_eq c s b hl hr]
    cases hbuild : buildPages c s.disk Mem.reset b.smaller_pages with
    | error m =>
      simp only [ProbeResult.pages, true_iff]
      refine ⟨hl, hr, ?_⟩
      by_contra hno
      obtain ⟨m', hm'⟩ := buildPages_ok_of_fits hB s.disk b.smaller_pages Mem.reset
        (fun j hj _ => by
          simp only [Mem.reset, List.length_nil, Nat.zero_add]
          by_contra hgt
          exact hno ⟨j, hj, by omega⟩)
      rw [hm'] at hbuild
      cases hbuild
    | ok m =>
      simp only [ProbeResult.pages]
      constructor
      · intro h; cases h
      · rintro ⟨_, _, h, hh, hgt⟩
        exfalso
        obtain ⟨b1, b2, _⟩ := buildPages_ok hB s.disk b.smaller_pages hbuild
        have hne : (s.disk.records b.smaller_pages).filter
            (fun r => decide (hashIdx c r = h)) ≠ [] := by
          intro e
          rw [e] at hgt
          simp at hgt
        have := b2 h hh hne
        rw [b1 h hh] at this
        simp only [Mem.reset, List.nil_append] at this
        omega

theorem probeBuckets_fails_iff (c : Config) (hB : 3 ≤ c.MEM_SIZE_IN_PAGE) (bs : List Bucket) :
    ∀ s : RState, (probeBuckets c s bs).pages = none ↔
      ∃ (k : Nat) (b : Bucket), bs[k]? = some b ∧ b.Overflows c (probeBuckets c s (bs.take k)).disk := by
  induction bs with
  | nil =>
    intro s
    constructor
    · intro h; simp [probeBuckets, ProbeResult.pages] at h
    · rintro ⟨k, b, hk, _⟩
      simp at hk
  | cons x xs ih =>
    intro s
    have hx := probeBucket_fails_iff c hB s x
    rw [probeBuckets_cons]
    cases hres : probeBucket c s x with
    | overflow d m =>
      rw [hres] at hx
      simp only [ProbeResult.pages, true_iff] at hx ⊢
      exact ⟨0, x, by simp, hx⟩
    | ok s1 =>
      rw [hres] at hx
      have hx' : ¬ x.Overflows c s.disk := fun h => by
        have := hx.mpr h
        simp [ProbeResult.pages] at this
      simp only []
      rw [ih s1]
      constructor
      · rintro ⟨k, b, hk, hov⟩
        refine ⟨k + 1, b, by simpa using hk, ?_⟩
        rw [List.take_succ_cons, probeBuckets_cons, hres]
        exact hov
      · rintro ⟨k, b, hk, hov⟩
        cases k with
        | zero =>
          simp only [List.getElem?_cons_zero, Option.some.injEq] at hk
          subst hk
          exact absurd hov hx'
        | succ k =>
          refine ⟨k, b, by simpa using hk, ?_⟩
          rw [List.take_succ_cons, probeBuckets_cons, hres] at hov
          exact hov

theorem Bucket.overflows_grow (c : Config) (d t : Disk) (b : Bucket)
    (hv : ∀ id ∈ b.smaller_pages, id < d.length) :
    b.Overflows c (d ++ t) ↔ b.Overflows c d := by
  unfold Bucket.Overflows
  rw [Disk.records_grow d t _ hv]

/-- C16 (overflow raises-iff): with a budget of at least three pages, `probe`
throws if and only if some bucket of the list satisfies the overflow condition
(both page lists non-empty and more than `RECORDS_PER_PAGE` records of its
build side with the same `probe_hash mod (MEM_SIZE_IN_PAGE - 2)`) on the disk
left by the buckets before it; when the build-side page ids name pages of the
disk at the call, that is the overflow condition on that disk.  In particular
`probe` throws on an input whose build side holds no more than
`(MEM_SIZE_IN_PAGE - 2) * RECORDS_PER_PAGE` records. -/
theorem probe_overflow_iff (c : Config) (hB : 3 ≤ c.MEM_SIZE_IN_PAGE) (disk : Disk) (mem : Mem)
    (partitions : List Bucket) :
    ((probe c disk mem partitions).pages = none ↔
      ∃ (k : Nat) (b : Bucket), partitions[k]? = some b ∧
        b.Overflows c (probe c disk mem (partitions.take k)).disk) ∧
    ((∀ b ∈ partitions, ∀ id ∈ b.smaller_pages, id < disk.length) →
      ((probe c disk mem partitions).pages = none ↔
        ∃ b ∈ partitions, b.get_left_rel ≠ [] ∧ b.get_right_rel ≠ [] ∧
          ∃ h, h < c.MEM_SIZE_IN_PAGE - 2 ∧
            c.RECORDS_PER_PAGE < ((disk.records b.smaller_pages).filter
              (fun r => decide (hashIdx c r = h))).length)) ∧
    (∃ (c' : Config) (d : Disk) (b : Bucket),
      3 ≤ c'.MEM_SIZE_IN_PAGE ∧
      (d.records b.smaller_pages).length ≤ (c'.MEM_SIZE_IN_PAGE - 2) * c'.RECORDS_PER_PAGE ∧
      (probe c' d Mem.reset [b]).pages = none) := by
  have h1 := probeBuckets_fails_iff c hB partitions
    { disk := disk, mem := mem, result_pages := [] }
  refine ⟨h1, fun hv => ?_, ?_⟩
  · have h1' : (probe c disk mem partitions).pages = none ↔
        ∃ (k : Nat) (b : Bucket), partitions[k]? = some b ∧
          b.Overflows c (probe c disk mem (partitions.take k)).disk := h1
    rw [h1']
    constructor
    · rintro ⟨k, b, hk, hov⟩
      have hb : b ∈ partitions := List.getElem?_mem hk
      obtain ⟨t, ht⟩ := probeBuckets_disk_append c (partitions.take k)
        { disk := disk, mem := mem, result_pages := [] }
      have ht' : (probe c disk mem (partitions.take k)).disk = disk ++ t := ht
      rw [ht', Bucket.overflows_grow c disk t b (hv b hb)] at hov
      exact ⟨b, hb, hov⟩
    · rintro ⟨b, hb, hov⟩
      obtain ⟨k, hk, rfl⟩ := List.getElem_of_mem hb
      refine ⟨k, partitions[k], List.getElem?_eq_getElem hk, ?_⟩
      obtain ⟨t, ht⟩ := probeBuckets_disk_append c (partitions.take k)
        { disk := disk, mem := mem, result_pages := [] }
      have ht' : (probe c disk mem (partitions.take k)).disk = disk ++ t := ht
      rw [ht', Bucket.overflows_grow c disk t _ (hv _ hb)]
      exact hov
  · exact ⟨keyConfig 4 2, skewDisk, Bucket.mk [0, 1] [2] 0 0, by decide, by decide, by decide⟩

theorem probe_overflow_iff_witness :
    3 ≤ (keyConfig 4 2).MEM_SIZE_IN_PAGE ∧
    (∀ b ∈ [Bucket.mk [2] [0] 0 0, Bucket.mk [0, 1] [2] 0 0],
      ∀ id ∈ b.smaller_pages, id < skewDisk.length) ∧
    ((probe (keyConfig 4 2) skewDisk Mem.reset
        [Bucket.mk [2] [0] 0 0, Bucket.mk [0, 1] [2] 0 0]).pages = none ↔
      ∃ b ∈ [Bucket.mk [2] [0] 0 0, Bucket.mk [0, 1] [2] 0 0],
        b.get_left_rel ≠ [] ∧ b.get_right_rel ≠ [] ∧
        ∃ h, h < (keyConfig 4 2).MEM_SIZE_IN_PAGE - 2 ∧
          (keyConfig 4 2).RECORDS_PER_PAGE < ((skewDisk.records b.smaller_pages).filter
            (fun r => decide (hashIdx (keyConfig 4 2) r = h))).length) ∧
    (probe (keyConfig 4 2) skewDisk Mem.reset
        [Bucket.mk [2] [0] 0 0, Bucket.mk [0, 1] [2] 0 0]).pages = none :=
  ⟨by decide, by decide,
    (probe_overflow_iff (keyConfig 4 2) (by decide) skewDisk Mem.reset
      [Bucket.mk [2] [0] 0 0, Bucket.mk [0, 1] [2] 0 0]).2.1 (by decide),
    by decide⟩

/-! ## Packing of the partition pages -/

theorem PState.rel_flushBucket (s : PState) (sd : Side) {i : Nat} (j : Nat)
    (hi : i < s.partitions.length) :
    ((s.flushBucket sd i).bucket j).rel sd
      = if j = i then (s.bucket i).rel sd ++ [s.disk.length] else (s.bucket j).rel sd := by
  rw [PState.bucket_flushBucket s sd j hi]
  split
  · simp [Bucket.rel_add_rel_page]
  · rfl

theorem PState.Packed.scan_flushBucket {c : Config} {sd : Side} {s : PState}
    (hp : s.Packed c sd 0) (hv : s.Valid) {i : Nat} (hi : i < s.partitions.length)
    (hfull : (s.mem i).length = c.RECORDS_PER_PAGE) :
    (s.flushBucket sd i).Packed c sd 0 := by
  intro j
  refine ⟨fun h => absurd h (Nat.not_lt_zero j), fun _ => ⟨fun id hid => ?_, fun hj => ?_⟩⟩
  · rw [PState.rel_flushBucket s sd j hi] at hid
    rw [PState.flushBucket_disk]
    split at hid
    · next e =>
      subst e
      rcases List.mem_append.mp hid with h | h
      · rw [Disk.read_append_lt _ _ (hv.valid_bucket j sd id h)]
        exact ((hp j).2 (Nat.zero_le j)).1 id h
      · simp only [List.mem_singleton] at h
        subst h
        rw [Disk.read_append_length]
        exact hfull
    · rw [Disk.read_append_lt _ _ (hv.valid_bucket j sd id hid)]
      exact ((hp j).2 (Nat.zero_le j)).1 id hid
  · rw [PState.flushBucket_mem]
    by_cases e : j = i
    · subst e; simp
    · rw [Mem.setPage_ne _ _ e]
      exact ((hp j).2 (Nat.zero_le j)).2 hj

theorem PState.Packed.scan_setMem {c : Config} {sd : Side} {s : PState}
    (hp : s.Packed c sd 0) (m : Mem)
    (hm : ∀ j, j < c.MEM_SIZE_IN_PAGE - 1 → (m j).length ≤ c.RECORDS_PER_PAGE) :
    PState.Packed c sd 0 { s with mem := m } := by
  intro j
  exact ⟨fun h => absurd h (Nat.not_lt_zero j),
    fun _ => ⟨((hp j).2 (Nat.zero_le j)).1, hm j⟩⟩

theorem PState.Packed.scan_partitionRecord {c : Config} {sd : Side} {s : PState}
    (hp : s.Packed c sd 0) (hv : s.Valid)
    (hK : s.partitions.length = c.MEM_SIZE_IN_PAGE - 1) (hpos : 0 < c.MEM_SIZE_IN_PAGE - 1)
    (hcap : 1 ≤ c.RECORDS_PER_PAGE) (r : Record) :
    (partitionRecord c sd s r).Packed c sd 0 := by
  have hi : c.partition_hash r % (c.MEM_SIZE_IN_PAGE - 1) < c.MEM_SIZE_IN_PAGE - 1 :=
    Nat.mod_lt _ hpos
  have hle := ((hp (c.partition_hash r % (c.MEM_SIZE_IN_PAGE - 1))).2 (Nat.zero_le _)).2 hi
  unfold partitionRecord
  simp only []
  split
  · next hfull =>
    have hlen : (s.mem (c.partition_hash r % (c.MEM_SIZE_IN_PAGE - 1))).length
        = c.RECORDS_PER_PAGE := by
      simp only [Page.full, Mem.mem_page, decide_eq_true_eq] at hfull
      omega
    have h1 := hp.scan_flushBucket hv (hK ▸ hi) hlen
    refine h1.scan_setMem _ (fun j hj => ?_)
    by_cases e : j = c.partition_hash r % (c.MEM_SIZE_IN_PAGE - 1)
    · subst e
      simp [Mem.mem_page, Page.loadRecord]
      exact hcap
    · rw [Mem.setPage_ne _ _ e]
      exact ((h1 j).2 (Nat.zero_le j)).2 hj
  · next hfull =>
    refine hp.scan_setMem _ (fun j hj => ?_)
    by_cases e : j = c.partition_hash r % (c.MEM_SIZE_IN_PAGE - 1)
    · subst e
      simp only [Page.full, Mem.mem_page, decide_eq_true_eq] at hfull
      simp only [Mem.setPage_same, Mem.mem_page, Page.loadRecord, List.length_append,
        List.length_singleton]
      omega
    · rw [Mem.setPage_ne _ _ e]
      exact ((hp j).2 (Nat.zero_le j)).2 hj

theorem PState.Packed.scan_foldl_partitionRecord {c : Config} {sd : Side} {s0 : PState}
    (hK : s0.partitions.length = c.MEM_SIZE_IN_PAGE - 1) (hpos : 0 < c.MEM_SIZE_IN_PAGE - 1)
    (hcap : 1 ≤ c.RECORDS_PER_PAGE) (page : List Record) :
    ∀ {s : PState} {rs : List Record}, PInv c sd s0 s rs → s.Packed c sd 0 →
      (page.foldl (partitionRecord c sd) s).Packed c sd 0 := by
  induction page with
  | nil => intro s rs _ hp; exact hp
  | cons r page ih =>
    intro s rs h hp
    exact ih (h.keep_partitionRecord hK hpos r)
      (hp.scan_partitionRecord h.valid (h.len.trans hK) hpos hcap r)

theorem PState.Packed.scan_partitionPage {c : Config} {sd : Side} {s0 s : PState}
    {rs : List Record} (h : PInv c sd s0 s rs) (hp : s.Packed c sd 0)
    (hK : s0.partitions.length = c.MEM_SIZE_IN_PAGE - 1) (hpos : 0 < c.MEM_SIZE_IN_PAGE - 1)
    (hcap : 1 ≤ c.RECORDS_PER_PAGE) (id : Nat) :
    (partitionPage c sd s id).Packed c sd 0 := by
  unfold partitionPage
  simp only [Mem.loadFromDisk, Mem.mem_page, Mem.setPage_same]
  have hload : PInv c sd s0
      { s with mem := s.mem.setPage (c.MEM_SIZE_IN_PAGE - 1) (s.disk.read id) } rs := by
    refine h.setMem _ (fun j hj => ?_)
    have hc := h.content j hj
    unfold PState.content at hc
    have hne : j ≠ c.MEM_SIZE_IN_PAGE - 1 := by omega
    simpa [Mem.setPage_ne _ _ hne, Mem.mem_page] using hc
  refine PState.Packed.scan_foldl_partitionRecord hK hpos hcap _ hload
    (hp.scan_setMem _ (fun j hj => ?_))
  have hne : j ≠ c.MEM_SIZE_IN_PAGE - 1 := by omega
  rw [Mem.setPage_ne _ _ hne]
  exact ((hp j).2 (Nat.zero_le j)).2 hj

theorem PState.Packed.scan_foldl_partitionPage {c : Config} {sd : Side} {s0 : PState}
    (hK : s0.partitions.length = c.MEM_SIZE_IN_PAGE - 1) (hpos : 0 < c.MEM_SIZE_IN_PAGE - 1)
    (hcap : 1 ≤ c.RECORDS_PER_PAGE) (ids : List Nat) :
    ∀ {s : PState} {rs : List Record}, PInv c sd s0 s rs → s.Packed c sd 0 →
      (ids.foldl (partitionPage c sd) s).Packed c sd 0 := by
  induction ids with
  | nil => intro s rs _ hp; exact hp
  | cons id ids ih =>
    intro s rs h hp
    exact ih (h.keep_partitionPage hK hpos id) (hp.scan_partitionPage h hK hpos hcap id)

theorem PState.Packed.final_flushRemaining {c : Config} {sd : Side} {s0 s : PState}
    {rs : List Record} (h : PInv c sd s0 s rs) {n : Nat} (hp : s.Packed c sd n)
    (hK : s0.partitions.length = c.MEM_SIZE_IN_PAGE - 1) (hn : n < c.MEM_SIZE_IN_PAGE - 1)
    (hcap : 1 ≤ c.RECORDS_PER_PAGE) :
    (flushRemaining sd s n).Packed c sd (n + 1) := by
  have hlen : n < s.partitions.length := by rw [h.len, hK]; exact hn
  have hv := h.valid
  unfold flushRemaining
  split
  · next hne =>
    have hne' : s.mem n ≠ [] := by
      intro e
      simp [Page.empty, Mem.mem_page, e] at hne
    have hpos : 1 ≤ (s.mem n).length := List.length_pos.mpr hne'
    intro j
    have hread : ∀ id ∈ (s.bucket j).rel sd,
        Disk.read (s.disk ++ [s.mem n]) id = Disk.read s.disk id :=
      fun id hid => Disk.read_append_lt _ _ (hv.valid_bucket j sd id hid)
    rw [PState.rel_flushBucket s sd j hlen, PState.flushBucket_disk, PState.flushBucket_mem]
    by_cases e : j = n
    · subst e
      simp only [if_true, List.dropLast_concat]
      have hold := (hp j).2 (Nat.le_refl j)
      refine ⟨fun _ => ⟨fun id hid => ?_, fun id hid => ?_⟩, fun hge => absurd hge (by omega)⟩
      · rw [hread id hid]
        exact hold.1 id hid
      · rcases List.mem_append.mp hid with hm | hm
        · rw [hread id hm, hold.1 id hm]
          exact ⟨hcap, Nat.le_refl _⟩
        · simp only [List.mem_singleton] at hm
          subst hm
          rw [Disk.read_append_length]
          exact ⟨hpos, hold.2 hn⟩
    · simp only [if_neg e]
      refine ⟨fun hlt => ?_, fun hge => ?_⟩
      · have hold := (hp j).1 (by omega)
        refine ⟨fun id hid => ?_, fun id hid => ?_⟩
        · rw [hread id (List.mem_of_mem_dropLast hid)]
          exact hold.1 id hid
        · rw [hread id hid]
          exact hold.2 id hid
      · have hold := (hp j).2 (by omega)
        refine ⟨fun id hid => ?_, fun hj => ?_⟩
        · rw [hread id hid]
          exact hold.1 id hid
        · rw [Mem.setPage_ne _ _ e]
          exact hold.2 hj
  · intro j
    by_cases e : j = n
    · subst e
      have hold := (hp j).2 (Nat.le_refl j)
      refine ⟨fun _ => ⟨fun id hid => hold.1 id (List.mem_of_mem_dropLast hid),
        fun id hid => ?_⟩, fun hge => absurd hge (by omega)⟩
      rw [hold.1 id hid]
      exact ⟨hcap, Nat.le_refl _⟩
    · exact ⟨fun hlt => (hp j).1 (by omega), fun hge => (hp j).2 (by omega)⟩

theorem PState.Packed.final_foldl_flushRemaining {c : Config} {sd : Side} {s0 s : PState}
    {rs : List Record} (h : PInv c sd s0 s rs) (hp : s.Packed c sd 0)
    (hK : s0.partitions.length = c.MEM_SIZE_IN_PAGE - 1) (hcap : 1 ≤ c.RECORDS_PER_PAGE)
    (n : Nat) (hn : n ≤ c.MEM_SIZE_IN_PAGE - 1) :
    ((List.range n).foldl (flushRemaining sd) s).Packed c sd n := by
  induction n with
  | zero => simpa using hp
  | succ n ih =>
    have h1 := (h.keep_foldl_flushRemaining n (by omega)).1
    rw [List.range_succ, List.foldl_append]
    simp only [List.foldl_cons, List.foldl_nil]
    exact (ih (by omega)).final_flushRemaining h1 hK (by omega) hcap

/-- After a pass of `partition` every page list of the relation is packed. -/
theorem partitionRel_packed (c : Config) (sd : Side) (s0 : PState) (rel : Nat × Nat)
    (hK : s0.partitions.length = c.MEM_SIZE_IN_PAGE - 1) (hpos : 0 < c.MEM_SIZE_IN_PAGE - 1)
    (hcap : 1 ≤ c.RECORDS_PER_PAGE) (hv : s0.Valid)
    (h0 : ∀ j, j < s0.partitions.length → s0.content sd j = [])
    (hrel : ∀ j, (s0.bucket j).rel sd = []) (hmem : ∀ j, s0.mem j = []) :
    (partitionRel c sd s0 rel).Packed c sd (c.MEM_SIZE_IN_PAGE - 1) := by
  have hinit : s0.Packed c sd 0 := by
    intro j
    refine ⟨fun h => absurd h (Nat.not_lt_zero j), fun _ => ⟨fun id hid => ?_, fun _ => ?_⟩⟩
    · rw [hrel j] at hid
      simp at hid
    · rw [hmem j]
      exact Nat.zero_le _
  obtain ⟨rs, h1, _⟩ := PInv.keep_foldl_partitionPage hK hpos (pageIds rel)
    (PInv.init c sd s0 hv h0)
  have hp1 := PState.Packed.scan_foldl_partitionPage hK hpos hcap (pageIds rel)
    (PInv.init c sd s0 hv h0) hinit
  unfold partitionRel
  exact hp1.final_foldl_flushRemaining h1 hK hcap _ (Nat.le_refl _)

theorem Disk.length_records_full (d : Disk) (cap : Nat) (ids : List Nat)
    (h : ∀ id ∈ ids, (d.read id).length = cap) : (d.records ids).length = cap * ids.length := by
  induction ids with
  | nil => simp [Disk.records]
  | cons id ids ih =>
    rw [Disk.records_cons, List.length_append, h id (by simp),
      ih (fun x hx => h x (by simp [hx])), List.length_cons, Nat.mul_succ, Nat.add_comm]

/-- A packed page list of `n` records has `⌈n / cap⌉` pages. -/
theorem length_of_packed (d : Disk) (cap : Nat) (hcap : 1 ≤ cap) (ids : List Nat)
    (h1 : ∀ id ∈ ids.dropLast, (d.read id).length = cap)
    (h2 : ∀ id ∈ ids, 1 ≤ (d.read id).length ∧ (d.read id).length ≤ cap) :
    ids.length = ((d.records ids).length + cap - 1) / cap := by
  rcases List.eq_nil_or_concat ids with e | ⟨init, last, e⟩
  · subst e
    simp only [Disk.records_nil, List.length_nil, Nat.zero_add]
    exact (Nat.div_eq_of_lt (by omega)).symm
  · rw [List.concat_eq_append] at e
    subst e
    rw [List.dropLast_concat] at h1
    have hlast := h2 last (by simp)
    have hrec : (d.records (init ++ [last])).length
        = cap * init.length + (d.read last).length := by
      rw [Disk.records_append, List.length_append, Disk.length_records_full d cap init h1,
        Disk.records_singleton]
    rw [hrec, List.length_append, List.length_singleton]
    symm
    apply Nat.div_eq_of_lt_le
    · rw [Nat.add_mul, Nat.mul_comm, Nat.one_mul]
      omega
    · rw [Nat.add_mul, Nat.add_mul, Nat.mul_comm]
      simp only [Nat.one_mul]
      omega

/-- After `partition` both page lists of every bucket are packed: every page
but the last is full and every page holds between one record and a full
page. -/
theorem partition_packed (c : Config) (disk : Disk) (mem : Mem) (left_rel right_rel : Nat × Nat)
    (hB : 2 ≤ c.MEM_SIZE_IN_PAGE) (hcap : 1 ≤ c.RECORDS_PER_PAGE) (j : Nat) (sd : Side) :
    (∀ id ∈ (((partition c disk mem left_rel right_rel).bucket j).rel sd).dropLast,
      ((partition c disk mem left_rel right_rel).disk.read id).length = c.RECORDS_PER_PAGE) ∧
    (∀ id ∈ ((partition c disk mem left_rel right_rel).bucket j).rel sd,
      1 ≤ ((partition c disk mem left_rel right_rel).disk.read id).length ∧
      ((partition c disk mem left_rel right_rel).disk.read id).length ≤ c.RECORDS_PER_PAGE) := by
  have hpos : 0 < c.MEM_SIZE_IN_PAGE - 1 := by omega
  let s0 : PState :=
    { disk := disk, mem := Mem.reset,
      partitions := List.replicate (c.MEM_SIZE_IN_PAGE - 1) Bucket.new }
  have hK0 : s0.partitions.length = c.MEM_SIZE_IN_PAGE - 1 := by simp [s0]
  have hv0 : s0.Valid := by
    intro b hb sd id hid
    have : b = Bucket.new := (List.mem_replicate.mp hb).2
    subst this
    simp at hid
  have hrel0 : ∀ (sd : Side) (j : Nat), (s0.bucket j).rel sd = [] := by
    intro sd j
    simp [s0, bucket_replicate_new]
  have h00 : ∀ j, j < s0.partitions.length → s0.content Side.left j = [] := by
    intro j _
    simp [PState.content, hrel0, Disk.records, s0, Mem.reset, Mem.mem_page]
  obtain ⟨L, hL, _, _⟩ := partitionRel_spec c Side.left s0 left_rel hK0 hpos hv0 h00
  have hpL := partitionRel_packed c Side.left s0 left_rel hK0 hpos hcap hv0 h00
    (hrel0 Side.left) (fun _ => rfl)
  let s1 : PState := { partitionRel c Side.left s0 left_rel with mem := Mem.reset }
  have hb1 : ∀ j, s1.bucket j = (partitionRel c Side.left s0 left_rel).bucket j := fun _ => rfl
  have hK1 : s1.partitions.length = c.MEM_SIZE_IN_PAGE - 1 := by
    have := hL.len
    simpa [s1, hK0] using this
  have hv1 : s1.Valid := hL.valid
  have hrel1 : ∀ j, (s1.bucket j).rel Side.right = [] := by
    intro j
    rw [hb1, hL.other j Side.right (by decide)]
    exact hrel0 Side.right j
  have h10 : ∀ j, j < s1.partitions.length → s1.content Side.right j = [] := by
    intro j _
    simp [PState.content, hrel1, Disk.records, s1, Mem.reset, Mem.mem_page]
  obtain ⟨R, hR, _, _⟩ := partitionRel_spec c Side.right s1 right_rel hK1 hpos hv1 h10
  have hpR := partitionRel_packed c Side.right s1 right_rel hK1 hpos hcap hv1 h10
    hrel1 (fun _ => rfl)
  have hfin : partition c disk mem left_rel right_rel = partitionRel c Side.right s1 right_rel :=
    rfl
  rw [hfin]
  have key : ∀ (s : PState) (sd : Side), s.Packed c sd (c.MEM_SIZE_IN_PAGE - 1) →
      (∀ id ∈ ((s.bucket j).rel sd).dropLast, (s.disk.read id).length = c.RECORDS_PER_PAGE) ∧
      (∀ id ∈ (s.bucket j).rel sd,
        1 ≤ (s.disk.read id).length ∧ (s.disk.read id).length ≤ c.RECORDS_PER_PAGE) := by
    intro s sd hp
    by_cases hj : j < c.MEM_SIZE_IN_PAGE - 1
    · exact (hp j).1 hj
    · have hfull := ((hp j).2 (by omega)).1
      refine ⟨fun id hid => hfull id (List.mem_of_mem_dropLast hid), fun id hid => ?_⟩
      rw [hfull id hid]
      exact ⟨hcap, Nat.le_refl _⟩
  cases sd with
  | right => exact key _ Side.right hpR
  | left =>
    obtain ⟨t2, ht2⟩ := hR.disk
    have hl := key _ Side.left hpL
    rw [hR.other j Side.left (by decide), hb1, ht2]
    have hread : ∀ id ∈ ((partitionRel c Side.left s0 left_rel).bucket j).rel Side.left,
        Disk.read (s1.disk ++ t2) id = Disk.read (partitionRel c Side.left s0 left_rel).disk id :=
      fun id hid => Disk.read_append_lt _ _ (hL.valid.valid_bucket j Side.left id hid)
    refine ⟨fun id hid => ?_, fun id hid => ?_⟩
    · rw [hread id (List.mem_of_mem_dropLast hid)]
      exact hl.1 id hid
    · rw [hread id hid]
      exact hl.2 id hid

/-- C19 (partition is order-preserving and packs pages): with a budget of at
least two pages, a capacity of at least one record and input ranges that lie on
the disk, for the bucket at index `i` and each relation, the records of the
pages of its page list, concatenated in list order, are exactly the records of
the relation (read in ascending page id, then record order) whose partition
index is `i`, in that order; every page of the list but the last is full; and
the list has `⌈n / RECORDS_PER_PAGE⌉` pages for `n` such records. -/
theorem partition_order_packed (c : Config) (disk : Disk) (mem : Mem)
    (left_rel right_rel : Nat × Nat) (hB : 2 ≤ c.MEM_SIZE_IN_PAGE)
    (hcap : 1 ≤ c.RECORDS_PER_PAGE) (hl : left_rel.2 ≤ disk.length)
    (hr : right_rel.2 ≤ disk.length) (i : Nat) (b : Bucket)
    (hb : (partition c disk mem left_rel right_rel).partitions[i]? = some b) :
    ((partition c disk mem left_rel right_rel).disk.records b.get_left_rel
        = (disk.records (pageIds left_rel)).filter (fun r => decide (partIdx c r = i)) ∧
      (partition c disk mem left_rel right_rel).disk.records b.get_right_rel
        = (disk.records (pageIds right_rel)).filter (fun r => decide (partIdx c r = i))) ∧
    (∀ id, id ∈ b.get_left_rel.dropLast ∨ id ∈ b.get_right_rel.dropLast →
      Page.full c ((partition c disk mem left_rel right_rel).disk.read id) = true) ∧
    b.get_left_rel.length
      = (((disk.records (pageIds left_rel)).filter
          (fun r => decide (partIdx c r = i))).length + c.RECORDS_PER_PAGE - 1)
        / c.RECORDS_PER_PAGE ∧
    b.get_right_rel.length
      = (((disk.records (pageIds right_rel)).filter
          (fun r => decide (partIdx c r = i))).length + c.RECORDS_PER_PAGE - 1)
        / c.RECORDS_PER_PAGE := by
  have hlen := partition_length c disk mem left_rel right_rel
  have hi : i < c.MEM_SIZE_IN_PAGE - 1 := by
    rw [← hlen]
    exact (List.getElem?_eq_some_iff.mp hb).1
  obtain ⟨_, _, _, _, L, R, hLR, hL, hR⟩ := partition_spec c disk mem left_rel right_rel hB
  have hbi := PState.bucket_of_getElem? _ hb
  obtain ⟨h1, h2⟩ := hLR i hi
  have hpl := partition_packed c disk mem left_rel right_rel hB hcap i Side.left
  have hpr := partition_packed c disk mem left_rel right_rel hB hcap i Side.right
  rw [hbi] at h1 h2 hpl hpr
  rw [hL hl] at h1
  rw [hR hr] at h2
  have h1' : (partition c disk mem left_rel right_rel).disk.records b.get_left_rel
      = (disk.records (pageIds left_rel)).filter (fun r => decide (partIdx c r = i)) := h1
  have h2' : (partition c disk mem left_rel right_rel).disk.records b.get_right_rel
      = (disk.records (pageIds right_rel)).filter (fun r => decide (partIdx c r = i)) := h2
  refine ⟨⟨h1', h2'⟩, fun id hid => ?_, ?_, ?_⟩
  · simp only [Page.full, decide_eq_true_eq]
    rcases hid with h | h
    · exact Nat.le_of_eq (hpl.1 id h).symm
    · exact Nat.le_of_eq (hpr.1 id h).symm
  · rw [← h1']
    exact length_of_packed _ _ hcap _ hpl.1 hpl.2
  · rw [← h2']
    exact length_of_packed _ _ hcap _ hpr.1 hpr.2

theorem partition_order_packed_witness :
    2 ≤ (keyConfig 3 2).MEM_SIZE_IN_PAGE ∧ 1 ≤ (keyConfig 3 2).RECORDS_PER_PAGE ∧
    (0, 3).2 ≤ packDisk.length ∧ (3, 3).2 ≤ packDisk.length ∧
    (partition (keyConfig 3 2) packDisk Mem.reset (0, 3) (3, 3)).partitions[0]?
      = some (Bucket.mk [3, 4] [] 0 0) ∧
    (partition (keyConfig 3 2) packDisk Mem.reset (0, 3) (3, 3)).disk.records
        (Bucket.mk [3, 4] [] 0 0).get_left_rel
      = (packDisk.records (pageIds (0, 3))).filter
          (fun r => decide (partIdx (keyConfig 3 2) r = 0)) ∧
    (Bucket.mk [3, 4] [] 0 0).get_left_rel.length
      = (((packDisk.records (pageIds (0, 3))).filter
          (fun r => decide (partIdx (keyConfig 3 2) r = 0))).length
            + (keyConfig 3 2).RECORDS_PER_PAGE - 1) / (keyConfig 3 2).RECORDS_PER_PAGE :=
  ⟨by decide, by decide, by decide, by decide, by decide,
    (partition_order_packed (keyConfig 3 2) packDisk Mem.reset (0, 3) (3, 3) (by decide)
      (by decide) (by decide) (by decide) 0 (Bucket.mk [3, 4] [] 0 0) (by decide)).1.1,
    (partition_order_packed (keyConfig 3 2) packDisk Mem.reset (0, 3) (3, 3) (by decide)
      (by decide) (by decide) (by decide) 0 (Bucket.mk [3, 4] [] 0 0) (by decide)).2.2.1⟩

/-! ## Preconditions of the collaborators -/

theorem foldlCalls_forall {σ α : Type} (step : σ → α → σ) (calls : σ → α → List MemCall)
    (P : MemCall → Prop) (h : ∀ s x, ∀ e ∈ calls s x, P e) (xs : List α) :
    ∀ s, ∀ e ∈ foldlCalls step calls s xs, P e := by
  induction xs with
  | nil => intro s e he; simp [foldlCalls] at he
  | cons x xs ih =>
    intro s e he
    unfold foldlCalls at he
    rcases List.mem_append.mp he with h1 | h1
    · exact h s x e h1
    · exact ih _ e h1

theorem partitionRecordCalls_ok (c : Config) (hB : 3 ≤ c.MEM_SIZE_IN_PAGE)
    (hcap : 1 ≤ c.RECORDS_PER_PAGE) (sd : Side) (s : PState) (r : Record) :
    ∀ e ∈ partitionRecordCalls c sd s r, e.okInPartition c := by
  have hidx : c.partition_hash r % (c.MEM_SIZE_IN_PAGE - 1) < c.MEM_SIZE_IN_PAGE - 1 :=
    Nat.mod_lt _ (by omega)
  intro e he
  unfold partitionRecordCalls at he
  simp only [List.mem_append, List.mem_cons, List.mem_singleton, List.not_mem_nil,
    or_false] at he
  rcases he with (he | he) | he
  · rcases he with rfl | rfl
    · exact ⟨rfl, by omega⟩
    · show _ < c.MEM_SIZE_IN_PAGE
      omega
  · split at he
    · simp only [List.mem_singleton] at he
      subst he
      exact hidx
    · simp at he
  · subst he
    refine ⟨hidx, ?_⟩
    split
    · simp [Page.full, Mem.mem_page]
      omega
    · next hfull => simpa using hfull

theorem partitionPageCalls_ok (c : Config) (hB : 3 ≤ c.MEM_SIZE_IN_PAGE)
    (hcap : 1 ≤ c.RECORDS_PER_PAGE) (sd : Side) (s : PState) (id : Nat) :
    ∀ e ∈ partitionPageCalls c sd s id, e.okInPartition c := by
  intro e he
  unfold partitionPageCalls at he
  simp only [List.mem_append, List.mem_cons, List.mem_singleton, List.not_mem_nil,
    or_false] at he
  rcases he with (rfl | rfl) | he
  · exact ⟨rfl, by omega⟩
  · show _ < c.MEM_SIZE_IN_PAGE
    omega
  · exact foldlCalls_forall _ _ _ (partitionRecordCalls_ok c hB hcap sd) _ _ e he

theorem flushRemainingCalls_ok (c : Config) (s : PState) (i : Nat)
    (hi : i < c.MEM_SIZE_IN_PAGE - 1) : ∀ e ∈ flushRemainingCalls s i, e.okInPartition c := by
  intro e he
  unfold flushRemainingCalls at he
  simp only [List.mem_append, List.mem_singleton] at he
  rcases he with rfl | he
  · show _ < c.MEM_SIZE_IN_PAGE
    omega
  · split at he
    · simp only [List.mem_singleton] at he
      subst he
      exact hi
    · simp at he

theorem foldl_flushRemainingCalls_ok (c : Config) (sd : Side) (is : List Nat)
    (his : ∀ i ∈ is, i < c.MEM_SIZE_IN_PAGE - 1) :
    ∀ s, ∀ e ∈ foldlCalls (flushRemaining sd) flushRemainingCalls s is, e.okInPartition c := by
  induction is with
  | nil => intro s e he; simp [foldlCalls] at he
  | cons i is ih =>
    intro s e he
    unfold foldlCalls at he
    rcases List.mem_append.mp he with h1 | h1
    · exact flushRemainingCalls_ok c s i (his i (by simp)) e h1
    · exact ih (fun j hj => his j (by simp [hj])) _ e h1

theorem partitionRelCalls_ok (c : Config) (hB : 3 ≤ c.MEM_SIZE_IN_PAGE)
    (hcap : 1 ≤ c.RECORDS_PER_PAGE) (sd : Side) (s : PState) (rel : Nat × Nat) :
    ∀ e ∈ partitionRelCalls c sd s rel, e.okInPartition c := by
  intro e he
  unfold partitionRelCalls at he
  rcases List.mem_append.mp he with h1 | h1
  · exact foldlCalls_forall _ _ _ (partitionPageCalls_ok c hB hcap sd) _ _ e h1
  · exact foldl_flushRemainingCalls_ok c sd _ (fun i hi => List.mem_range.mp hi) _ e h1

theorem partitionCalls_ok (c : Config) (hB : 3 ≤ c.MEM_SIZE_IN_PAGE)
    (hcap : 1 ≤ c.RECORDS_PER_PAGE) (disk : Disk) (left_rel right_rel : Nat × Nat) :
    ∀ e ∈ partitionCalls c disk left_rel right_rel, e.okInPartition c := by
  intro e he
  unfold partitionCalls at he
  simp only [List.mem_append, List.mem_singleton] at he
  rcases he with ((rfl | he) | rfl) | he
  · trivial
  · exact partitionRelCalls_ok c hB hcap _ _ _ e he
  · trivial
  · exact partitionRelCalls_ok c hB hcap _ _ _ e he

theorem buildRecordCalls_ok (c : Config) (hB : 3 ≤ c.MEM_SIZE_IN_PAGE) (m : Mem) (r : Record) :
    ∀ e ∈ buildRecordCalls c m r, e.okInProbe c := by
  have hidx : c.probe_hash r % (c.MEM_SIZE_IN_PAGE - 2) < c.MEM_SIZE_IN_PAGE - 2 :=
    Nat.mod_lt _ (by omega)
  intro e he
  unfold buildRecordCalls at he
  simp only [List.mem_append, List.mem_cons, List.mem_singleton, List.not_mem_nil,
    or_false] at he
  rcases he with (rfl | rfl) | he
  · exact ⟨rfl, by omega⟩
  · show _ < c.MEM_SIZE_IN_PAGE
    omega
  · split at he
    · simp at he
    · next hfull =>
      simp only [List.mem_singleton] at he
      subst he
      exact ⟨hidx, by simpa using hfull⟩

theorem buildRecordsCalls_ok (c : Config) (hB : 3 ≤ c.MEM_SIZE_IN_PAGE) (rs : List Record) :
    ∀ m, ∀ e ∈ buildRecordsCalls c m rs, e.okInProbe c := by
  induction rs with
  | nil => intro m e he; simp [buildRecordsCalls] at he
  | cons r rs ih =>
    intro m e he
    unfold buildRecordsCalls at he
    rcases List.mem_append.mp he with h1 | h1
    · exact buildRecordCalls_ok c hB m r e h1
    · split at h1
      · simp at h1
      · exact ih _ e h1

theorem buildPagesCalls_ok (c : Config) (hB : 3 ≤ c.MEM_SIZE_IN_PAGE) (d : Disk)
    (ids : List Nat) : ∀ m, ∀ e ∈ buildPagesCalls c d m ids, e.okInProbe c := by
  induction ids with
  | nil => intro m e he; simp [buildPagesCalls] at he
  | cons id ids ih =>
    intro m e he
    unfold buildPagesCalls at he
    simp only [List.mem_append, List.mem_cons, List.mem_singleton, List.not_mem_nil,
      or_false] at he
    rcases he with ((rfl | rfl) | he) | he
    · exact ⟨rfl, by omega⟩
    · show _ < c.MEM_SIZE_IN_PAGE
      omega
    · exact buildRecordsCalls_ok c hB _ _ e he
    · split at he
      · simp at he
      · exact ih _ e he

theorem emitPairCalls_ok (c : Config) (hB : 3 ≤ c.MEM_SIZE_IN_PAGE) (s : RState) :
    ∀ e ∈ emitPairCalls c s, e.okInProbe c := by
  intro e he
  unfold emitPairCalls at he
  simp only [List.mem_append, List.mem_singleton] at he
  rcases he with (rfl | he) | rfl
  · show _ < c.MEM_SIZE_IN_PAGE
    omega
  · split at he
    · simp only [List.mem_singleton] at he
      subst he
      exact ⟨rfl, by omega⟩
    · simp at he
  · exact ⟨rfl, by omega⟩

theorem probeMatchCalls_ok (c : Config) (hB : 3 ≤ c.MEM_SIZE_IN_PAGE) (p : Record) (s : RState)
    (x : Record) : ∀ e ∈ probeMatchCalls c p s x, e.okInProbe c := by
  intro e he
  unfold probeMatchCalls at he
  split at he
  · exact emitPairCalls_ok c hB s e he
  · simp at he

theorem probeRecordCalls_ok (c : Config) (hB : 3 ≤ c.MEM_SIZE_IN_PAGE) (lis : Bool) (s : RState)
    (p : Record) : ∀ e ∈ probeRecordCalls c lis s p, e.okInProbe c := by
  have hidx : c.probe_hash p % (c.MEM_SIZE_IN_PAGE - 2) < c.MEM_SIZE_IN_PAGE - 2 :=
    Nat.mod_lt _ (by omega)
  intro e he
  unfold probeRecordCalls at he
  simp only [List.mem_append, List.mem_cons, List.mem_singleton, List.not_mem_nil,
    or_false] at he
  rcases he with (rfl | rfl) | he
  · exact ⟨rfl, by omega⟩
  · show _ < c.MEM_SIZE_IN_PAGE
    omega
  · exact foldlCalls_forall _ _ _ (probeMatchCalls_ok c hB p) _ _ e he

theorem probePageCalls_ok (c : Config) (hB : 3 ≤ c.MEM_SIZE_IN_PAGE) (lis : Bool) (s : RState)
    (id : Nat) : ∀ e ∈ probePageCalls c lis s id, e.okInProbe c := by
  intro e he
  unfold probePageCalls at he
  simp only [List.mem_append, List.mem_cons, List.mem_singleton, List.not_mem_nil,
    or_false] at he
  rcases he with (rfl | rfl) | he
  · exact ⟨rfl, by omega⟩
  · show _ < c.MEM_SIZE_IN_PAGE
    omega
  · exact foldlCalls_forall _ _ _ (probeRecordCalls_ok c hB lis) _ _ e he

theorem probeBucketCalls_ok (c : Config) (hB : 3 ≤ c.MEM_SIZE_IN_PAGE) (s : RState)
    (b : Bucket) : ∀ e ∈ probeBucketCalls c s b, e.okInProbe c := by
  intro e he
  unfold probeBucketCalls at he
  simp only [] at he
  rcases List.mem_append.mp he with h1 | h1
  · simp only [List.mem_singleton] at h1
    subst h1
    trivial
  · split at h1
    · simp at h1
    · rcases List.mem_append.mp h1 with h2 | h2
      · exact buildPagesCalls_ok c hB _ _ _ e h2
      · split at h2
        · simp at h2
        · simp only [List.mem_append, List.mem_singleton] at h2
          rcases h2 with (h3 | rfl) | h3
          · exact foldlCalls_forall _ _ _ (probePageCalls_ok c hB _) _ _ e h3
          · show _ < c.MEM_SIZE_IN_PAGE
            omega
          · split at h3
            · simp only [List.mem_singleton] at h3
              subst h3
              exact ⟨rfl, by omega⟩
            · simp at h3

theorem probeBucketsCalls_ok (c : Config) (hB : 3 ≤ c.MEM_SIZE_IN_PAGE) (bs : List Bucket) :
    ∀ s, ∀ e ∈ probeBucketsCalls c s bs, e.okInProbe c := by
  induction bs with
  | nil => intro s e he; simp [probeBucketsCalls] at he
  | cons b bs ih =>
    intro s e he
    unfold probeBucketsCalls at he
    rcases List.mem_append.mp he with h1 | h1
    · exact probeBucketCalls_ok c hB s b e h1
    · split at h1
      · simp at h1
      · exact ih _ e h1

/-- C18 (collaborator preconditions): with a budget of at least three pages
and a capacity of at least one record, every call that a run of `partition`
or of `probe` makes respects the preconditions of the collaborators: each
modulus (`MEM_SIZE_IN_PAGE - 1`, `MEM_SIZE_IN_PAGE - 2`) is non-zero, each frame
index is below `MEM_SIZE_IN_PAGE`, `partition` writes records only to frames
`0..MEM_SIZE_IN_PAGE - 2`, `probe` writes build-side records only to frames
`0..MEM_SIZE_IN_PAGE - 3`, loads input pages only into frame
`MEM_SIZE_IN_PAGE - 2` and emits and flushes only frame `MEM_SIZE_IN_PAGE - 1`,
and `loadRecord` is never called on a full page. -/
theorem collaborator_preconditions (c : Config) (hB : 3 ≤ c.MEM_SIZE_IN_PAGE)
    (hcap : 1 ≤ c.RECORDS_PER_PAGE) (disk : Disk) (mem : Mem) (left_rel right_rel : Nat × Nat)
    (partitions : List Bucket) :
    (∀ e ∈ partitionCalls c disk left_rel right_rel, e.okInPartition c) ∧
    (∀ e ∈ probeCalls c disk mem partitions, e.okInProbe c) :=
  ⟨partitionCalls_ok c hB hcap disk left_rel right_rel,
    probeBucketsCalls_ok c hB partitions _⟩

theorem collaborator_preconditions_witness :
    3 ≤ (keyConfig 3 2).MEM_SIZE_IN_PAGE ∧ 1 ≤ (keyConfig 3 2).RECORDS_PER_PAGE ∧
    (partitionCalls (keyConfig 3 2) probeDisk (0, 2) (2, 3)).length = 34 ∧
    (probeCalls (keyConfig 3 2) probeDisk Mem.reset [Bucket.mk [0] [2] 0 0]).length = 27 ∧
    (∀ e ∈ partitionCalls (keyConfig 3 2) probeDisk (0, 2) (2, 3),
      e.okInPartition (keyConfig 3 2)) ∧
    (∀ e ∈ probeCalls (keyConfig 3 2) probeDisk Mem.reset [Bucket.mk [0] [2] 0 0],
      e.okInProbe (keyConfig 3 2)) :=
  ⟨by decide, by decide, by decide, by decide,
    collaborator_preconditions (keyConfig 3 2) (by decide) (by decide) probeDisk Mem.reset
      (0, 2) (2, 3) [Bucket.mk [0] [2] 0 0]⟩

/-! ## Number of output pages -/

theorem partitionWith_registering (c : Config) (disk : Disk) (mem : Mem)
    (left_rel right_rel : Nat × Nat) :
    partitionWith Bucket.registering c disk mem left_rel right_rel
      = partition c disk mem left_rel right_rel := rfl

theorem foldl_keeps {α β : Type} (P : β → Prop) (f : β → α → β)
    (h : ∀ s a, P s → P (f s a)) : ∀ (l : List α) (s : β), P s → P (l.foldl f s)
  | [], _, hs => hs
  | a :: l, s, hs => foldl_keeps P f h l (f s a) (h s a hs)

theorem foldl_related {α β : Type} (R : β → β → Prop) (f g : β → α → β)
    (h : ∀ s t a, R s t → R (f s a) (g t a)) :
    ∀ (l : List α) (s t : β), R s t → R (l.foldl f s) (l.foldl g t)
  | [], _, _, hs => hs
  | a :: l, s, t, hs => foldl_related R f g h l (f s a) (g t a) (h s t a hs)

theorem PState.flushBucketWith_disk (add : BucketAdd) (s : PState) (sd : Side) (i : Nat) :
    (s.flushBucketWith add sd i).disk = s.disk ++ [s.mem.mem_page i] := rfl

theorem PState.flushBucketWith_mem (add : BucketAdd) (s : PState) (sd : Side) (i : Nat) :
    (s.flushBucketWith add sd i).mem = s.mem.setPage i [] := rfl

theorem PState.flushBucketWith_partitions (add : BucketAdd) (s : PState) (sd : Side) (i : Nat) :
    (s.flushBucketWith add sd i).partitions
      = s.partitions.modify (fun b => add (s.disk ++ [s.mem.mem_page i]) b sd s.disk.length) i :=
  rfl

/-- Appending a disk page keeps a bucket counted. -/
theorem counted_grow (d : Disk) (p : Page) (b : Bucket)
    (h : (∀ side : Side, ∀ id ∈ b.rel side, id < d.length) ∧
      b.num_left_rel_record = (d.records b.get_left_rel).length ∧
      b.num_right_rel_record = (d.records b.get_right_rel).length) :
    (∀ side : Side, ∀ id ∈ b.rel side, id < (d ++ [p]).length) ∧
      b.num_left_rel_record = ((d ++ [p]).records b.get_left_rel).length ∧
      b.num_right_rel_record = ((d ++ [p]).records b.get_right_rel).length := by
  obtain ⟨hv, hl, hr⟩ := h
  refine ⟨fun side id hid => ?_, ?_, ?_⟩
  · rw [List.length_append]
    exact Nat.lt_add_right _ (hv side id hid)
  · rw [Disk.records_grow d [p] b.get_left_rel (hv Side.left), hl]
  · rw [Disk.records_grow d [p] b.get_right_rel (hv Side.right), hr]

/-- The counting call on the page just flushed keeps a bucket counted. -/
theorem counted_counting (d : Disk) (p : Page) (b : Bucket) (sd : Side)
    (h : (∀ side : Side, ∀ id ∈ b.rel side, id < d.length) ∧
      b.num_left_rel_record = (d.records b.get_left_rel).length ∧
      b.num_right_rel_record = (d.records b.get_right_rel).length) :
    (∀ side : Side, ∀ id ∈ (Bucket.counting (d ++ [p]) b sd d.length).rel side,
        id < (d ++ [p]).length) ∧
      (Bucket.counting (d ++ [p]) b sd d.length).num_left_rel_record
        = ((d ++ [p]).records (Bucket.counting (d ++ [p]) b sd d.length).get_left_rel).length ∧
      (Bucket.counting (d ++ [p]) b sd d.length).num_right_rel_record
        = ((d ++ [p]).records (Bucket.counting (d ++ [p]) b sd d.length).get_right_rel).length := by
  obtain ⟨hv, hl, hr⟩ := counted_grow d p b h
  have hlen : (d ++ [p]).length = d.length + 1 := by simp
  cases sd with
  | left =>
    refine ⟨fun side id hid => ?_, ?_, ?_⟩
    · cases side with
      | left =>
        rcases List.mem_append.mp hid with h1 | h1
        · exact hv Side.left id h1
        · simp at h1; omega
      | right => exact hv Side.right id hid
    · show b.num_left_rel_record + ((d ++ [p]).read d.length).length
        = ((d ++ [p]).records (b.get_left_rel ++ [d.length])).length
      rw [Disk.records_append, Disk.records_singleton, List.length_append, hl]
    · exact hr
  | right =>
    refine ⟨fun side id hid => ?_, ?_, ?_⟩
    · cases side with
      | left => exact hv Side.left id hid
      | right =>
        rcases List.mem_append.mp hid with h1 | h1
        · exact hv Side.right id h1
        · simp at h1; omega
    · exact hl
    · show b.num_right_rel_record + ((d ++ [p]).read d.length).length
        = ((d ++ [p]).records (b.get_right_rel ++ [d.length])).length
      rw [Disk.records_append, Disk.records_singleton, List.length_append, hr]

theorem Counted.keep_flushBucketWith {s : PState} (h : Counted s.disk s.partitions)
    (sd : Side) (i : Nat) :
    Counted (s.flushBucketWith Bucket.counting sd i).disk
      (s.flushBucketWith Bucket.counting sd i).partitions := by
  intro b hb
  rw [PState.flushBucketWith_partitions] at hb
  rw [PState.flushBucketWith_disk]
  obtain ⟨k, hk, rfl⟩ := List.getElem_of_mem hb
  rw [List.length_modify] at hk
  rw [List.getElem_modify]
  split
  · exact counted_counting s.disk _ _ sd (h _ (List.getElem_mem hk))
  · exact counted_grow s.disk _ _ (h _ (List.getElem_mem hk))

theorem Counted.keep_partitionRecordWith (c : Config) (sd : Side) (s : PState) (r : Record)
    (h : Counted s.disk s.partitions) :
    Counted (partitionRecordWith Bucket.counting c sd s r).disk
      (partitionRecordWith Bucket.counting c sd s r).partitions := by
  unfold partitionRecordWith
  simp only []
  split
  · exact h.keep_flushBucketWith sd _
  · exact h

theorem Counted.keep_partitionPageWith (c : Config) (sd : Side) (s : PState) (id : Nat)
    (h : Counted s.disk s.partitions) :
    Counted (partitionPageWith Bucket.counting c sd s id).disk
      (partitionPageWith Bucket.counting c sd s id).partitions := by
  unfold partitionPageWith
  exact foldl_keeps (fun t : PState => Counted t.disk t.partitions) _
    (fun t r ht => Counted.keep_partitionRecordWith c sd t r ht) _ _ h

theorem Counted.keep_flushRemainingWith (sd : Side) (s : PState) (i : Nat)
    (h : Counted s.disk s.partitions) :
    Counted (flushRemainingWith Bucket.counting sd s i).disk
      (flushRemainingWith Bucket.counting sd s i).partitions := by
  unfold flushRemainingWith
  split
  · exact h.keep_flushBucketWith sd _
  · exact h

theorem Counted.keep_partitionRelWith (c : Config) (sd : Side) (s : PState) (rel : Nat × Nat)
    (h : Counted s.disk s.partitions) :
    Counted (partitionRelWith Bucket.counting c sd s rel).disk
      (partitionRelWith Bucket.counting c sd s rel).partitions := by
  unfold partitionRelWith
  exact foldl_keeps (fun t : PState => Counted t.disk t.partitions) _
    (fun t i ht => Counted.keep_flushRemainingWith sd t i ht) _ _
    (foldl_keeps (fun t : PState => Counted t.disk t.partitions) _
      (fun t id ht => Counted.keep_partitionPageWith c sd t id ht) _ _ h)

/-- With the counting calls, the buckets returned by `partition` are counted. -/
theorem partitionWith_counted (c : Config) (disk : Disk) (mem : Mem)
    (left_rel right_rel : Nat × Nat) :
    Counted (partitionWith Bucket.counting c disk mem left_rel right_rel).disk
      (partitionWith Bucket.counting c disk mem left_rel right_rel).partitions := by
  unfold partitionWith
  apply Counted.keep_partitionRelWith
  apply Counted.keep_partitionRelWith c Side.left
  intro b hb
  have : b = Bucket.new := (List.mem_replicate.mp hb).2
  subst this
  refine ⟨fun side id hid => ?_, rfl, rfl⟩
  cases side <;> simp [Bucket.rel, Bucket.new, Bucket.get_left_rel, Bucket.get_right_rel] at hid

theorem Bucket.lists_counting (d d' : Disk) (b b' : Bucket) (sd : Side) (id : Nat)
    (h : b'.lists = b.lists) :
    (Bucket.counting d' b' sd id).lists = (Bucket.registering d b sd id).lists := by
  have h1 : b'.left_rel = b.left_rel := congrArg Prod.fst h
  have h2 : b'.right_rel = b.right_rel := congrArg Prod.snd h
  cases sd <;>
    simp [Bucket.lists, Bucket.counting, Bucket.registering, Bucket.add_rel_page,
      Bucket.add_left_rel_page, Bucket.add_right_rel_page, Bucket.count_left_rel_page,
      Bucket.count_right_rel_page, Bucket.get_left_rel, Bucket.get_right_rel, h1, h2]

theorem PState.SameLists.same_flushBucketWith {s t : PState} (h : s.SameLists t)
    (sd : Side) (i : Nat) :
    (s.flushBucketWith Bucket.registering sd i).SameLists
      (t.flushBucketWith Bucket.counting sd i) := by
  obtain ⟨hd, hm, hp⟩ := h
  refine ⟨?_, ?_, ?_⟩
  · rw [PState.flushBucketWith_disk, PState.flushBucketWith_disk, hd, hm]
  · rw [PState.flushBucketWith_mem, PState.flushBucketWith_mem, hm]
  · rw [PState.flushBucketWith_partitions, PState.flushBucketWith_partitions]
    apply List.ext_getElem?
    intro j
    have hj : (t.partitions[j]?).map Bucket.lists = (s.partitions[j]?).map Bucket.lists := by
      rw [← List.getElem?_map, ← List.getElem?_map, hp]
    rw [List.getElem?_map, List.getElem?_map, List.getElem?_modify, List.getElem?_modify]
    by_cases hij : i = j
    · simp only [hij, if_true]
      cases ht : t.partitions[j]? with
      | none =>
        rw [ht] at hj
        cases hs : s.partitions[j]? with
        | none => rfl
        | some b => rw [hs] at hj; cases hj
      | some b' =>
        rw [ht] at hj
        cases hs : s.partitions[j]? with
        | none => rw [hs] at hj; cases hj
        | some b =>
          rw [hs] at hj
          simp only [Option.map_some', Option.some.injEq] at hj
          simp only [Option.map_eq_map, Option.map_some', Option.some.injEq, hd]
          exact Bucket.lists_counting _ _ b b' sd _ hj
    · simp only [hij, if_false]
      simpa using hj

theorem PState.SameLists.same_partitionRecordWith (c : Config) (sd : Side) (s t : PState)
    (r : Record) (h : s.SameLists t) :
    (partitionRecordWith Bucket.registering c sd s r).SameLists
      (partitionRecordWith Bucket.counting c sd t r) := by
  unfold partitionRecordWith
  simp only []
  rw [h.2.1]
  split
  · obtain ⟨hd, hm, hp⟩ := h.same_flushBucketWith sd
      (c.partition_hash r % (c.MEM_SIZE_IN_PAGE - 1))
    exact ⟨hd, by simp only [hm], hp⟩
  · obtain ⟨hd, hm, hp⟩ := h
    exact ⟨hd, by simp only [hm], hp⟩

theorem PState.SameLists.same_partitionPageWith (c : Config) (sd : Side) (s t : PState)
    (id : Nat) (h : s.SameLists t) :
    (partitionPageWith Bucket.registering c sd s id).SameLists
      (partitionPageWith Bucket.counting c sd t id) := by
  unfold partitionPageWith
  simp only []
  rw [h.1, h.2.1]
  exact foldl_related PState.SameLists _ _
    (fun s1 t1 r h1 => PState.SameLists.same_partitionRecordWith c sd s1 t1 r h1) _ _ _
    ⟨rfl, rfl, h.2.2⟩

theorem PState.SameLists.same_flushRemainingWith (sd : Side) (s t : PState) (i : Nat)
    (h : s.SameLists t) :
    (flushRemainingWith Bucket.registering sd s i).SameLists
      (flushRemainingWith Bucket.counting sd t i) := by
  unfold flushRemainingWith
  rw [h.2.1]
  split
  · exact h.same_flushBucketWith sd i
  · exact h

theorem PState.SameLists.same_partitionRelWith (c : Config) (sd : Side) (s t : PState)
    (rel : Nat × Nat) (h : s.SameLists t) :
    (partitionRelWith Bucket.registering c sd s rel).SameLists
      (partitionRelWith Bucket.counting c sd t rel) := by
  unfold partitionRelWith
  exact foldl_related PState.SameLists _ _
    (fun s1 t1 i h1 => PState.SameLists.same_flushRemainingWith sd s1 t1 i h1) _ _ _
    (foldl_related PState.SameLists _ _
      (fun s1 t1 id h1 => PState.SameLists.same_partitionPageWith c sd s1 t1 id h1) _ _ _ h)

/-- Whichever the calls, `partition` leaves the same disk and the same page
lists. -/
theorem partitionWith_sameLists (c : Config) (disk : Disk) (mem : Mem)
    (left_rel right_rel : Nat × Nat) :
    (partition c disk mem left_rel right_rel).SameLists
      (partitionWith Bucket.counting c disk mem left_rel right_rel) := by
  rw [← partitionWith_registering]
  unfold partitionWith
  apply PState.SameLists.same_partitionRelWith
  obtain ⟨hd, _, hp⟩ := PState.SameLists.same_partitionRelWith c Side.left
    { disk := disk, mem := Mem.reset,
      partitions := List.replicate (c.MEM_SIZE_IN_PAGE - 1) Bucket.new }
    { disk := disk, mem := Mem.reset,
      partitions := List.replicate (c.MEM_SIZE_IN_PAGE - 1) Bucket.new } left_rel
    ⟨rfl, rfl, rfl⟩
  exact ⟨hd, rfl, hp⟩

/-- C7, amended (per-partition record counts): `partition` writes no record
count itself; it calls `add_left_rel_page` / `add_right_rel_page` once for each
page it flushes, right after the flush.  For every input: given that these
calls add the number of records of the page they register, each bucket
returned by `partition` has a left record count equal to the total number of
records on the pages of its left page list and a right record count equal to
the total number of records on the pages of its right page list, the disk and
the page lists being those obtained when the calls only register the id; given
that the calls only register the page id and increment nothing, `partition` is
the function embedded above and both counts of every returned bucket are 0. -/
theorem partition_record_counts (c : Config) (disk : Disk) (mem : Mem)
    (left_rel right_rel : Nat × Nat) :
    (∀ b ∈ (partitionWith Bucket.counting c disk mem left_rel right_rel).partitions,
      b.num_left_rel_record
        = ((partitionWith Bucket.counting c disk mem left_rel right_rel).disk.records
            b.get_left_rel).length ∧
      b.num_right_rel_record
        = ((partitionWith Bucket.counting c disk mem left_rel right_rel).disk.records
            b.get_right_rel).length) ∧
    (partitionWith Bucket.counting c disk mem left_rel right_rel).disk
      = (partition c disk mem left_rel right_rel).disk ∧
    (partitionWith Bucket.counting c disk mem left_rel right_rel).partitions.map Bucket.lists
      = (partition c disk mem left_rel right_rel).partitions.map Bucket.lists ∧
    partitionWith Bucket.registering c disk mem left_rel right_rel
      = partition c disk mem left_rel right_rel ∧
    (∀ b ∈ (partition c disk mem left_rel right_rel).partitions,
      b.num_left_rel_record = 0 ∧ b.num_right_rel_record = 0) := by
  obtain ⟨hd, _, hp⟩ := partitionWith_sameLists c disk mem left_rel right_rel
  exact ⟨fun b hb => (partitionWith_counted c disk mem left_rel right_rel b hb).2, hd, hp,
    partitionWith_registering c disk mem left_rel right_rel,
    partition_counts_stay_zero c disk mem left_rel right_rel⟩

theorem partition_record_counts_witness :
    (partitionWith Bucket.counting scenarioConfig scenarioDisk Mem.reset (0, 2) (2, 3)).partitions
      = [Bucket.mk [3] [7] 1 1, Bucket.mk [4] [8] 2 1, Bucket.mk [5] [9] 2 1,
          Bucket.mk [6] [] 1 0] ∧
    (partition scenarioConfig scenarioDisk Mem.reset (0, 2) (2, 3)).partitions
      = [Bucket.mk [3] [7] 0 0, Bucket.mk [4] [8] 0 0, Bucket.mk [5] [9] 0 0,
          Bucket.mk [6] [] 0 0] ∧
    (∀ b ∈ (partitionWith Bucket.counting scenarioConfig scenarioDisk Mem.reset
        (0, 2) (2, 3)).partitions,
      b.num_left_rel_record
        = ((partitionWith Bucket.counting scenarioConfig scenarioDisk Mem.reset
            (0, 2) (2, 3)).disk.records b.get_left_rel).length ∧
      b.num_right_rel_record
        = ((partitionWith Bucket.counting scenarioConfig scenarioDisk Mem.reset
            (0, 2) (2, 3)).disk.records b.get_right_rel).length) :=
  ⟨by decide, by decide,
    (partition_record_counts scenarioConfig scenarioDisk Mem.reset (0, 2) (2, 3)).1⟩

end GHJ
